import Mathlib

/-!
Relay contracts: aggregate-signature proof pipeline

A shallow embedding of `pkg/proof` (validator-set normalisation, the native
MiMC valset hash, the circuit's accumulation loop, the public input hash) and
of `offchain/bls` (key pairs, hash-to-G1, sign, verify).

Big integers are `Nat`. Byte strings are `List Nat` whose entries are below 256.
Library primitives that the repository only calls (the MiMC block cipher, the
pairing, Keccak-256) are parameters or documented reference models.
-/

namespace Relay

/-! ## Constants of `offchain/bls/bls.go` and `pkg/proof/proof.go` -/

/-- FpModulus of bls.go: the base-field modulus of BN254. -/
def FpModulus : Nat :=
  21888242871839275222246405745257275088696311157297823662689037894645226208583

/-- FrModulus of bls.go: the scalar-field modulus of BN254. -/
def FrModulus : Nat :=
  21888242871839275222246405745257275088548364400416034343698204186575808495617

/-- MaxValidators of proof.go: the supported circuit capacities. -/
def MaxValidators : List Nat := [10]

/-! ## Byte strings and big integers (`math/big`) -/

/-- The value of a big-endian byte string, as `big.Int.SetBytes` computes it. -/
def SetBytes (b : List Nat) : Nat :=
  b.foldl (fun acc x => acc * 256 + x) 0

/-- The `n` low-order base-256 digits of `x`, most significant first. -/
def toBytesBE : Nat → Nat → List Nat
  | 0, _ => []
  | n + 1, x => toBytesBE n (x / 256) ++ [x % 256]

/-- FillBytes of `math/big`: writes `x` big-endian into a zero-extended buffer
of `n` bytes; it panics (here `none`) when `x` does not fit. -/
def FillBytes (x n : Nat) : Option (List Nat) :=
  if x < 256 ^ n then some (toBytesBE n x) else none

/-- The slice expression `b[lo:hi]`. -/
def slice (b : List Nat) (lo hi : Nat) : List Nat :=
  (b.take hi).drop lo

/-! ## Data model of `pkg/proof/proof.go` -/

/-- An affine G1 point of gnark-crypto: two base-field coordinates in canonical
form. The point at infinity is stored as (0, 0). -/
structure G1Affine where
  X : Nat
  Y : Nat
  deriving DecidableEq, Repr

/-- An affine G2 point: two coordinates in the quadratic extension. -/
structure G2Affine where
  XA0 : Nat
  XA1 : Nat
  YA0 : Nat
  YA1 : Nat
  deriving DecidableEq, Repr

/-- The value `SetInfinity` leaves in a G1 point. -/
def G1Affine.infinity : G1Affine := ⟨0, 0⟩

/-- The value `SetInfinity` leaves in a G2 point. -/
def G2Affine.infinity : G2Affine := ⟨0, 0, 0, 0⟩

/-- ValidatorData of proof.go. -/
structure ValidatorData where
  PrivateKey : Nat
  Key : G1Affine
  KeyG2 : G2Affine
  VotingPower : Nat
  IsNonSigner : Bool
  deriving DecidableEq, Repr

/-- The filler entry that NormalizeValset pads with. -/
def fillerValidator : ValidatorData :=
  { PrivateKey := 0, Key := G1Affine.infinity, KeyG2 := G2Affine.infinity,
    VotingPower := 0, IsNonSigner := false }

/-- The filler test shared by HashValset and the circuit: both coordinates of
the key are zero. -/
def isFillerKey (k : G1Affine) : Bool :=
  k.X == 0 && k.Y == 0

/-! ## `sort.Slice` on short slices and `NormalizeValset` (helpers.go) -/

/-- The comparator NormalizeValset passes to `sort.Slice`. -/
def keyLess (a b : ValidatorData) : Bool :=
  decide (a.Key.X < b.Key.X) || decide (a.Key.Y < b.Key.Y)

/-- One pass of the inner loop of Go's insertion sort: `x` sits right of the
sorted prefix and is swapped leftwards while `less x left-neighbour` holds. The
prefix is given last element first. -/
def insertLeft {α : Type} (less : α → α → Bool) (x : α) : List α → List α
  | [] => [x]
  | y :: ys => if less x y then y :: insertLeft less x ys else x :: y :: ys

/-- The order `sort.Slice` leaves a slice of at most 12 elements in: Go's
pattern-defeating quicksort falls back to insertion sort at that length. -/
def sortSlice {α : Type} (less : α → α → Bool) (data : List α) : List α :=
  (data.foldl (fun acc x => insertLeft less x acc) []).reverse

/-- getOptimalN of helpers.go: the first capacity that is large enough, or 0. -/
def getOptimalN (valsetLength : Nat) : Nat :=
  let capSize :=
    match MaxValidators.find? (fun m => decide (m ≥ valsetLength)) with
    | some m => m
    | none => 0
  if capSize == 0 then 0 else capSize

/-- The caller's slice after NormalizeValset returned: sorted in place. -/
def sortValset (valset : List ValidatorData) : List ValidatorData :=
  sortSlice keyLess valset

/-- NormalizeValset of helpers.go: the returned slice. It has `getOptimalN`
entries; entry `i` is the sorted input's entry `i` when there is one and the
filler otherwise. (For more than 10 inputs it is empty, whatever the sort
algorithm left in the caller's slice.) -/
def NormalizeValset (valset : List ValidatorData) : List ValidatorData :=
  let sorted := sortValset valset
  let n := getOptimalN sorted.length
  (List.range n).map fun i =>
    if i < sorted.length then sorted.getD i fillerValidator else fillerValidator

/-! ## Reference model of the curve arithmetic the repository calls

gnark-crypto's `ScalarMultiplication` and `Add` on affine points, written with
the textbook chord-and-tangent rule (the curve coefficient `a` is 0 on both
groups). The point at infinity is (0, 0). -/

/-- Square-and-multiply: `acc * b ^ e` modulo `m`; the fuel bounds the
number of halvings of `e`. -/
def powModAux : Nat → Nat → Nat → Nat → Nat → Nat
  | 0, _, _, _, acc => acc
  | fuel + 1, b, e, m, acc =>
    if e = 0 then acc
    else powModAux fuel (b * b % m) (e / 2) m (if e % 2 = 1 then acc * b % m else acc)

/-- The value of `big.Int.Exp(b, e, m)`: `b ^ e` modulo `m`. -/
def powMod (b e m : Nat) : Nat :=
  powModAux e (b % m) e m (1 % m)

/-- Inverse in the base field. -/
def fpInv (a : Nat) : Nat :=
  powMod a (FpModulus - 2) FpModulus

/-- Subtraction in the base field. -/
def fpSub (a b : Nat) : Nat :=
  (a % FpModulus + (FpModulus - b % FpModulus)) % FpModulus

/-- The generator of G1 that `bn254.Generators` returns. -/
def g1Gen : G1Affine := ⟨1, 2⟩

/-- Addition of affine G1 points. -/
def g1Add (P Q : G1Affine) : G1Affine :=
  if P.X = 0 ∧ P.Y = 0 then Q
  else if Q.X = 0 ∧ Q.Y = 0 then P
  else if P.X = Q.X ∧ (P.Y + Q.Y) % FpModulus = 0 then G1Affine.infinity
  else
    let l :=
      if P.X = Q.X then 3 * P.X * P.X % FpModulus * fpInv (2 * P.Y) % FpModulus
      else fpSub Q.Y P.Y * fpInv (fpSub Q.X P.X) % FpModulus
    let x := fpSub (fpSub (l * l) P.X) Q.X
    ⟨x, fpSub (l * fpSub P.X x) P.Y⟩

/-- Double-and-add on G1: `acc + k * P`. -/
def g1ScalarMulAux : Nat → G1Affine → Nat → G1Affine → G1Affine
  | 0, _, _, acc => acc
  | fuel + 1, P, k, acc =>
    if k = 0 then acc
    else g1ScalarMulAux fuel (g1Add P P) (k / 2) (if k % 2 = 1 then g1Add acc P else acc)

/-- The result of `ScalarMultiplication` on G1. -/
def g1ScalarMul (P : G1Affine) (k : Nat) : G1Affine :=
  g1ScalarMulAux k P k G1Affine.infinity

/-- An element `a0 + a1 * u` of the quadratic extension, `u * u = -1`. -/
abbrev Fp2 := Nat × Nat

/-- Addition in the quadratic extension. -/
def fp2Add (a b : Fp2) : Fp2 :=
  ((a.1 + b.1) % FpModulus, (a.2 + b.2) % FpModulus)

/-- Subtraction in the quadratic extension. -/
def fp2Sub (a b : Fp2) : Fp2 :=
  (fpSub a.1 b.1, fpSub a.2 b.2)

/-- Multiplication in the quadratic extension. -/
def fp2Mul (a b : Fp2) : Fp2 :=
  (fpSub (a.1 * b.1) (a.2 * b.2), (a.1 * b.2 + a.2 * b.1) % FpModulus)

/-- Inverse in the quadratic extension. -/
def fp2Inv (a : Fp2) : Fp2 :=
  let n := fpInv (a.1 * a.1 + a.2 * a.2)
  (a.1 * n % FpModulus, fpSub 0 (a.2 * n))

/-- The generator of G2 that `bn254.Generators` returns. -/
def g2Gen : G2Affine :=
  ⟨10857046999023057135944570762232829481370756359578518086990519993285655852781,
   11559732032986387107991004021392285783925812861821192530917403151452391805634,
   8495653923123431417604973247489272438418190587263600148770280649306958101930,
   4082367875863433681332203403145435568316851327593401208105741076214120093531⟩

/-- Addition of affine G2 points. -/
def g2Add (P Q : G2Affine) : G2Affine :=
  let px : Fp2 := (P.XA0, P.XA1)
  let py : Fp2 := (P.YA0, P.YA1)
  let qx : Fp2 := (Q.XA0, Q.XA1)
  let qy : Fp2 := (Q.YA0, Q.YA1)
  if P = G2Affine.infinity then Q
  else if Q = G2Affine.infinity then P
  else if px = qx ∧ fp2Add py qy = (0, 0) then G2Affine.infinity
  else
    let l :=
      if px = qx then fp2Mul (fp2Mul (3, 0) (fp2Mul px px)) (fp2Inv (fp2Add py py))
      else fp2Mul (fp2Sub qy py) (fp2Inv (fp2Sub qx px))
    let x := fp2Sub (fp2Sub (fp2Mul l l) px) qx
    let y := fp2Sub (fp2Mul l (fp2Sub px x)) py
    ⟨x.1, x.2, y.1, y.2⟩

/-- Double-and-add on G2: `acc + k * P`. -/
def g2ScalarMulAux : Nat → G2Affine → Nat → G2Affine → G2Affine
  | 0, _, _, acc => acc
  | fuel + 1, P, k, acc =>
    if k = 0 then acc
    else g2ScalarMulAux fuel (g2Add P P) (k / 2) (if k % 2 = 1 then g2Add acc P else acc)

/-- The result of `ScalarMultiplication` on G2. -/
def g2ScalarMul (P : G2Affine) (k : Nat) : G2Affine :=
  g2ScalarMulAux k P k G2Affine.infinity

/-- getPubkeyG1 of helpers.go. -/
def getPubkeyG1 (pk : Nat) : G1Affine :=
  g1ScalarMul g1Gen pk

/-- getPubkeyG2 of helpers.go. -/
def getPubkeyG2 (pk : Nat) : G2Affine :=
  g2ScalarMul g2Gen pk

/-- genValset of proof_test.go: validator `i` has private key `i + 10` and
voting power 100; the listed indices are then marked as non-signers. -/
def genValset (numValidators : Nat) (nonSigners : List Nat) : List ValidatorData :=
  let valset := (List.range numValidators).map fun i =>
    ({ PrivateKey := i + 10, Key := getPubkeyG1 (i + 10), KeyG2 := getPubkeyG2 (i + 10),
       VotingPower := 100, IsNonSigner := false } : ValidatorData)
  nonSigners.foldl
    (fun vs nonSigner => vs.modify (fun v => { v with IsNonSigner := true }) nonSigner) valset

/-! ## The native MiMC sponge (gnark-crypto `fr/mimc`) and `HashValset` -/

/-- BlockSize of the MiMC hasher: one field element. -/
def BlockSize : Nat := 32

/-- One absorption of the Miyaguchi-Preneel sponge, as both the native
`checksum` and the circuit's `Sum` run it: `h <- E_h(m) + h + m` in the scalar
field. The block cipher `enc` (key first) is the library's and stays a
parameter. -/
def mimcStep (enc : Nat → Nat → Nat) (h m : Nat) : Nat :=
  (enc h m + h + m) % FrModulus

/-- The sponge state after absorbing `data` from state `h`. -/
def mimcSum (enc : Nat → Nat → Nat) (h : Nat) (data : List Nat) : Nat :=
  data.foldl (mimcStep enc) h

/-- The block loop of the native `Write`: every 32-byte block that encodes a
value below the modulus is appended as a field element; the first block that
does not stops the call with an error (which HashValset ignores), leaving the
elements appended so far. -/
def mimcWriteBlocks : Nat → List Nat → List Nat → List Nat
  | 0, data, _ => data
  | fuel + 1, data, p =>
    if p.length < BlockSize then data
    else
      let elem := SetBytes (p.take BlockSize)
      if elem < FrModulus then mimcWriteBlocks fuel (data ++ [elem]) (p.drop BlockSize)
      else data

/-- The native `Write`: a non-empty input shorter than a block is left-padded
with zeros to one block first. -/
def mimcWrite (data p : List Nat) : List Nat :=
  let p :=
    if 0 < p.length ∧ p.length < BlockSize then List.replicate (BlockSize - p.length) 0 ++ p
    else p
  mimcWriteBlocks (p.length / BlockSize + 1) data p

/-- The loop of HashValset over the field elements written so far: it stops at
the first filler; `none` is the panic of FillBytes on a voting power of more
than 32 bytes. -/
def hashValsetLoop : List ValidatorData → List Nat → Option (List Nat)
  | [], d => some d
  | v :: vs, d =>
    if isFillerKey v.Key then some d
    else
      let xBytes := toBytesBE 32 v.Key.X
      let yBytes := toBytesBE 32 v.Key.Y
      let d := mimcWrite d (slice xBytes 24 32)
      let d := mimcWrite d (slice xBytes 16 24)
      let d := mimcWrite d (slice xBytes 8 16)
      let d := mimcWrite d (slice xBytes 0 8)
      let d := mimcWrite d (slice yBytes 24 32)
      let d := mimcWrite d (slice yBytes 16 24)
      let d := mimcWrite d (slice yBytes 8 16)
      let d := mimcWrite d (slice yBytes 0 8)
      match FillBytes v.VotingPower 32 with
      | none => none
      | some votingPowerBuf => hashValsetLoop vs (mimcWrite d votingPowerBuf)

/-- HashValset of helpers.go: the 32 bytes of the sponge state. -/
def HashValset (enc : Nat → Nat → Nat) (valset : List ValidatorData) : Option (List Nat) :=
  (hashValsetLoop valset []).map fun d => toBytesBE 32 (mimcSum enc 0 d)

/-! ## `getNonSignersData`, `getAggSignature` (helpers.go) -/

/-- getNonSignersData of helpers.go: the aggregate key and voting power of the
non-signers, and the total voting power. -/
def getNonSignersData (valset : List ValidatorData) : G1Affine × Nat × Nat :=
  valset.foldl
    (fun acc v =>
      let aggKey := if v.IsNonSigner then g1Add acc.1 v.Key else acc.1
      let aggVotingPower := if v.IsNonSigner then acc.2.1 + v.VotingPower else acc.2.1
      (aggKey, aggVotingPower, acc.2.2 + v.VotingPower))
    (G1Affine.infinity, 0, 0)

/-- The voting power Prove returns and setCircuitData assigns: the total minus
the non-signers' share. -/
def signersAggVotingPower (valset : List ValidatorData) : Nat :=
  (getNonSignersData valset).2.2 - (getNonSignersData valset).2.1

/-- getAggSignature of helpers.go: aggregate signature, G2 key and G1 key of the
signers. -/
def getAggSignature (message : G1Affine) (valset : List ValidatorData) :
    G1Affine × G2Affine × G1Affine :=
  valset.foldl
    (fun acc v =>
      if v.IsNonSigner then acc
      else (g1Add acc.1 (g1ScalarMul message v.PrivateKey), g2Add acc.2.1 v.KeyG2,
        g1Add acc.2.2 v.Key))
    (G1Affine.infinity, G2Affine.infinity, G1Affine.infinity)

/-! ## The circuit (circuit.go) -/

/-- ValidatorDataCircuit of circuit.go, by the values assigned to it. -/
structure ValidatorDataCircuit where
  Key : G1Affine
  VotingPower : Nat
  IsNonSigner : Nat
  deriving DecidableEq, Repr

/-- The four 64-bit limbs of an emulated base-field element, least significant
first. -/
def emulatedLimbs (x : Nat) : List Nat :=
  (List.range 4).map fun i => (x / 2 ^ (64 * i)) % 2 ^ 64

/-- The scalar-field value of an assigned variable. -/
def frOf (x : Nat) : Nat :=
  x % FrModulus

/-- The `api.Add` of the scalar field. -/
def apiAdd (a b : Nat) : Nat :=
  (a + b) % FrModulus

/-- The `api.Select`: the first branch when the condition is 1. -/
def apiSelect {α : Type} (c : Nat) (a b : α) : α :=
  if c = 1 then a else b

/-- The `api.And` of two booleans. -/
def apiAnd (a b : Nat) : Nat :=
  a * b

/-- The `api.Or` of two booleans. -/
def apiOr (a b : Nat) : Nat :=
  a + b - a * b

/-- The `IsZero` of the emulated base field: 1 when the element is zero modulo
the base-field modulus. -/
def fpIsZero (x : Nat) : Nat :=
  if x % FpModulus = 0 then 1 else 0

/-- The variables the loop of Define carries. -/
structure LoopState where
  mimcH : Nat
  valsetHash : Nat
  signersAggVotingPower : Nat
  signersAggKey : G1Affine
  deriving DecidableEq, Repr

/-- One iteration of the loop of Define: the key limbs and the voting power are
written to the sponge and summed for every slot, and the three accumulators
take the new value only for a slot that is not skipped. -/
def defineStep (enc : Nat → Nat → Nat) (s : LoopState) (v : ValidatorDataCircuit) :
    LoopState :=
  let sum := mimcSum enc s.mimcH
    (emulatedLimbs v.Key.X ++ emulatedLimbs v.Key.Y ++ [frOf v.VotingPower])
  let isFillerValidatorData := apiAnd (fpIsZero v.Key.X) (fpIsZero v.Key.Y)
  let isFillerOrNonSigner := apiOr isFillerValidatorData v.IsNonSigner
  { mimcH := sum
    valsetHash := apiSelect isFillerValidatorData s.valsetHash sum
    signersAggVotingPower :=
      apiSelect isFillerOrNonSigner s.signersAggVotingPower
        (apiAdd s.signersAggVotingPower (frOf v.VotingPower))
    signersAggKey :=
      apiSelect isFillerOrNonSigner s.signersAggKey (g1Add s.signersAggKey v.Key) }

/-- The loop of Define over all slots, from the zero state. -/
def defineLoop (enc : Nat → Nat → Nat) (vd : List ValidatorDataCircuit) : LoopState :=
  vd.foldl (defineStep enc) ⟨0, 0, 0, ⟨0, 0⟩⟩

/-- The slot setCircuitData assigns from one validator: the key, the voting
power, and 1 for a non-signer, 0 otherwise. -/
def circuitSlot (v : ValidatorData) : ValidatorDataCircuit :=
  { Key := v.Key, VotingPower := v.VotingPower, IsNonSigner := if v.IsNonSigner then 1 else 0 }

/-- The slots setCircuitData assigns from the prove input. -/
def circuitValidatorData (valset : List ValidatorData) : List ValidatorDataCircuit :=
  valset.map circuitSlot

/-- The `bits.ToBinary` of an honest witness: the binary digits of the value,
least significant first. -/
def ToBinary (v nbDigits : Nat) : List Nat :=
  (List.range nbDigits).map fun i => (v / 2 ^ i) % 2

/-- variableToBytes of helpers.go: byte `i` is assembled from bits
`8*(32-i)-8 .. 8*(32-i)-1` of the 256-bit decomposition. -/
def variableToBytes (v : Nat) : List Nat :=
  let hexVar := ToBinary v 256
  (List.range 32).map fun i =>
    128 * hexVar.getD (8 * (32 - i) - 1) 0 + 64 * hexVar.getD (8 * (32 - i) - 2) 0 +
    32 * hexVar.getD (8 * (32 - i) - 3) 0 + 16 * hexVar.getD (8 * (32 - i) - 4) 0 +
    8 * hexVar.getD (8 * (32 - i) - 5) 0 + 4 * hexVar.getD (8 * (32 - i) - 6) 0 +
    2 * hexVar.getD (8 * (32 - i) - 7) 0 + 1 * hexVar.getD (8 * (32 - i) - 8) 0

/-- The masking Define applies to the Keccak digest: byte 0 is ANDed with
0x1f, the other bytes stay. -/
def circuitMaskDigest (inputDataHash : List Nat) : List Nat :=
  inputDataHash.set 0 (inputDataHash.getD 0 0 &&& 0x1f)

/-- The constant both setCircuitData and Verify parse from the hex string
1FFF...FF (64 digits). -/
def inputHashMask : Nat :=
  0x1FFFFFFFFFFFFFFFFFFFFFFFFFFFFFFFFFFFFFFFFFFFFFFFFFFFFFFFFFFFFFFF

/-- RawBytes of a G1 point: X then Y, 32 big-endian bytes each (the
uncompressed flag of BN254 is zero). -/
def RawBytes (p : G1Affine) : List Nat :=
  toBytesBE 32 p.X ++ toBytesBE 32 p.Y

/-- ProveInput of circuit.go. -/
structure ProveInput where
  ValidatorData : List ValidatorData
  MessageG1 : G1Affine
  Signature : G1Affine
  SignersAggKeyG2 : G2Affine
  deriving DecidableEq, Repr

/-- Circuit of circuit.go, by the values assigned to it. -/
structure Circuit where
  InputHash : Nat
  SignersAggVotingPower : Nat
  Message : G1Affine
  Signature : G1Affine
  SignersAggKeyG2 : G2Affine
  ValidatorData : List ValidatorDataCircuit
  deriving DecidableEq, Repr

/-- The last part of setCircuitData: the public input hash from the valset hash
bytes, the signers' voting power and the message. `none` is the panic of
FillBytes. -/
def assignedInputHash (keccak : List Nat → List Nat) (valsetHash : List Nat)
    (signersAggVotingPower : Nat) (MessageG1 : G1Affine) : Option Nat :=
  match FillBytes signersAggVotingPower 32 with
  | none => none
  | some aggVotingPowerBuffer =>
    let messageBytes := RawBytes MessageG1
    let inputHashBytes := valsetHash ++ aggVotingPowerBuffer ++ messageBytes
    let inputHash := keccak inputHashBytes
    some (SetBytes inputHash &&& inputHashMask)

/-- setCircuitData of circuit.go. -/
def setCircuitData (keccak : List Nat → List Nat) (enc : Nat → Nat → Nat)
    (proveInput : ProveInput) : Option Circuit :=
  match HashValset enc proveInput.ValidatorData with
  | none => none
  | some valsetHash =>
    match assignedInputHash keccak valsetHash
        (signersAggVotingPower proveInput.ValidatorData) proveInput.MessageG1 with
    | none => none
    | some inputHashInt =>
      some
        { InputHash := inputHashInt
          SignersAggVotingPower := signersAggVotingPower proveInput.ValidatorData
          Message := proveInput.MessageG1
          Signature := proveInput.Signature
          SignersAggKeyG2 := proveInput.SignersAggKeyG2
          ValidatorData := circuitValidatorData proveInput.ValidatorData }

/-- The public input Verify assigns from the caller's 32-byte hash. -/
def verifyInputHash (publicInputHash : List Nat) : Nat :=
  SetBytes publicInputHash &&& inputHashMask

/-- The `common.BytesToHash`: the last 32 bytes, left-padded with zeros. -/
def BytesToHash (b : List Nat) : List Nat :=
  if 32 < b.length then b.drop (b.length - 32)
  else List.replicate (32 - b.length) 0 ++ b

/-- calculateInputHash of proof_test.go; `none` is the panic of FillBytes. -/
def calculateInputHash (keccak : List Nat → List Nat) (validatorSetHash : List Nat)
    (signersVotingPower : Nat) (messageG1 : G1Affine) : Option (List Nat) :=
  match FillBytes signersVotingPower 32 with
  | none => none
  | some signersVPBytes =>
    let packed := slice validatorSetHash 0 32 ++ signersVPBytes ++
      toBytesBE 32 messageG1.X ++ toBytesBE 32 messageG1.Y
    some (BytesToHash (keccak packed))

/-! ## Reference model of Keccak-256 (go-ethereum `crypto.Keccak256`) -/

/-- Rotation of a 64-bit lane to the left. -/
def rotl64 (x n : Nat) : Nat :=
  ((x <<< n) ||| (x >>> (64 - n))) % 2 ^ 64

/-- The 24 round constants of Keccak-f[1600]. -/
def keccakRoundConstants : List Nat :=
  [0x1, 0x8082, 0x800000000000808a, 0x8000000080008000, 0x808b, 0x80000001,
   0x8000000080008081, 0x8000000000008009, 0x8a, 0x88, 0x80008009, 0x8000000a,
   0x8000808b, 0x800000000000008b, 0x8000000000008089, 0x8000000000008003,
   0x8000000000008002, 0x8000000000000080, 0x800a, 0x800000008000000a,
   0x8000000080008081, 0x8000000000008080, 0x80000001, 0x8000000080008008]

/-- The rho and pi steps as a table: lane `j` of the output is lane `fst` of the
input rotated by `snd`. Lane (x, y) has index `x + 5 * y`. -/
def keccakRhoPi : List (Nat × Nat) :=
  [(0, 0), (6, 44), (12, 43), (18, 21), (24, 14), (3, 28), (9, 20), (10, 3),
   (16, 45), (22, 61), (1, 1), (7, 6), (13, 25), (19, 8), (20, 18), (4, 27),
   (5, 36), (11, 10), (17, 15), (23, 56), (2, 62), (8, 55), (14, 39), (15, 41),
   (21, 2)]

/-- One round of Keccak-f[1600]: theta, rho, pi, chi, iota. -/
def keccakRound (A : List Nat) (rc : Nat) : List Nat :=
  let C := (List.range 5).map fun x =>
    A.getD x 0 ^^^ A.getD (x + 5) 0 ^^^ A.getD (x + 10) 0 ^^^ A.getD (x + 15) 0 ^^^ A.getD (x + 20) 0
  let D := (List.range 5).map fun x =>
    C.getD ((x + 4) % 5) 0 ^^^ rotl64 (C.getD ((x + 1) % 5) 0) 1
  let A1 := (List.range 25).map fun i => A.getD i 0 ^^^ D.getD (i % 5) 0
  let B := keccakRhoPi.map fun sr => rotl64 (A1.getD sr.1 0) sr.2
  let A2 := (List.range 25).map fun i =>
    B.getD i 0 ^^^
      ((2 ^ 64 - 1 - B.getD ((i % 5 + 1) % 5 + 5 * (i / 5)) 0) &&& B.getD ((i % 5 + 2) % 5 + 5 * (i / 5)) 0)
  A2.set 0 (A2.getD 0 0 ^^^ rc)

/-- The permutation Keccak-f[1600] on 25 lanes. -/
def keccakF (A : List Nat) : List Nat :=
  keccakRoundConstants.foldl keccakRound A

/-- The value of a little-endian byte string. -/
def laneLE (b : List Nat) : Nat :=
  b.foldr (fun x acc => x + 256 * acc) 0

/-- The 8 little-endian bytes of a lane. -/
def laneBytesLE (x : Nat) : List Nat :=
  (List.range 8).map fun i => (x / 256 ^ i) % 256

/-- The legacy Keccak padding to a multiple of the rate (136 bytes): 0x01, zeros,
and 0x80 on the last byte. -/
def keccakPad (data : List Nat) : List Nat :=
  let q := 136 - data.length % 136
  if q = 1 then data ++ [0x81]
  else data ++ [0x01] ++ List.replicate (q - 2) 0 ++ [0x80]

/-- Absorption of the padded input, one 136-byte block per step. -/
def keccakAbsorb : Nat → List Nat → List Nat → List Nat
  | 0, A, _ => A
  | fuel + 1, A, data =>
    if data.length < 136 then A
    else
      let blk := data.take 136
      let A1 := (List.range 25).map fun i =>
        if i < 17 then A.getD i 0 ^^^ laneLE ((blk.drop (8 * i)).take 8) else A.getD i 0
      keccakAbsorb fuel (keccakF A1) (data.drop 136)

/-- Reference model of `crypto.Keccak256` on one byte string. -/
def keccak256 (data : List Nat) : List Nat :=
  let padded := keccakPad data
  let A := keccakAbsorb (padded.length / 136) (List.replicate 25 0) padded
  ((List.range 4).map fun i => laneBytesLE (A.getD i 0)).flatten

/-! ## BLS on BN254 (`offchain/bls/bls.go`) -/

/-- findYFromX of bls.go: `beta = x^3 + 3` and the candidate root
`y = beta^((p+1)/4)`, both modulo the base-field modulus. -/
def findYFromX (x : Nat) : Nat × Nat :=
  let beta := (powMod x 3 FpModulus + 3) % FpModulus
  let exponent := 0xc19139cb84c680a6e14116da060561765e05aa45a1c72a34f082305b61f3f52
  let y := powMod beta exponent FpModulus
  (beta, y)

/-- The loop of hashToG1: try `x`, then `x + 1` modulo p, until the candidate
root squares to `beta`. `none` only when the fuel runs out. -/
def hashToG1Loop : Nat → Nat → Option G1Affine
  | 0, _ => none
  | fuel + 1, x =>
    let (beta, y) := findYFromX x
    if y * y % FpModulus = beta then some ⟨x, y⟩
    else hashToG1Loop fuel ((x + 1) % FpModulus)

/-- hashToG1 of bls.go. The loop of the source is unbounded; the fuel given
here is never used up (see `hashToG1_isSome`). -/
def hashToG1 (data : List Nat) : Option G1Affine :=
  hashToG1Loop FpModulus (SetBytes data % FpModulus)

/-- The pairing of the curve library: two additive groups, a multiplicative
target group, the two generators and a bilinear map. -/
structure Pairing (G1 G2 GT : Type) [AddCommGroup G1] [AddCommGroup G2] [CommGroup GT] where
  e : G1 → G2 → GT
  g1 : G1
  g2 : G2
  add_left : ∀ a b q, e (a + b) q = e a q * e b q
  add_right : ∀ p a b, e p (a + b) = e p a * e p b

section bls

variable {G1 G2 GT : Type} [AddCommGroup G1] [AddCommGroup G2] [CommGroup GT]

/-- The product of pairings that a pairing check compares with one. -/
def pairingProduct (B : Pairing G1 G2 GT) (P : List G1) (Q : List G2) : GT :=
  (List.zipWith B.e P Q).prod

/-- PairingCheck of the curve library: an error on lists of different sizes,
otherwise whether the product of pairings is one. -/
def PairingCheck [DecidableEq GT] (B : Pairing G1 G2 GT) (P : List G1) (Q : List G2) :
    Except String Bool :=
  if P.length ≠ Q.length then Except.error "invalid inputs sizes"
  else Except.ok (decide (pairingProduct B P Q = 1))

/-- KeyPair of bls.go. -/
structure KeyPair (G1 G2 : Type) where
  SecretKey : Nat
  PublicKeyG1 : G1
  PublicKeyG2 : G2

/-- ComputeKeyPair of bls.go: the secret key bytes are read as a scalar-field
element and both generators are multiplied by it. -/
def ComputeKeyPair (B : Pairing G1 G2 GT) (sk : List Nat) : KeyPair G1 G2 :=
  let skBig := SetBytes sk % FrModulus
  { SecretKey := skBig, PublicKeyG1 := skBig • B.g1, PublicKeyG2 := skBig • B.g2 }

/-- Sign of bls.go: `sk * h(m)`. The group element with given affine
coordinates is `point`. -/
def Sign (point : G1Affine → G1) (kp : KeyPair G1 G2) (msgHash : List Nat) :
    Except String G1 :=
  if msgHash.length ≠ 32 then Except.error "message hash must be 32 bytes"
  else
    match hashToG1 msgHash with
    | none => Except.error "failed to hash message to G1"
    | some h1 => Except.ok (kp.SecretKey • point h1)

/-- Verify of bls.go: the pairing check on `[h(m), -signature]` and
`[pubkey, g2]`; an error of the check is reported as `false`. -/
def Verify [DecidableEq GT] (B : Pairing G1 G2 GT) (point : G1Affine → G1) (pubkey : G2)
    (signature : G1) (msgHash : List Nat) : Except String Bool :=
  if msgHash.length ≠ 32 then Except.error "message hash must be 32 bytes"
  else
    match hashToG1 msgHash with
    | none => Except.error "failed to hash message to G1"
    | some h1 =>
      match PairingCheck B [point h1, -signature] [pubkey, B.g2] with
      | Except.error _ => Except.ok false
      | Except.ok ok => Except.ok ok

/-- The pairing check at the end of Define:
`e(Signature + alpha * signersAggKey, -g2) * e(Message + alpha * g1, SignersAggKeyG2) = 1`. -/
def circuitPairingCheck (B : Pairing G1 G2 GT) (Signature signersAggKey Message : G1)
    (SignersAggKeyG2 : G2) (alpha : Nat) : Prop :=
  pairingProduct B [Signature + alpha • signersAggKey, Message + alpha • B.g1]
    [-B.g2, SignersAggKeyG2] = 1

/-- The signature equation `e(sigma, -g2) * e(m, pk_g2) = 1`. -/
def signatureEquation (B : Pairing G1 G2 GT) (sigma m : G1) (pkG2 : G2) : Prop :=
  pairingProduct B [sigma, m] [-B.g2, pkG2] = 1

/-- The key-link equation `e(pk_g1, -g2) * e(g1, pk_g2) = 1`. -/
def keyLinkEquation (B : Pairing G1 G2 GT) (pkG1 : G1) (pkG2 : G2) : Prop :=
  pairingProduct B [pkG1, B.g1] [-B.g2, pkG2] = 1

end bls

/-- The pairing of BN254 in discrete-logarithm coordinates: both source groups
have prime order `FrModulus`, so a point is given by its scalar with respect to
the generator and `e(a * g1, b * g2) = gT ^ (a * b)`. -/
def dlogPairing :
    Pairing (ZMod FrModulus) (ZMod FrModulus) (Multiplicative (ZMod FrModulus)) where
  e a b := Multiplicative.ofAdd (a * b)
  g1 := 1
  g2 := 1
  add_left a b q := by show Multiplicative.ofAdd ((a + b) * q) = _; rw [add_mul, ofAdd_add]
  add_right p a b := by show Multiplicative.ofAdd (p * (a + b)) = _; rw [mul_add, ofAdd_add]

/-! ## Predicates and inputs used to state the properties -/

/-- The lexicographic order on keys for two consecutive entries: ascending in
(X, Y), lexicographically. -/
def lexLe (a b : ValidatorData) : Bool :=
  decide (a.Key.X < b.Key.X) || (decide (a.Key.X = b.Key.X) && decide (a.Key.Y ≤ b.Key.Y))

/-- Every two consecutive entries are in the order `lexLe`. -/
def lexSorted : List ValidatorData → Bool
  | a :: b :: rest => lexLe a b && lexSorted (b :: rest)
  | _ => true

/-- The validators with private keys 13 and 14 of the test valset. -/
def testPair : List ValidatorData :=
  (genValset 5 []).drop 3

/-- Every filler entry comes after every non-filler entry. -/
def fillersLast : List ValidatorData → Bool
  | [] => true
  | v :: vs => if isFillerKey v.Key then vs.all (fun w => isFillerKey w.Key) else fillersLast vs

/-- The field elements one validator contributes to the valset hash, in the
words of the specification: the four 64-bit limbs of X, least significant
first, then the four limbs of Y, then the voting power. -/
def validatorElements (v : ValidatorData) : List Nat :=
  [v.Key.X % 2 ^ 64, v.Key.X / 2 ^ 64 % 2 ^ 64, v.Key.X / 2 ^ 128 % 2 ^ 64,
    v.Key.X / 2 ^ 192 % 2 ^ 64,
    v.Key.Y % 2 ^ 64, v.Key.Y / 2 ^ 64 % 2 ^ 64, v.Key.Y / 2 ^ 128 % 2 ^ 64,
    v.Key.Y / 2 ^ 192 % 2 ^ 64,
    v.VotingPower]

/-- The valset hash in the words of the specification: one sponge absorbs the
elements of every non-filler entry, in order; fillers contribute nothing. -/
def valsetHashSpec (enc : Nat → Nat → Nat) (valset : List ValidatorData) : Nat :=
  mimcSum enc 0
    (((valset.filter fun v => !isFillerKey v.Key).map validatorElements).flatten)

/-- A valset of one validator, with the generator as key, whose voting power is
the scalar-field modulus. -/
def overflowValset : List ValidatorData :=
  [ { PrivateKey := 1, Key := g1Gen, KeyG2 := g2Gen, VotingPower := FrModulus,
      IsNonSigner := false } ]

/-- A valset of one signing validator with private key 0, whose key is the
point at infinity, and voting power 5. -/
def zeroKeyValset : List ValidatorData :=
  [ { PrivateKey := 0, Key := G1Affine.infinity, KeyG2 := G2Affine.infinity, VotingPower := 5,
      IsNonSigner := false } ]

/-- The sum of the voting powers of the entries that are neither fillers nor
non-signers. -/
def signerPowerSum (valset : List ValidatorData) : Nat :=
  ((valset.filter fun v => !isFillerKey v.Key && !v.IsNonSigner).map fun v => v.VotingPower).sum

/-! ## Signature store (`offchain/storage/storage.go`)

Go strings and byte slices are lists of bytes. A Go map is an association list
with one entry per key; a key with no entry reads as the nil inner map. -/

/-- Storage of storage.go: message hash to the set of stored keys
`string(pubKey) + string(sig)`. -/
structure Storage where
  signatures : List (List Nat × List (List Nat))
  deriving DecidableEq, Repr

/-- NewStorage of storage.go: the outer map is created empty. -/
def NewStorage : Storage :=
  ⟨[]⟩

/-- The map read `s.signatures[messageHash]`: `none` is the nil inner map. -/
def Storage.inner (s : Storage) (messageHash : List Nat) : Option (List (List Nat)) :=
  (s.signatures.find? fun e => e.1 == messageHash).map fun e => e.2

/-- AddSignature of storage.go: sets the key `string(pubKey) + string(sig)` in
the inner map of the message hash. Assigning into a nil inner map panics
(`none`). -/
def AddSignature (s : Storage) (messageHash pubKey sig : List Nat) : Option Storage :=
  match s.inner messageHash with
  | none => none
  | some inner =>
    let sigKey := pubKey ++ sig
    let inner := if sigKey ∈ inner then inner else inner ++ [sigKey]
    some ⟨s.signatures.map fun e => if e.1 = messageHash then (e.1, inner) else e⟩

/-- GetSignatures of storage.go: every stored key is split at half its length.
`rangeOrder` is the order in which the range statement visits the keys of the
inner map, which Go leaves unspecified. -/
def GetSignatures (rangeOrder : List (List Nat) → List (List Nat)) (s : Storage)
    (messageHash : List Nat) : List (List Nat) × List (List Nat) :=
  match s.inner messageHash with
  | none => ([], [])
  | some inner =>
    ((rangeOrder inner).map fun sigKey => sigKey.take (sigKey.length / 2),
      (rangeOrder inner).map fun sigKey => sigKey.drop (sigKey.length / 2))

/-! ## Validator-set derivation (`offchain/eth/types.go`, `offchain/valset`)

Addresses are numbers (20 bytes); the map key `Operator.Hex()` is the address. -/

/-- CrossChainAddress of eth/types.go. -/
structure CrossChainAddress where
  Address : Nat
  ChainId : Nat
  deriving DecidableEq, Repr

/-- MasterConfig of eth/types.go. -/
structure MasterConfig where
  VotingPowerProviders : List CrossChainAddress
  KeysProvider : CrossChainAddress
  Replicas : List CrossChainAddress
  deriving DecidableEq, Repr

/-- ValSetConfig of eth/types.go. -/
structure ValSetConfig where
  MaxVotingPower : Nat
  MinInclusionVotingPower : Nat
  MaxValidatorsCount : Nat
  deriving DecidableEq, Repr

/-- VaultVotingPower of eth/types.go. -/
structure VaultVotingPower where
  Vault : Nat
  VotingPower : Nat
  deriving DecidableEq, Repr

/-- OperatorVotingPower of eth/types.go. -/
structure OperatorVotingPower where
  Operator : Nat
  Vaults : List VaultVotingPower
  deriving DecidableEq, Repr

/-- Key of eth/types.go. -/
structure EthKey where
  Tag : Nat
  Payload : List Nat
  deriving DecidableEq, Repr

/-- OperatorWithKeys of eth/types.go. -/
structure OperatorWithKeys where
  Operator : Nat
  Keys : List EthKey
  deriving DecidableEq, Repr

/-- Key of valset/types. -/
structure Key where
  Tag : Nat
  Payload : List Nat
  deriving DecidableEq, Repr

/-- Vault of valset/types. -/
structure Vault where
  Vault : Nat
  VotingPower : Nat
  deriving DecidableEq, Repr

/-- Validator of valset/types. -/
structure Validator where
  Operator : Nat
  VotingPower : Nat
  IsActive : Bool
  Keys : List Key
  Vaults : List Vault
  deriving DecidableEq, Repr

/-- ValidatorSet of valset/types. -/
structure ValidatorSet where
  Version : Nat
  TotalActiveVotingPower : Nat
  Validators : List Validator
  deriving DecidableEq, Repr

/-- VALSET_VERSION of deriver.go. -/
def VALSET_VERSION : Nat := 1

/-- The `Int64` of `math/big` on a non-negative number: the low 64 bits read
as a signed integer. -/
def Int64 (x : Nat) : Int :=
  if x % 2 ^ 64 < 2 ^ 63 then ((x % 2 ^ 64 : Nat) : Int) else ((x % 2 ^ 64 : Nat) : Int) - 2 ^ 64

/-- The validator the map gets for an operator seen for the first time. -/
def newValidator (operator : Nat) : Validator :=
  { Operator := operator, VotingPower := 0, IsActive := true, Keys := [], Vaults := [] }

/-- An update through the pointer stored under the key `operator`. -/
def mapModify (m : List Validator) (operator : Nat) (f : Validator → Validator) :
    List Validator :=
  m.map fun v => if v.Operator = operator then f v else v

/-- The body of the inner loop over the vaults: the voting power is added and
the vault appended. -/
def addVault (v : Validator) (vault : VaultVotingPower) : Validator :=
  { v with
    VotingPower := v.VotingPower + vault.VotingPower
    Vaults := v.Vaults ++ [⟨vault.Vault, vault.VotingPower⟩] }

/-- One iteration of the loop "Process voting powers". -/
def processVotingPower (m : List Validator) (vp : OperatorVotingPower) : List Validator :=
  let m :=
    if m.any (fun v => decide (v.Operator = vp.Operator)) then m
    else m ++ [newValidator vp.Operator]
  vp.Vaults.foldl (fun m vault => mapModify m vp.Operator fun v => addVault v vault) m

/-- One iteration of the loop "Process required keys": the keys are appended
when the operator has a validator, and dropped otherwise. -/
def processRequiredKeys (m : List Validator) (rk : OperatorWithKeys) : List Validator :=
  if m.any (fun v => decide (v.Operator = rk.Operator)) then
    rk.Keys.foldl
      (fun m key => mapModify m rk.Operator fun v =>
        { v with Keys := v.Keys ++ [⟨key.Tag, key.Payload⟩] }) m
  else m

/-- The validators map after both loops, one entry per operator, in the order
of first insertion. -/
def validatorsMap (allVotingPowers : List OperatorVotingPower)
    (requiredKeys : List OperatorWithKeys) : List Validator :=
  requiredKeys.foldl processRequiredKeys (allVotingPowers.foldl processVotingPower [])

/-- The comparator GetValidatorSet passes to `sort.Slice`: higher voting power
first. -/
def powerGreater (a b : Validator) : Bool :=
  decide (a.VotingPower > b.VotingPower)

/-- The slice after `slices.Collect(maps.Values(...))` and `sort.Slice`.
`mapOrder` is the order in which the Go map yields its values, which the
language leaves unspecified; the sort is run as the insertion sort, which places
equal elements in the order they arrive in. (For a given outcome of the real
pattern-defeating quicksort, taking that outcome as `mapOrder` gives the same
slice.) -/
def sortedValidators (mapOrder : List Validator → List Validator)
    (allVotingPowers : List OperatorVotingPower) (requiredKeys : List OperatorWithKeys) :
    List Validator :=
  sortSlice powerGreater (mapOrder (validatorsMap allVotingPowers requiredKeys))

/-- The body of the loop "Apply filters" for one validator, given the counter
`totalActive` before the iteration: the validator after the iteration and the
counter after it. -/
def filterValidator (valSetConfig : ValSetConfig) (totalActive : Int) (v : Validator) :
    Validator × Int :=
  let totalActive := totalActive + 1
  let v :=
    if Int64 valSetConfig.MinInclusionVotingPower ≠ 0 ∧
        v.VotingPower < valSetConfig.MinInclusionVotingPower then
      { v with IsActive := false }
    else v
  let v := if v.Keys.length = 0 then { v with IsActive := false } else v
  let v :=
    if Int64 valSetConfig.MaxValidatorsCount ≠ 0 ∧
        totalActive > Int64 valSetConfig.MaxValidatorsCount then
      { v with IsActive := false }
    else v
  let totalActive :=
    if Int64 valSetConfig.MaxValidatorsCount ≠ 0 ∧ v.IsActive = false then totalActive - 1
    else totalActive
  let v :=
    if Int64 valSetConfig.MaxVotingPower ≠ 0 ∧ v.VotingPower > valSetConfig.MaxVotingPower then
      { v with VotingPower := valSetConfig.MaxVotingPower }
    else v
  (v, totalActive)

/-- The loop "Apply filters": the validators after the loop and the total
active voting power, from the running total and counter. -/
def applyFilters (valSetConfig : ValSetConfig) :
    List Validator → Nat → Int → List Validator × Nat
  | [], totalActiveVotingPower, _ => ([], totalActiveVotingPower)
  | v :: vs, totalActiveVotingPower, totalActive =>
    let r := filterValidator valSetConfig totalActive v
    let totalActiveVotingPower :=
      if r.1.IsActive then totalActiveVotingPower + r.1.VotingPower else totalActiveVotingPower
    let rest := applyFilters valSetConfig vs totalActiveVotingPower r.2
    (r.1 :: rest.1, rest.2)

/-- The part of GetValidatorSet after the adapter calls (lines 63 to 163). -/
def deriveValidatorSet (mapOrder : List Validator → List Validator)
    (valSetConfig : ValSetConfig) (allVotingPowers : List OperatorVotingPower)
    (requiredKeys : List OperatorWithKeys) : ValidatorSet :=
  let r := applyFilters valSetConfig (sortedValidators mapOrder allVotingPowers requiredKeys) 0 0
  { Version := VALSET_VERSION, TotalActiveVotingPower := r.2, Validators := r.1 }

/-- The chain adapter IEthClient of eth.go, by the results of the calls the
valset code makes. -/
structure IEthClient where
  GetMasterConfig : Nat → Except String MasterConfig
  GetValSetConfig : Nat → Except String ValSetConfig
  GetCurrentValsetTimestamp : Except String Nat
  GetCaptureTimestamp : Except String Nat
  GetVotingPowers : Nat → Nat → Except String (List OperatorVotingPower)
  GetRequiredKeys : Nat → Nat → Except String (List OperatorWithKeys)
  GetRequiredKeyTag : Nat → Except String Nat

/-- The loop over the voting power providers: the lists are concatenated, the
first failing call ends the derivation. (The provider address is left out of
the error text.) -/
def collectVotingPowers (ethClient : IEthClient) (timestamp : Nat) :
    List CrossChainAddress → List OperatorVotingPower →
      Except String (List OperatorVotingPower)
  | [], allVotingPowers => Except.ok allVotingPowers
  | provider :: rest, allVotingPowers =>
    match ethClient.GetVotingPowers provider.Address timestamp with
    | Except.error err => Except.error ("failed to get voting powers from provider: " ++ err)
    | Except.ok votingPowers =>
      collectVotingPowers ethClient timestamp rest (allVotingPowers ++ votingPowers)

/-- The first block of GetValidatorSet: a nil timestamp is replaced by the
capture timestamp of the adapter. -/
def resolveTimestamp (ethClient : IEthClient) (timestamp : Option Nat) : Except String Nat :=
  match timestamp with
  | some t => Except.ok t
  | none =>
    match ethClient.GetCaptureTimestamp with
    | Except.error err => Except.error ("failed to get capture timestamp: " ++ err)
    | Except.ok t => Except.ok t

/-- GetValidatorSet of deriver.go. -/
def GetValidatorSet (ethClient : IEthClient) (mapOrder : List Validator → List Validator)
    (timestamp : Option Nat) : Except String ValidatorSet :=
  match resolveTimestamp ethClient timestamp with
  | Except.error err => Except.error err
  | Except.ok timestamp =>
    match ethClient.GetMasterConfig timestamp with
    | Except.error err => Except.error ("failed to get master config: " ++ err)
    | Except.ok masterConfig =>
      match ethClient.GetValSetConfig timestamp with
      | Except.error err => Except.error ("failed to get val set config: " ++ err)
      | Except.ok valSetConfig =>
        match collectVotingPowers ethClient timestamp masterConfig.VotingPowerProviders [] with
        | Except.error err => Except.error err
        | Except.ok allVotingPowers =>
          match ethClient.GetRequiredKeys masterConfig.KeysProvider.Address timestamp with
          | Except.error err => Except.error ("failed to get required keys: " ++ err)
          | Except.ok requiredKeys =>
            Except.ok (deriveValidatorSet mapOrder valSetConfig allVotingPowers requiredKeys)

/-! ## Predicates and inputs of the derivation and storage statements -/

/-- The sum of the voting powers in a validator's own vaults list. -/
def vaultSum (v : Validator) : Nat :=
  (v.Vaults.map fun x => x.VotingPower).sum

/-- All vault entries the providers report for an operator, over all
occurrences of the operator, in the order reported. -/
def reportedVaults (allVotingPowers : List OperatorVotingPower) (operator : Nat) : List Vault :=
  ((allVotingPowers.filter fun vp => decide (vp.Operator = operator)).map fun vp =>
    vp.Vaults.map fun x => (⟨x.Vault, x.VotingPower⟩ : Vault)).flatten

/-- The validator keeps its active flag through the minimum-voting-power
filter and the empty-keys filter of the loop "Apply filters", on its summed
vault voting power. -/
def passesMinAndKeys (valSetConfig : ValSetConfig) (v : Validator) : Bool :=
  !(decide (Int64 valSetConfig.MinInclusionVotingPower ≠ 0) &&
      decide (vaultSum v < valSetConfig.MinInclusionVotingPower)) &&
    !decide (v.Keys.length = 0)

/-- Marks the first `n` true entries of a list of flags and clears the rest. -/
def firstActive : Nat → List Bool → List Bool
  | _, [] => []
  | n, b :: bs =>
    if b && decide (0 < n) then true :: firstActive (n - 1) bs else false :: firstActive n bs

/-- An adapter that answers every query with fixed values: one voting power
provider, one list of operators, one list of required keys. -/
def constClient (valSetConfig : ValSetConfig) (votingPowers : List OperatorVotingPower)
    (requiredKeys : List OperatorWithKeys) : IEthClient :=
  { GetMasterConfig := fun _ =>
      Except.ok { VotingPowerProviders := [⟨1, 1⟩], KeysProvider := ⟨2, 1⟩, Replicas := [] }
    GetValSetConfig := fun _ => Except.ok valSetConfig
    GetCurrentValsetTimestamp := Except.ok 0
    GetCaptureTimestamp := Except.ok 0
    GetVotingPowers := fun _ _ => Except.ok votingPowers
    GetRequiredKeys := fun _ _ => Except.ok requiredKeys
    GetRequiredKeyTag := fun _ => Except.ok 15 }

/-- Three operators with one vault each (powers 30, 100 and 5), reported by
the provider in this order, and the second operator once more with a vault of
power 20. -/
def sampleVotingPowers : List OperatorVotingPower :=
  [⟨7, [⟨70, 30⟩]⟩, ⟨8, [⟨80, 100⟩]⟩, ⟨9, [⟨90, 5⟩]⟩, ⟨8, [⟨81, 20⟩]⟩]

/-- Keys for operators 7, 8 and 9, and for an operator 6 without voting power. -/
def sampleKeys : List OperatorWithKeys :=
  [⟨7, [⟨15, [1]⟩]⟩, ⟨8, [⟨15, [2]⟩]⟩, ⟨9, [⟨15, [3]⟩]⟩, ⟨6, [⟨15, [4]⟩]⟩]

/-- An operator with one vault of power 2^65 and an operator with one vault of
power 5. -/
def largeVotingPowers : List OperatorVotingPower :=
  [⟨8, [⟨80, 2 ^ 65⟩]⟩, ⟨9, [⟨90, 5⟩]⟩]

/-- Two operators with the same voting power, the higher address reported
first. -/
def tieVotingPowers : List OperatorVotingPower :=
  [⟨2, [⟨20, 10⟩]⟩, ⟨1, [⟨10, 10⟩]⟩]

/-- One key for each of the operators 1 and 2. -/
def tieKeys : List OperatorWithKeys :=
  [⟨1, [⟨15, [1]⟩]⟩, ⟨2, [⟨15, [2]⟩]⟩]

/-- A store in which the inner map of one message hash exists and is empty. -/
def storageWith (messageHash : List Nat) : Storage :=
  ⟨[(messageHash, [])]⟩

/-! ## ProofData and the prover (`pkg/proof/helpers.go`, `pkg/proof/proof.go`)

The gnark Groth16 backend and the circuit artifacts are parameters. A byte
slice is a list whose capacity is its length, as for a literal, a `make` or a
decoded message. -/

/-- ProofData of proof.go. -/
structure ProofData where
  Proof : List Nat
  Commitments : List Nat
  CommitmentPok : List Nat
  SignersAggVotingPower : Nat
  deriving DecidableEq, Repr

/-- Marshal of helpers.go; `none` is the panic of FillBytes. -/
def ProofData.Marshal (p : ProofData) : Option (List Nat) :=
  match FillBytes p.SignersAggVotingPower 32 with
  | none => none
  | some signersAggVotingPowerBuffer =>
    some (p.Proof ++ p.Commitments ++ p.CommitmentPok ++ signersAggVotingPowerBuffer)

/-- The slice expression `b[lo:hi]` with its bounds check: out of range is a
run-time panic (`none`). -/
def goSlice (b : List Nat) (lo hi : Nat) : Option (List Nat) :=
  if lo ≤ hi ∧ hi ≤ b.length then some (slice b lo hi) else none

/-- The calls into gnark's Groth16 backend that Prove and Verify make. The
public witness is the vector of the public inputs. -/
structure Groth16 (CS PK VK Proof : Type) where
  Prove : CS → PK → Circuit → Except String Proof
  Verify : Proof → VK → List Nat → Except String Unit
  WriteRawTo : Proof → Except String (List Nat)
  ReadFrom : List Nat → Except String Proof

/-- ZkProver of proof.go: three maps from the capacity to the artifact. -/
structure ZkProver (CS PK VK : Type) where
  cs : List (Nat × CS)
  pk : List (Nat × PK)
  vk : List (Nat × VK)

/-- A read `m[key]` of a map with integer keys. -/
def mapGet {α : Type} (m : List (Nat × α)) (key : Nat) : Option α :=
  (m.find? fun e => e.1 == key).map fun e => e.2

/-- The assignment `m[key] = value`. -/
def mapSet {α : Type} (m : List (Nat × α)) (key : Nat) (value : α) : List (Nat × α) :=
  (m.filter fun e => !(e.1 == key)) ++ [(key, value)]

/-- The loop of `init` over the capacities: a failing loadOrInit panics
(`none`). -/
def ZkProver.init {CS PK VK : Type} (loadOrInit : Nat → Except String (CS × PK × VK)) :
    List Nat → ZkProver CS PK VK → Option (ZkProver CS PK VK)
  | [], p => some p
  | size :: rest, p =>
    match loadOrInit size with
    | Except.error _ => none
    | Except.ok (cs, pk, vk) =>
      ZkProver.init loadOrInit rest
        { cs := mapSet p.cs size cs, pk := mapSet p.pk size pk, vk := mapSet p.vk size vk }

/-- NewZkProver of proof.go. -/
def NewZkProver {CS PK VK : Type} (loadOrInit : Nat → Except String (CS × PK × VK)) :
    Option (ZkProver CS PK VK) :=
  ZkProver.init loadOrInit MaxValidators ⟨[], [], []⟩

/-- The raw proof bytes Verify rebuilds (lines 115 to 117): the first 256
bytes, the marker `00 00 00 01`, then bytes 256 to 383. -/
def rawProofBytes (proofBytes : List Nat) : Option (List Nat) :=
  match goSlice proofBytes 0 256 with
  | none => none
  | some head =>
    match goSlice proofBytes 256 384 with
    | none => none
    | some tail => some (head ++ [0, 0, 0, 1] ++ tail)

/-- Verify of proof.go. The result `(false, err)` is `Except.error err`, the
result `(true, nil)` is `Except.ok true`; `none` is a run-time panic. -/
def ZkProver.Verify {CS PK VK Proof : Type} (G : Groth16 CS PK VK Proof)
    (p : ZkProver CS PK VK) (valsetLen : Nat) (publicInputHash : List Nat)
    (proofBytes : List Nat) : Option (Except String Bool) :=
  let valsetLen := getOptimalN valsetLen
  let publicWitness := [verifyInputHash publicInputHash]
  match rawProofBytes proofBytes with
  | none => none
  | some rawProofBytes =>
    match G.ReadFrom rawProofBytes with
    | Except.error err => some (Except.error ("failed to read proof: " ++ err))
    | Except.ok proof =>
      match mapGet p.vk valsetLen with
      | none =>
        some (Except.error
          ("failed to find verification key for valset length " ++ toString valsetLen))
      | some vk =>
        match G.Verify proof vk publicWitness with
        | Except.error err => some (Except.error ("failed to verify: " ++ err))
        | Except.ok _ => some (Except.ok true)

/-- The artifacts Prove works with (lines 138 to 143): the entries of the three
maps under the key `len(proveInput.ValidatorData)`; only the lookup of the
constraint system is checked. A missing key or verifying key is a nil
interface, `none` here. -/
def ZkProver.artifacts {CS PK VK : Type} (p : ZkProver CS PK VK) (proveInput : ProveInput) :
    Except String (CS × Option PK × Option VK) :=
  match mapGet p.cs proveInput.ValidatorData.length with
  | none =>
    Except.error
      ("failed to load cs, vk, pk for valset size: " ++ toString proveInput.ValidatorData.length)
  | some r1cs =>
    Except.ok (r1cs, mapGet p.pk proveInput.ValidatorData.length,
      mapGet p.vk proveInput.ValidatorData.length)

/-- The ProofData Prove returns from the raw proof bytes (lines 194 to 218):
the slices `[:256]`, `[260:324]` and `[324:388]`; the slices read before them
lie within the first 388 bytes as well. -/
def proofDataOfRaw (proofBytes : List Nat) (signersAggVotingPower : Nat) : Option ProofData :=
  match goSlice proofBytes 0 256, goSlice proofBytes 260 324, goSlice proofBytes 324 388 with
  | some proof, some commitments, some commitmentPok =>
    some
      { Proof := proof, Commitments := commitments, CommitmentPok := commitmentPok,
        SignersAggVotingPower := signersAggVotingPower }
  | _, _, _ => none

/-- Prove of proof.go; `none` is a run-time panic. The public inputs are the
one public field `InputHash`. -/
def ZkProver.Prove {CS PK VK Proof : Type} (G : Groth16 CS PK VK Proof)
    (keccak : List Nat → List Nat) (enc : Nat → Nat → Nat) (p : ZkProver CS PK VK)
    (proveInput : ProveInput) : Option (Except String ProofData) :=
  match p.artifacts proveInput with
  | Except.error err => some (Except.error err)
  | Except.ok (r1cs, pk, vk) =>
    match setCircuitData keccak enc proveInput with
    | none => none
    | some assignment =>
      let publicWitness := [assignment.InputHash]
      match pk, vk with
      | some pk, some vk =>
        match G.Prove r1cs pk assignment with
        | Except.error err => some (Except.error ("failed to prove: " ++ err))
        | Except.ok proof =>
          if publicWitness.length > 10 then some (Except.error "more than 10 public inputs")
          else
            match G.Verify proof vk publicWitness with
            | Except.error err => some (Except.error err)
            | Except.ok _ =>
              match G.WriteRawTo proof with
              | Except.error err => some (Except.error ("failed to write proof: " ++ err))
              | Except.ok proofBytes =>
                match proofDataOfRaw proofBytes
                    (signersAggVotingPower proveInput.ValidatorData) with
                | none => none
                | some proofData => some (Except.ok proofData)
      | _, _ => none

/-! ## Aggregation (`offchain/aggregation`, `offchain/proof`, `offchain/bls`)

The point decoding and encoding of gnark-crypto are parameters. -/

/-- The calls into gnark-crypto on G1 points: `SetBytes` on a zero receiver
gives the receiver after the call and the error, if any; `Marshal` gives the
bytes of a point. -/
structure G1Codec where
  SetBytes : List Nat → G1Affine × Option String
  Marshal : G1Affine → List Nat

/-- DeserializeG1 of bls.go: the error of SetBytes is dropped and the receiver
returned. -/
def DeserializeG1 (codec : G1Codec) (bytes : List Nat) : G1Affine :=
  (codec.SetBytes bytes).1

/-- ValidatorData of offchain/proof/proof.go. -/
structure Offchain.ValidatorData where
  Key : G1Affine
  VotingPower : Nat
  IsNonSigner : Bool
  deriving DecidableEq, Repr

/-- ToValidatorsData of offchain/proof/proof.go: one entry per key with the
required tag of every active validator handed in; IsNonSigner keeps its zero
value. -/
def ToValidatorsData (codec : G1Codec) (validators : List Validator) (requiredKeyTag : Nat) :
    List Offchain.ValidatorData :=
  validators.foldl
    (fun valset v =>
      if !v.IsActive then valset
      else
        v.Keys.foldl
          (fun valset key =>
            if key.Tag = requiredKeyTag then
              valset ++ [{ Key := DeserializeG1 codec key.Payload, VotingPower := v.VotingPower,
                           IsNonSigner := false }]
            else valset)
          valset)
    []

/-- The map from public key to validator (lines 48 to 63), as the list of the
assignments made, in order. -/
def pubKeyToValidator (validators : List Validator) (requiredKeyTag : Nat) :
    List (List Nat × Validator) :=
  validators.foldl
    (fun m validator =>
      if !validator.IsActive then m
      else
        validator.Keys.foldl
          (fun m key => if key.Tag ≠ requiredKeyTag then m else m ++ [(key.Payload, validator)])
          m)
    []

/-- A read of the map: the last assignment under the key wins. -/
def lookupValidator (m : List (List Nat × Validator)) (pubKey : List Nat) : Option Validator :=
  (m.reverse.find? fun e => e.1 == pubKey).map fun e => e.2

/-- The loop over the pool entries (lines 69 to 77), from index `i` on: the
signers and the aggregate signature. An index outside `sigs` panics (`none`). -/
def collectSigners (codec : G1Codec) (m : List (List Nat × Validator)) :
    List (List Nat) → List (List Nat) → Nat → List Validator → G1Affine →
      Option (List Validator × G1Affine)
  | [], _, _, signers, signature => some (signers, signature)
  | pubKey :: rest, sigs, i, signers, signature =>
    match lookupValidator m pubKey with
    | none => collectSigners codec m rest sigs (i + 1) signers signature
    | some validator =>
      match sigs[i]? with
      | none => none
      | some sig =>
        collectSigners codec m rest sigs (i + 1) (signers ++ [validator])
          (g1Add signature (DeserializeG1 codec sig))

/-- The values AggregateSignatures holds when it calls the prover. -/
structure AggregationState where
  signers : List Validator
  signature : G1Affine
  validatorsData : List Offchain.ValidatorData
  deriving DecidableEq, Repr

/-- Lines 48 to 81 of AggregateSignatures, from the validators, the required
key tag and the two lists GetSignatures returned. -/
def aggregationState (codec : G1Codec) (validators : List Validator) (requiredKeyTag : Nat)
    (pubKeys sigs : List (List Nat)) : Option AggregationState :=
  match collectSigners codec (pubKeyToValidator validators requiredKeyTag) pubKeys sigs 0 []
      G1Affine.infinity with
  | none => none
  | some (signers, signature) =>
    some
      { signers := signers, signature := signature,
        validatorsData := ToValidatorsData codec signers requiredKeyTag }

/-- AggregateSignatures of aggregation.go. `prove` is Prove of
offchain/proof/proof.go (gnark compile, setup and prove); `rangeOrder` is the
order in which the pool is ranged over; `none` is a run-time panic. -/
def AggregateSignatures (ethClient : IEthClient) (mapOrder : List Validator → List Validator)
    (storage : Storage) (rangeOrder : List (List Nat) → List (List Nat)) (codec : G1Codec)
    (prove : List Offchain.ValidatorData → Except String (List Nat)) (messageHash : List Nat) :
    Option (Except String (List Nat × List Nat)) :=
  match ethClient.GetCurrentValsetTimestamp with
  | Except.error err =>
    some (Except.error ("failed to get current valset timestamp: " ++ err))
  | Except.ok valsetTimestamp =>
    match GetValidatorSet ethClient mapOrder (some valsetTimestamp) with
    | Except.error err => some (Except.error ("failed to get validator set: " ++ err))
    | Except.ok valset =>
      match ethClient.GetRequiredKeyTag valsetTimestamp with
      | Except.error err => some (Except.error ("failed to get required key tag: " ++ err))
      | Except.ok requiredKeyTag =>
        match aggregationState codec valset.Validators requiredKeyTag
            (GetSignatures rangeOrder storage messageHash).1
            (GetSignatures rangeOrder storage messageHash).2 with
        | none => none
        | some st =>
          match prove st.validatorsData with
          | Except.error err => some (Except.error ("failed to prove: " ++ err))
          | Except.ok proof => some (Except.ok (codec.Marshal st.signature, proof))

/-! ## The validator set header (`offchain/valset/generator.go`) -/

/-- ValidatorSetHeader of valset/types; a `types.G1` is a pair of numbers. -/
structure ValidatorSetHeader where
  Version : Nat
  ActiveAggregatedKeys : List (Nat × Nat)
  TotalActiveVotingPower : Nat
  ValidatorsSszMRoot : List Nat
  ExtraData : List Nat
  deriving DecidableEq, Repr

/-- FormatG1 of types.go. -/
def FormatG1 (g1 : G1Affine) : Nat × Nat :=
  (g1.X, g1.Y)

/-- The slice `tags` (lines 53 to 58): it starts as the one-element literal
`uint8(len(Validators[0].Keys))`, and the required tag is appended for every
key of the first validator that carries it. -/
def headerTags (first : Validator) (requiredKeyTag : Nat) : List Nat :=
  first.Keys.foldl
    (fun tags key => if key.Tag = requiredKeyTag then tags ++ [key.Tag] else tags)
    [first.Keys.length % 256]

/-- The innermost loop (lines 72 to 76) for one key: every aggregate whose tag
equals the tag of the key gets the decoded key added. -/
def addKeyToAggregates (codec : G1Codec) (tags : List Nat) (aggPubkeysG1 : List G1Affine)
    (key : Key) : List G1Affine :=
  (aggPubkeysG1.zip tags).map fun e =>
    if key.Tag = e.2 then g1Add e.1 (DeserializeG1 codec key.Payload) else e.1

/-- The aggregated public keys (lines 61 to 78), one per element of `tags`. -/
def aggregatePubkeys (codec : G1Codec) (validators : List Validator) (tags : List Nat) :
    List G1Affine :=
  validators.foldl
    (fun aggPubkeysG1 validator =>
      if !validator.IsActive then aggPubkeysG1
      else validator.Keys.foldl (addKeyToAggregates codec tags) aggPubkeysG1)
    (tags.map fun _ => G1Affine.infinity)

/-- GenerateValidatorSetHeader of generator.go. `sszHash` is
`ssz.HashSequential`, `hashValset` is HashValset of offchain/proof (MiMC);
`none` is a run-time panic, here the index `Validators[0]` of an empty slice. -/
def GenerateValidatorSetHeader (ethClient : IEthClient)
    (mapOrder : List Validator → List Validator) (codec : G1Codec)
    (sszHash : ValidatorSet → List Nat)
    (hashValset : List Offchain.ValidatorData → List Nat) :
    Option (Except String ValidatorSetHeader) :=
  match ethClient.GetCaptureTimestamp with
  | Except.error err => some (Except.error ("failed to get capture timestamp: " ++ err))
  | Except.ok timestamp =>
    match GetValidatorSet ethClient mapOrder (some timestamp) with
    | Except.error err => some (Except.error ("failed to get validator set: " ++ err))
    | Except.ok validatorSet =>
      match ethClient.GetRequiredKeyTag timestamp with
      | Except.error err => some (Except.error ("failed to get required key tag: " ++ err))
      | Except.ok requiredKeyTag =>
        match validatorSet.Validators[0]? with
        | none => none
        | some first =>
          let tags := headerTags first requiredKeyTag
          let aggPubkeysG1 := aggregatePubkeys codec validatorSet.Validators tags
          let sszMroot := sszHash validatorSet
          let valset := ToValidatorsData codec validatorSet.Validators requiredKeyTag
          let extraData := hashValset valset
          some (Except.ok
            { Version := 0
              ActiveAggregatedKeys := aggPubkeysG1.map FormatG1
              TotalActiveVotingPower := validatorSet.TotalActiveVotingPower
              ValidatorsSszMRoot := sszMroot
              ExtraData := extraData })

/-! ## SSZ sizes (`offchain/valset/types/ssz.go`) -/

/-- The field definitions a DefineSSZ method can make (karalabe/ssz). -/
inductive SszField where
  | uint8
  | bool
  | staticBytes (size : Nat)
  | uint256BigInt
  | dynamicBytesOffset
  | dynamicBytesContent
  | sliceOfDynamicObjectsOffset
  | sliceOfDynamicObjectsContent
  | sliceOfStaticObjectsOffset
  | sliceOfStaticObjectsContent
  deriving DecidableEq, Repr

/-- The bytes a field definition takes in the fixed part: 1 for a uint8 or
bool, the array length for static bytes (20 for an address), 32 for a
uint256, 4 for the offset of a dynamic field, nothing for its content. -/
def SszField.fixedBytes : SszField → Nat
  | .uint8 => 1
  | .bool => 1
  | .staticBytes size => size
  | .uint256BigInt => 32
  | .dynamicBytesOffset => 4
  | .dynamicBytesContent => 0
  | .sliceOfDynamicObjectsOffset => 4
  | .sliceOfDynamicObjectsContent => 0
  | .sliceOfStaticObjectsOffset => 4
  | .sliceOfStaticObjectsContent => 0

/-- The fixed-part bytes of the fields a DefineSSZ method declares. -/
def declaredFixedBytes (fields : List SszField) : Nat :=
  (fields.map SszField.fixedBytes).sum

/-- SizeSSZ of Key; the dynamic part is the length of the payload. -/
def Key.SizeSSZ (key : Key) ( fixed : Bool) : Nat :=
  let size := 8 + 4
  if fixed then size else size + key.Payload.length

/-- DefineSSZ of Key. -/
def Key.DefineSSZ : List SszField :=
  [.uint8, .dynamicBytesOffset, .dynamicBytesContent]

/-- SizeSSZ of Vault. -/
def Vault.SizeSSZ (_vault : Relay.Vault) : Nat :=
  20 + 32

/-- DefineSSZ of Vault. -/
def Vault.DefineSSZ : List SszField :=
  [.staticBytes 20, .uint256BigInt]

/-- SizeSSZ of Validator; a slice of dynamic objects takes an offset of 4 bytes
and the size of each object, a slice of static objects the size of each. -/
def Validator.SizeSSZ (validator : Validator) ( fixed : Bool) : Nat :=
  let size := 8 + 20 + 32 + 1 + 4 + 4
  if fixed then size
  else
    size + (validator.Keys.map fun key => 4 + key.SizeSSZ false).sum
      + (validator.Vaults.map fun vault => vault.SizeSSZ).sum

/-- DefineSSZ of Validator (the definition of a Version field is commented
out in the source). -/
def Validator.DefineSSZ : List SszField :=
  [.staticBytes 20, .uint256BigInt, .bool, .sliceOfDynamicObjectsOffset,
    .sliceOfStaticObjectsOffset, .sliceOfDynamicObjectsContent, .sliceOfStaticObjectsContent]

/-- SizeSSZ of ValidatorSet. -/
def ValidatorSet.SizeSSZ (valSet : ValidatorSet) ( fixed : Bool) : Nat :=
  let size := 4
  if fixed then size
  else size + (valSet.Validators.map fun validator => 4 + validator.SizeSSZ false).sum

/-- DefineSSZ of ValidatorSet. -/
def ValidatorSet.DefineSSZ : List SszField :=
  [.sliceOfDynamicObjectsOffset, .sliceOfDynamicObjectsContent]

/-! ## Inputs of the aggregation and header statements -/

/-- A pool that holds, for the message `[0]`, one entry: public key `[2]` (the
key of operator 8 in `sampleKeys`) with the signature bytes `[9]`. -/
def poolOne : Storage :=
  ⟨[([0], [[2, 9]])]⟩

/-- A pool that holds, for the message `[0]`, two entries with the public key
`[2]` and different signature bytes. -/
def poolTwice : Storage :=
  ⟨[([0], [[2, 9], [2, 8]])]⟩

/-- A codec whose SetBytes reports an error for every input and leaves the
zero receiver as it is. -/
def rejectingCodec : G1Codec :=
  { SetBytes := fun _ => (G1Affine.infinity, some "invalid point")
    Marshal := RawBytes }

/-- A loader that succeeds for every capacity. -/
def unitLoader : Nat → Except String (Unit × Unit × Unit) :=
  fun _ => Except.ok ((), (), ())

/-- A backend over one-element artifact types whose proofs are the raw bytes. -/
def bytesBackend : Groth16 Unit Unit Unit (List Nat) :=
  { Prove := fun _ _ _ => Except.ok []
    Verify := fun _ _ _ => Except.ok ()
    WriteRawTo := fun proof => Except.ok proof
    ReadFrom := fun bytes => Except.ok bytes }

/-! ## Normalisation -/

theorem insertLeft_perm {α : Type} (less : α → α → Bool) (x : α) (l : List α) :
    (insertLeft less x l).Perm (x :: l) := by
  induction l with
  | nil => exact List.Perm.refl _
  | cons y ys ih =>
    unfold insertLeft
    split
    · exact ((List.Perm.cons y ih).trans (List.Perm.swap x y ys))
    · exact List.Perm.refl _

theorem foldl_insertLeft_perm {α : Type} (less : α → α → Bool) (l acc : List α) :
    (l.foldl (fun acc x => insertLeft less x acc) acc).Perm (l ++ acc) := by
  induction l generalizing acc with
  | nil => exact List.Perm.refl _
  | cons x xs ih =>
    rw [List.foldl_cons]
    refine (ih _).trans ?_
    refine (List.Perm.append_left xs (insertLeft_perm less x acc)).trans ?_
    exact (List.perm_middle)

theorem sortSlice_perm {α : Type} (less : α → α → Bool) (l : List α) :
    (sortSlice less l).Perm l := by
  unfold sortSlice
  refine (List.reverse_perm _).trans ?_
  simpa using foldl_insertLeft_perm less l []

theorem sortValset_length (valset : List ValidatorData) :
    (sortValset valset).length = valset.length :=
  (sortSlice_perm keyLess valset).length_eq

theorem getOptimalN_of_le (n : Nat) (h : n ≤ 10) : getOptimalN n = 10 := by
  simp [getOptimalN, MaxValidators, h]

theorem getOptimalN_of_gt (n : Nat) (h : 10 < n) : getOptimalN n = 0 := by
  have : ¬ n ≤ 10 := by omega
  simp [getOptimalN, MaxValidators, this]

theorem range_map_pad {α : Type} (l : List α) (d : α) (n : Nat) (h : l.length ≤ n) :
    ((List.range n).map fun i => if i < l.length then l.getD i d else d) =
      l ++ List.replicate (n - l.length) d := by
  apply List.ext_getElem
  · simp; omega
  · intro i h1 h2
    simp only [List.getElem_map, List.getElem_range]
    by_cases hi : i < l.length
    · simp [hi, List.getElem_append_left, List.getD_eq_getElem]
    · have hi2 : l.length ≤ i := by omega
      rw [List.getElem_append_right hi2]
      simp [hi]

theorem NormalizeValset_eq_pad (valset : List ValidatorData) (h : valset.length ≤ 10) :
    NormalizeValset valset =
      sortValset valset ++ List.replicate (10 - valset.length) fillerValidator := by
  unfold NormalizeValset
  simp only [sortValset_length, getOptimalN_of_le _ h]
  have := range_map_pad (sortValset valset) fillerValidator 10 (by rw [sortValset_length]; exact h)
  rw [sortValset_length] at this
  exact this

theorem NormalizeValset_eq_nil (valset : List ValidatorData) (h : 10 < valset.length) :
    NormalizeValset valset = [] := by
  unfold NormalizeValset
  simp only [sortValset_length, getOptimalN_of_gt _ h]
  rfl

theorem fits_iff (n : Nat) : (∃ N ∈ MaxValidators, n ≤ N) ↔ n ≤ 10 := by
  simp [MaxValidators]

/-- C4 (as stated) fails: a valset of 11 validators is normalised to the empty
list, whose length is not a capacity. -/
theorem C4_counterexample :
    (NormalizeValset (genValset 11 [])).length = 0 ∧
      (NormalizeValset (genValset 11 [])).length ∉ MaxValidators := by
  have h : (genValset 11 []).length = 11 := by simp [genValset]
  rw [NormalizeValset_eq_nil _ (by rw [h]; decide)]
  decide

/-- C4 (amended): when some capacity fits the valset, the normalised list has the
length of a capacity, this capacity is at least the input length and no larger
than any fitting capacity, its first entries are a permutation of the input and
the remaining entries are fillers. -/
theorem C4_NormalizeValset_capacity (valset : List ValidatorData)
    (hfit : ∃ N ∈ MaxValidators, valset.length ≤ N) :
    (NormalizeValset valset).length ∈ MaxValidators ∧
      valset.length ≤ (NormalizeValset valset).length ∧
      (∀ N ∈ MaxValidators, valset.length ≤ N → (NormalizeValset valset).length ≤ N) ∧
      ((NormalizeValset valset).take valset.length).Perm valset ∧
      (NormalizeValset valset).drop valset.length =
        List.replicate ((NormalizeValset valset).length - valset.length) fillerValidator := by
  have h : valset.length ≤ 10 := (fits_iff _).mp hfit
  have hlen : (NormalizeValset valset).length = 10 := by
    rw [NormalizeValset_eq_pad _ h]; simp [sortValset_length]; omega
  refine ⟨?_, ?_, ?_, ?_, ?_⟩
  · rw [hlen]; simp [MaxValidators]
  · rw [hlen]; exact h
  · intro N hN _; rw [hlen]; simp [MaxValidators] at hN; omega
  · rw [NormalizeValset_eq_pad _ h, ← sortValset_length valset, List.take_left]
    exact sortSlice_perm keyLess valset
  · rw [hlen, NormalizeValset_eq_pad _ h]
    conv_lhs => rw [← sortValset_length valset]
    rw [List.drop_left, sortValset_length]

/-- Witness of C4 (amended): the valset of 7 test validators. -/
theorem C4_witness :
    (NormalizeValset (genValset 7 [])).length ∈ MaxValidators ∧
      (genValset 7 []).length ≤ (NormalizeValset (genValset 7 [])).length :=
  have h := C4_NormalizeValset_capacity (genValset 7 []) ⟨10, by decide, by simp [genValset]⟩
  ⟨h.1, h.2.1⟩

/-- C5 at two failing inputs. The test validators with private keys 13 and 14
have keys on the curve and are given in ascending key order, yet NormalizeValset
returns them swapped, which is not ascending lexicographic order; and the
normalised test valset genValset(10, []) is not in ascending lexicographic
order either. -/
theorem C5_not_lexicographic :
    (testPair.map (fun v => v.PrivateKey) = [13, 14] ∧
      (∀ v ∈ testPair, v.Key.Y * v.Key.Y % FpModulus = (v.Key.X ^ 3 + 3) % FpModulus) ∧
      lexSorted testPair = true ∧
      ((NormalizeValset testPair).take testPair.length).map (fun v => v.PrivateKey) = [14, 13] ∧
      lexSorted ((NormalizeValset testPair).take testPair.length) = false) ∧
    (((NormalizeValset (genValset 10 [])).take (genValset 10 []).length).map
        (fun v => v.PrivateKey) = [19, 14, 16, 18, 13, 10, 17, 15, 12, 11] ∧
      lexSorted ((NormalizeValset (genValset 10 [])).take (genValset 10 []).length) = false) := by
  refine ⟨⟨by decide!, by decide!, by decide!, by decide!, by decide!⟩, by decide!, by decide!⟩

/-! ## Byte strings -/

theorem toBytesBE_length (n x : Nat) : (toBytesBE n x).length = n := by
  induction n generalizing x with
  | zero => rfl
  | succ n ih => simp [toBytesBE, ih]

theorem toBytesBE_lt (n x : Nat) : ∀ b ∈ toBytesBE n x, b < 256 := by
  induction n generalizing x with
  | zero => intro b hb; simp [toBytesBE] at hb
  | succ n ih =>
    intro b hb
    simp only [toBytesBE, List.mem_append, List.mem_singleton] at hb
    rcases hb with hb | hb
    · exact ih _ b hb
    · rw [hb]; exact Nat.mod_lt _ (by norm_num)

theorem foldl_SetBytes (b : List Nat) (init : Nat) :
    b.foldl (fun acc x => acc * 256 + x) init = init * 256 ^ b.length + SetBytes b := by
  induction b generalizing init with
  | nil => simp [SetBytes]
  | cons x xs ih =>
    simp only [SetBytes, List.foldl_cons, List.length_cons]
    rw [ih (init * 256 + x), ih (0 * 256 + x)]
    simp only [SetBytes]
    ring

theorem SetBytes_append (a b : List Nat) :
    SetBytes (a ++ b) = SetBytes a * 256 ^ b.length + SetBytes b := by
  unfold SetBytes
  rw [List.foldl_append, foldl_SetBytes]
  rfl

theorem SetBytes_singleton (x : Nat) : SetBytes [x] = x := by
  simp [SetBytes]

theorem SetBytes_toBytesBE (n x : Nat) : SetBytes (toBytesBE n x) = x % 256 ^ n := by
  induction n generalizing x with
  | zero => simp [toBytesBE, SetBytes, Nat.mod_one]
  | succ n ih =>
    rw [toBytesBE, SetBytes_append, ih, SetBytes_singleton]
    simp only [List.length_singleton, pow_one]
    rw [pow_succ, mul_comm (256 ^ n) 256, Nat.mod_mul]
    ring

theorem toBytesBE_SetBytes (l : List Nat) (h : ∀ b ∈ l, b < 256) :
    toBytesBE l.length (SetBytes l) = l := by
  induction l using List.reverseRecOn with
  | nil => rfl
  | append_singleton xs x ih =>
    have hx : x < 256 := h x (by simp)
    have hxs : ∀ b ∈ xs, b < 256 := fun b hb => h b (by simp [hb])
    rw [List.length_append, List.length_singleton, toBytesBE, SetBytes_append,
      SetBytes_singleton]
    simp only [List.length_singleton, pow_one]
    have h1 : (SetBytes xs * 256 + x) / 256 = SetBytes xs := by omega
    have h2 : (SetBytes xs * 256 + x) % 256 = x := by omega
    rw [h1, h2, ih hxs]

theorem toBytesBE_add (a b x : Nat) :
    toBytesBE (a + b) x = toBytesBE a (x / 256 ^ b) ++ toBytesBE b x := by
  induction b generalizing x with
  | zero => simp [toBytesBE]
  | succ b ih =>
    rw [← Nat.add_assoc, toBytesBE, toBytesBE, ih, List.append_assoc, Nat.div_div_eq_div_mul,
      pow_succ, mul_comm]

theorem SetBytes_replicate_zero (k : Nat) (l : List Nat) :
    SetBytes (List.replicate k 0 ++ l) = SetBytes l := by
  rw [SetBytes_append]
  have : SetBytes (List.replicate k 0) = 0 := by
    induction k with
    | zero => rfl
    | succ k ih =>
      rw [List.replicate_succ', SetBytes_append, ih]; simp [SetBytes]
  rw [this]; simp

theorem SetBytes_lt (l : List Nat) (h : ∀ b ∈ l, b < 256) : SetBytes l < 256 ^ l.length := by
  rw [← toBytesBE_SetBytes l h, SetBytes_toBytesBE, toBytesBE_length]
  exact Nat.mod_lt _ (by positivity)

theorem FillBytes_of_lt (x n : Nat) (h : x < 256 ^ n) : FillBytes x n = some (toBytesBE n x) := by
  simp [FillBytes, h]

/-! ## The native writes -/

theorem mimcWriteBlocks_one (n : Nat) (d q : List Nat) (hlen : q.length = 32) :
    mimcWriteBlocks (n + 2) d q = if SetBytes q < FrModulus then d ++ [SetBytes q] else d := by
  have h1 : ¬ q.length < BlockSize := by simp [BlockSize, hlen]
  have h2 : (q.drop BlockSize).length < BlockSize := by simp [BlockSize, hlen]
  have h3 : q.take BlockSize = q := List.take_of_length_le (by simp [BlockSize, hlen])
  rw [mimcWriteBlocks]
  simp only [h1, if_false, h3]
  split
  · rw [mimcWriteBlocks]; simp only [h2, if_true]
  · rfl

theorem mimcWrite_block (d p : List Nat) (hlen : p.length = 32) :
    mimcWrite d p = if SetBytes p < FrModulus then d ++ [SetBytes p] else d := by
  unfold mimcWrite
  simp only [hlen, BlockSize, lt_irrefl, and_false, if_false]
  exact mimcWriteBlocks_one 0 d p hlen

theorem mimcWrite_short (d p : List Nat) (hlen : p.length = 8) (hb : ∀ b ∈ p, b < 256) :
    mimcWrite d p = d ++ [SetBytes p] := by
  have hlt : SetBytes p < FrModulus := by
    have := SetBytes_lt p hb
    rw [hlen] at this
    unfold FrModulus
    omega
  have hpad2 : (List.replicate (32 - 8) 0 ++ p).length = 32 := by simp [hlen]
  unfold mimcWrite
  simp only [hlen, BlockSize, show (0 < 8 ∧ 8 < 32) from ⟨by norm_num, by norm_num⟩, if_true,
    and_self]
  rw [hpad2]
  rw [mimcWriteBlocks_one 0 d _ hpad2, SetBytes_replicate_zero, if_pos hlt]

/-! ## The valset hash: native loop and circuit loop -/

theorem slice_toBytesBE (a b x : Nat) :
    slice (toBytesBE (a + 8 + b) x) a (a + 8) = toBytesBE 8 (x / 256 ^ b) := by
  unfold slice
  rw [toBytesBE_add (a + 8) b, toBytesBE_add a 8]
  have h1 : (toBytesBE a (x / 256 ^ b / 256 ^ 8) ++ toBytesBE 8 (x / 256 ^ b)).length = a + 8 := by
    simp [toBytesBE_length]
  have h2 : (toBytesBE a (x / 256 ^ b / 256 ^ 8)).length = a := toBytesBE_length _ _
  rw [List.take_append_of_le_length (by rw [h1]), List.take_of_length_le (by rw [h1]),
    List.drop_append_of_le_length (by rw [h2]), List.drop_of_length_le (by rw [h2])]
  rfl

theorem mimcWrite_limb (d : List Nat) (a b x : Nat) :
    mimcWrite d (slice (toBytesBE (a + 8 + b) x) a (a + 8)) = d ++ [x / 256 ^ b % 2 ^ 64] := by
  rw [slice_toBytesBE, mimcWrite_short d _ (toBytesBE_length _ _) (toBytesBE_lt _ _),
    SetBytes_toBytesBE]
  norm_num

theorem hashValsetLoop_cons (v : ValidatorData) (vs : List ValidatorData) (d : List Nat)
    (hv : isFillerKey v.Key = false) (hvp : v.VotingPower < FrModulus) :
    hashValsetLoop (v :: vs) d = hashValsetLoop vs (d ++ validatorElements v) := by
  have h256 : v.VotingPower < 256 ^ 32 := by unfold FrModulus at hvp; omega
  rw [hashValsetLoop]
  simp only [hv, Bool.false_eq_true, if_false]
  rw [mimcWrite_limb d 24 0, mimcWrite_limb _ 16 8, mimcWrite_limb _ 8 16, mimcWrite_limb _ 0 24,
    mimcWrite_limb _ 24 0, mimcWrite_limb _ 16 8, mimcWrite_limb _ 8 16, mimcWrite_limb _ 0 24,
    FillBytes_of_lt _ _ h256]
  simp only []
  rw [mimcWrite_block _ _ (toBytesBE_length _ _), SetBytes_toBytesBE, Nat.mod_eq_of_lt h256,
    if_pos hvp]
  congr 1
  simp only [validatorElements, List.append_assoc, List.singleton_append, List.cons_append,
    List.nil_append]
  norm_num


theorem emulatedLimbs_eq (x : Nat) :
    emulatedLimbs x = [x % 2 ^ 64, x / 2 ^ 64 % 2 ^ 64, x / 2 ^ 128 % 2 ^ 64, x / 2 ^ 192 % 2 ^ 64] := by
  simp [emulatedLimbs, List.range, List.range.loop]

theorem circuit_elements (v : ValidatorData) (hvp : v.VotingPower < FrModulus) :
    emulatedLimbs v.Key.X ++ emulatedLimbs v.Key.Y ++ [frOf v.VotingPower] =
      validatorElements v := by
  rw [emulatedLimbs_eq, emulatedLimbs_eq, frOf, Nat.mod_eq_of_lt hvp]
  rfl

theorem fpIsZero_of_lt (x : Nat) (h : x < FpModulus) : fpIsZero x = if x = 0 then 1 else 0 := by
  unfold fpIsZero
  rw [Nat.mod_eq_of_lt h]

theorem isFiller_circuit (k : G1Affine) (hx : k.X < FpModulus) (hy : k.Y < FpModulus) :
    apiAnd (fpIsZero k.X) (fpIsZero k.Y) = if isFillerKey k then 1 else 0 := by
  rw [fpIsZero_of_lt _ hx, fpIsZero_of_lt _ hy]
  unfold apiAnd isFillerKey
  by_cases h1 : k.X = 0 <;> by_cases h2 : k.Y = 0 <;> simp [h1, h2]

/-- The slot setCircuitData assigns from one validator. -/
theorem circuitValidatorData_cons (v : ValidatorData) (vs : List ValidatorData) :
    circuitValidatorData (v :: vs) =
      circuitSlot v :: circuitValidatorData vs := rfl

theorem defineLoop_fillers (enc : Nat → Nat → Nat) (vs : List ValidatorData) (s : LoopState)
    (hall : ∀ v ∈ vs, isFillerKey v.Key = true)
    (hfp : ∀ v ∈ vs, v.Key.X < FpModulus ∧ v.Key.Y < FpModulus) :
    ((circuitValidatorData vs).foldl (defineStep enc) s).valsetHash = s.valsetHash := by
  induction vs generalizing s with
  | nil => rfl
  | cons v vs ih =>
    rw [circuitValidatorData_cons, List.foldl_cons,
      ih _ (fun w hw => hall w (List.mem_cons_of_mem _ hw))
        (fun w hw => hfp w (List.mem_cons_of_mem _ hw))]
    have hv := hall v (List.mem_cons_self _ _)
    have hp := hfp v (List.mem_cons_self _ _)
    simp only [defineStep, circuitSlot, isFiller_circuit v.Key hp.1 hp.2, hv, if_true, apiSelect]

theorem filter_fillers (vs : List ValidatorData) (hall : ∀ v ∈ vs, isFillerKey v.Key = true) :
    (vs.filter fun v => !isFillerKey v.Key) = [] := by
  rw [List.filter_eq_nil_iff]
  intro v hv
  simp [hall v hv]

theorem valset_hash_loops (enc : Nat → Nat → Nat) (vs : List ValidatorData) (d : List Nat)
    (s : LoopState) (hs1 : s.mimcH = mimcSum enc 0 d) (hs2 : s.valsetHash = mimcSum enc 0 d)
    (hlast : fillersLast vs = true)
    (hfp : ∀ v ∈ vs, v.Key.X < FpModulus ∧ v.Key.Y < FpModulus)
    (hvp : ∀ v ∈ vs, v.VotingPower < FrModulus) :
    hashValsetLoop vs d =
        some (d ++ (((vs.filter fun v => !isFillerKey v.Key).map validatorElements).flatten)) ∧
      ((circuitValidatorData vs).foldl (defineStep enc) s).valsetHash =
        mimcSum enc 0
          (d ++ (((vs.filter fun v => !isFillerKey v.Key).map validatorElements).flatten)) := by
  induction vs generalizing d s with
  | nil => simp [hashValsetLoop, circuitValidatorData, hs2]
  | cons v vs ih =>
    have hp := hfp v (List.mem_cons_self _ _)
    by_cases hv : isFillerKey v.Key = true
    · have hall : ∀ w ∈ v :: vs, isFillerKey w.Key = true := by
        intro w hw
        rcases List.mem_cons.mp hw with h | h
        · rw [h]; exact hv
        · simp only [fillersLast, hv, if_true, List.all_eq_true] at hlast
          exact hlast w h
      rw [filter_fillers _ hall, defineLoop_fillers enc _ s hall hfp]
      simp [hashValsetLoop, hv, hs2]
    · have hv2 : isFillerKey v.Key = false := by simpa using hv
      have hvpv := hvp v (List.mem_cons_self _ _)
      have hlast2 : fillersLast vs = true := by
        simpa [fillersLast, hv2] using hlast
      have hstep : mimcSum enc s.mimcH
          (emulatedLimbs v.Key.X ++ emulatedLimbs v.Key.Y ++ [frOf v.VotingPower]) =
          mimcSum enc 0 (d ++ validatorElements v) := by
        rw [circuit_elements v hvpv, hs1]
        simp [mimcSum, List.foldl_append]
      have := ih (d ++ validatorElements v)
        (defineStep enc s (circuitSlot v))
        (by simp only [defineStep, circuitSlot]; exact hstep)
        (by
          simp only [defineStep, circuitSlot, isFiller_circuit v.Key hp.1 hp.2, hv2, apiSelect]
          simpa using hstep)
        hlast2 (fun w hw => hfp w (List.mem_cons_of_mem _ hw))
        (fun w hw => hvp w (List.mem_cons_of_mem _ hw))
      rw [hashValsetLoop_cons v vs d hv2 hvpv, circuitValidatorData_cons, List.foldl_cons]
      simp only [List.filter_cons, hv2, Bool.not_false, if_true, List.map_cons,
        List.flatten_cons, ← List.append_assoc]
      exact this

theorem hashValsetLoop_pad (vs : List ValidatorData) (k : Nat) (d : List Nat) :
    hashValsetLoop (vs ++ List.replicate k fillerValidator) d = hashValsetLoop vs d := by
  induction vs generalizing d with
  | nil =>
    cases k with
    | zero => rfl
    | succ k => simp [List.replicate_succ, hashValsetLoop, fillerValidator, isFillerKey,
        G1Affine.infinity]
  | cons v vs ih =>
    rw [List.cons_append, hashValsetLoop, hashValsetLoop]
    split
    · rfl
    · simp only []
      cases FillBytes v.VotingPower 32 with
      | none => rfl
      | some buf => exact ih _

theorem hashValsetLoop_isSome (vs : List ValidatorData) (d : List Nat)
    (hvp : ∀ v ∈ vs, v.VotingPower < 2 ^ 256) : (hashValsetLoop vs d).isSome = true := by
  induction vs generalizing d with
  | nil => rfl
  | cons v vs ih =>
    rw [hashValsetLoop]
    split
    · rfl
    · have h : v.VotingPower < 256 ^ 32 := by
        have := hvp v (List.mem_cons_self _ _); norm_num at this ⊢; exact this
      simp only [FillBytes_of_lt _ _ h]
      exact ih _ (fun w hw => hvp w (List.mem_cons_of_mem _ hw))

/-- C2 (as stated) fails: for the one-validator valset with voting power r the
native hasher drops the voting-power write (8 elements absorbed) while the
circuit absorbs a ninth element, so the two hashes are not equal for every block
cipher. -/
theorem C2_counterexample :
    fillersLast overflowValset = true ∧
      hashValsetLoop overflowValset [] = some [1, 0, 0, 0, 2, 0, 0, 0] ∧
      ¬ ∀ enc : Nat → Nat → Nat,
        HashValset enc overflowValset =
          some (toBytesBE 32 (defineLoop enc (circuitValidatorData overflowValset)).valsetHash) := by
  refine ⟨by decide!, by decide!, ?_⟩
  intro h
  have h1 := h (fun _ _ => 1)
  revert h1
  decide!

/-- C2 (amended): when every filler comes after every non-filler, the key
coordinates are canonical and every voting power is below the scalar-field
modulus, the native HashValset returns the 32 bytes of the value the circuit
computes as valsetHash, and this value is the sponge over the limbs of X, the
limbs of Y and the voting power of every non-filler entry in order. -/
theorem C2_HashValset_refines_circuit (enc : Nat → Nat → Nat) (valset : List ValidatorData)
    (hlast : fillersLast valset = true)
    (hfp : ∀ v ∈ valset, v.Key.X < FpModulus ∧ v.Key.Y < FpModulus)
    (hvp : ∀ v ∈ valset, v.VotingPower < FrModulus) :
    HashValset enc valset =
        some (toBytesBE 32 (defineLoop enc (circuitValidatorData valset)).valsetHash) ∧
      (defineLoop enc (circuitValidatorData valset)).valsetHash = valsetHashSpec enc valset := by
  have h := valset_hash_loops enc valset [] ⟨0, 0, 0, ⟨0, 0⟩⟩ rfl rfl hlast hfp hvp
  simp only [List.nil_append] at h
  refine ⟨?_, ?_⟩
  · rw [HashValset, h.1, defineLoop, h.2]; rfl
  · rw [defineLoop, h.2]; rfl

/-- Witness of C2 (amended): the test valset of 7 validators, normalised. -/
theorem C2_witness :
    HashValset (fun _ _ => 0) (NormalizeValset (genValset 7 [])) =
        some (toBytesBE 32 (defineLoop (fun _ _ => 0)
          (circuitValidatorData (NormalizeValset (genValset 7 [])))).valsetHash) :=
  (C2_HashValset_refines_circuit (fun _ _ => 0) (NormalizeValset (genValset 7 []))
    (by decide!) (by decide!) (by decide!)).1

/-- C3 (as stated) fails twice: 11 validators are normalised to the empty list,
whose hash is that of no input, and two validators given in descending key
order are swapped, which changes the absorbed sequence. -/
theorem C3_counterexample :
    (¬ ∀ enc : Nat → Nat → Nat,
        HashValset enc (NormalizeValset (genValset 11 [])) = HashValset enc (genValset 11 [])) ∧
    (¬ ∀ enc : Nat → Nat → Nat,
        HashValset enc (NormalizeValset (genValset 2 []).reverse) =
          HashValset enc (genValset 2 []).reverse) := by
  constructor
  · intro h
    have h1 := h (fun _ _ => 0)
    revert h1
    decide!
  · intro h
    have h1 := h (fun k _ => k)
    revert h1
    decide!

/-- C3 (amended): when some capacity fits the valset, the hash of the normalised
list equals the hash of the valset as NormalizeValset leaves it (sorted in
place): the padding fillers do not change the hash. With voting powers of at
most 32 bytes the hash is returned. -/
theorem C3_hash_ignores_padding (enc : Nat → Nat → Nat) (valset : List ValidatorData)
    (hfit : ∃ N ∈ MaxValidators, valset.length ≤ N) :
    HashValset enc (NormalizeValset valset) = HashValset enc (sortValset valset) ∧
      ((∀ v ∈ valset, v.VotingPower < 2 ^ 256) →
        (HashValset enc (NormalizeValset valset)).isSome = true) := by
  have h : valset.length ≤ 10 := (fits_iff _).mp hfit
  have heq : HashValset enc (NormalizeValset valset) = HashValset enc (sortValset valset) := by
    rw [NormalizeValset_eq_pad _ h, HashValset, HashValset, hashValsetLoop_pad]
  refine ⟨heq, ?_⟩
  intro hvp
  rw [heq, HashValset, Option.isSome_map']
  apply hashValsetLoop_isSome
  intro v hv
  exact hvp v ((sortSlice_perm keyLess valset).mem_iff.mp hv)

/-- Witness of C3 (amended): two test validators given in descending key order. -/
theorem C3_witness :
    HashValset (fun k _ => k) (NormalizeValset (genValset 2 []).reverse) =
      HashValset (fun k _ => k) (sortValset (genValset 2 []).reverse) :=
  (C3_hash_ignores_padding (fun k _ => k) (genValset 2 []).reverse ⟨10, by decide, by decide!⟩).1

/-! ## Voting power of the signers: native and circuit -/

theorem getNonSignersData_foldl (vs : List ValidatorData) (acc : G1Affine × Nat × Nat) :
    (vs.foldl
      (fun acc v =>
        let aggKey := if v.IsNonSigner then g1Add acc.1 v.Key else acc.1
        let aggVotingPower := if v.IsNonSigner then acc.2.1 + v.VotingPower else acc.2.1
        (aggKey, aggVotingPower, acc.2.2 + v.VotingPower)) acc).2 =
      (acc.2.1 + (vs.map fun v => if v.IsNonSigner then v.VotingPower else 0).sum,
        acc.2.2 + (vs.map fun v => v.VotingPower).sum) := by
  induction vs generalizing acc with
  | nil => simp
  | cons v vs ih =>
    rw [List.foldl_cons, ih]
    cases hns : v.IsNonSigner <;> simp [hns] <;> omega

theorem signersAggVotingPower_eq (vs : List ValidatorData) :
    signersAggVotingPower vs = (vs.map fun v => if v.IsNonSigner then 0 else v.VotingPower).sum := by
  unfold signersAggVotingPower getNonSignersData
  rw [getNonSignersData_foldl]
  simp only [Nat.zero_add]
  induction vs with
  | nil => rfl
  | cons v vs ih =>
    have hle : (vs.map fun v => if v.IsNonSigner then v.VotingPower else 0).sum ≤
        (vs.map fun v => v.VotingPower).sum := by
      apply List.sum_le_sum
      intro w _
      split <;> omega
    cases hns : v.IsNonSigner <;> simp [hns] <;> omega

theorem signers_sum_eq_signerPowerSum (vs : List ValidatorData)
    (hz : ∀ v ∈ vs, isFillerKey v.Key = true → v.VotingPower = 0) :
    (vs.map fun v => if v.IsNonSigner then 0 else v.VotingPower).sum = signerPowerSum vs := by
  unfold signerPowerSum
  induction vs with
  | nil => rfl
  | cons v vs ih =>
    have ih2 := ih (fun w hw => hz w (List.mem_cons_of_mem _ hw))
    have hv := hz v (List.mem_cons_self _ _)
    rw [List.map_cons, List.sum_cons, ih2, List.filter_cons]
    cases hns : v.IsNonSigner <;> cases hf : isFillerKey v.Key <;> simp [hns, hf]
    exact hv hf

theorem apiOr_bool (a b : Bool) :
    apiOr (if a then 1 else 0) (if b then 1 else 0) = if a || b then 1 else 0 := by
  cases a <;> cases b <;> rfl

theorem defineLoop_power (enc : Nat → Nat → Nat) (vs : List ValidatorData) (s : LoopState)
    (x : Nat) (hs : s.signersAggVotingPower = x % FrModulus)
    (hfp : ∀ v ∈ vs, v.Key.X < FpModulus ∧ v.Key.Y < FpModulus) :
    ((circuitValidatorData vs).foldl (defineStep enc) s).signersAggVotingPower =
      (x + signerPowerSum vs) % FrModulus := by
  induction vs generalizing s x with
  | nil => simpa [circuitValidatorData, signerPowerSum] using hs
  | cons v vs ih =>
    have hp := hfp v (List.mem_cons_self _ _)
    rw [circuitValidatorData_cons, List.foldl_cons]
    by_cases hskip : (isFillerKey v.Key || v.IsNonSigner) = true
    · rw [ih (defineStep enc s (circuitSlot v)) x ?_ (fun w hw => hfp w (List.mem_cons_of_mem _ hw))]
      · congr 2
        unfold signerPowerSum
        rw [List.filter_cons]
        have : (!isFillerKey v.Key && !v.IsNonSigner) = false := by
          cases h1 : isFillerKey v.Key <;> cases h2 : v.IsNonSigner <;> simp_all
        simp [this]
      · simp only [defineStep, circuitSlot, isFiller_circuit v.Key hp.1 hp.2, apiOr_bool, hskip,
          if_true, apiSelect]
        exact hs
    · have hskip2 : (isFillerKey v.Key || v.IsNonSigner) = false := by simpa using hskip
      rw [ih (defineStep enc s (circuitSlot v)) (x + v.VotingPower) ?_
        (fun w hw => hfp w (List.mem_cons_of_mem _ hw))]
      · congr 1
        unfold signerPowerSum
        rw [List.filter_cons]
        have : (!isFillerKey v.Key && !v.IsNonSigner) = true := by
          cases h1 : isFillerKey v.Key <;> cases h2 : v.IsNonSigner <;> simp_all
        simp [this]
        omega
      · simp only [defineStep, circuitSlot, isFiller_circuit v.Key hp.1 hp.2, apiOr_bool, hskip2,
          apiSelect, apiAdd, frOf, hs]
        simp [Nat.add_mod]

theorem defineLoop_power_eq (enc : Nat → Nat → Nat) (vs : List ValidatorData)
    (hfp : ∀ v ∈ vs, v.Key.X < FpModulus ∧ v.Key.Y < FpModulus) :
    (defineLoop enc (circuitValidatorData vs)).signersAggVotingPower =
      signerPowerSum vs % FrModulus := by
  have := defineLoop_power enc vs ⟨0, 0, 0, ⟨0, 0⟩⟩ 0 rfl hfp
  simpa [defineLoop] using this

theorem mem_NormalizeValset (valset : List ValidatorData) (v : ValidatorData)
    (hv : v ∈ NormalizeValset valset) : v ∈ valset ∨ v = fillerValidator := by
  by_cases h : valset.length ≤ 10
  · rw [NormalizeValset_eq_pad _ h, List.mem_append] at hv
    rcases hv with hv | hv
    · exact Or.inl ((sortSlice_perm keyLess valset).mem_iff.mp hv)
    · exact Or.inr (List.eq_of_mem_replicate hv)
  · rw [NormalizeValset_eq_nil _ (by omega)] at hv
    simp at hv

/-! ## The masked input hash -/

theorem toBytesBE_eq_map (n v : Nat) :
    toBytesBE n v = (List.range n).map fun i => v / 256 ^ (n - 1 - i) % 256 := by
  induction n generalizing v with
  | zero => rfl
  | succ n ih =>
    rw [toBytesBE, ih, List.range_succ, List.map_append]
    congr 1
    · apply List.map_congr_left
      intro i hi
      have hi2 : i < n := List.mem_range.mp hi
      rw [Nat.div_div_eq_div_mul, ← pow_succ']
      congr 3
      omega
    · simp

theorem ToBinary_getD (v j : Nat) (hj : j < 256) : (ToBinary v 256).getD j 0 = v / 2 ^ j % 2 := by
  simp [ToBinary, List.getD_eq_getElem?_getD, List.getElem?_range, hj]

theorem byte_of_bits (w : Nat) :
    128 * (w / 2 ^ 7 % 2) + 64 * (w / 2 ^ 6 % 2) + 32 * (w / 2 ^ 5 % 2) + 16 * (w / 2 ^ 4 % 2) +
      8 * (w / 2 ^ 3 % 2) + 4 * (w / 2 ^ 2 % 2) + 2 * (w / 2 ^ 1 % 2) + 1 * (w / 2 ^ 0 % 2) =
      w % 256 := by
  norm_num
  omega

theorem variableToBytes_eq (v : Nat) : variableToBytes v = toBytesBE 32 v := by
  rw [toBytesBE_eq_map]
  unfold variableToBytes
  apply List.map_congr_left
  intro i hi
  have hi2 : i < 32 := List.mem_range.mp hi
  rw [ToBinary_getD _ _ (by omega), ToBinary_getD _ _ (by omega), ToBinary_getD _ _ (by omega),
    ToBinary_getD _ _ (by omega), ToBinary_getD _ _ (by omega), ToBinary_getD _ _ (by omega),
    ToBinary_getD _ _ (by omega), ToBinary_getD _ _ (by omega)]
  have hw : ∀ t, t < 8 → v / 2 ^ (8 * (32 - i) - 8 + t) = v / 256 ^ (32 - 1 - i) / 2 ^ t := by
    intro t _
    rw [Nat.div_div_eq_div_mul, show (256 : Nat) = 2 ^ 8 by norm_num, ← pow_mul, ← pow_add]
    congr 2
    omega
  have e7 : 8 * (32 - i) - 1 = 8 * (32 - i) - 8 + 7 := by omega
  have e6 : 8 * (32 - i) - 2 = 8 * (32 - i) - 8 + 6 := by omega
  have e5 : 8 * (32 - i) - 3 = 8 * (32 - i) - 8 + 5 := by omega
  have e4 : 8 * (32 - i) - 4 = 8 * (32 - i) - 8 + 4 := by omega
  have e3 : 8 * (32 - i) - 5 = 8 * (32 - i) - 8 + 3 := by omega
  have e2 : 8 * (32 - i) - 6 = 8 * (32 - i) - 8 + 2 := by omega
  have e1 : 8 * (32 - i) - 7 = 8 * (32 - i) - 8 + 1 := by omega
  have e0 : 8 * (32 - i) - 8 = 8 * (32 - i) - 8 + 0 := by omega
  rw [e7, e6, e5, e4, e3, e2, e1]
  conv_lhs => rw [e0]
  rw [hw 7 (by omega), hw 6 (by omega), hw 5 (by omega), hw 4 (by omega), hw 3 (by omega),
    hw 2 (by omega), hw 1 (by omega), hw 0 (by omega)]
  exact byte_of_bits _

theorem inputHashMask_eq : inputHashMask = 2 ^ 253 - 1 := by
  norm_num [inputHashMask]

theorem and_inputHashMask (x : Nat) : x &&& inputHashMask = x % 2 ^ 253 := by
  rw [inputHashMask_eq, Nat.and_pow_two_sub_one_eq_mod]

theorem masked_lt_modulus (x : Nat) : x &&& inputHashMask < FrModulus := by
  rw [and_inputHashMask]
  have : x % 2 ^ 253 < 2 ^ 253 := Nat.mod_lt _ (by positivity)
  unfold FrModulus
  norm_num at this ⊢
  omega

theorem masked_digest_bytes (d : List Nat) (hlen : d.length = 32) (hb : ∀ b ∈ d, b < 256) :
    toBytesBE 32 (SetBytes d &&& inputHashMask) = (d.getD 0 0 &&& 0x1f) :: d.tail := by
  match d, hlen, hb with
  | d0 :: rest, hlen, hb =>
    have hrest : rest.length = 31 := by simpa using hlen
    have hd0 : d0 < 256 := hb d0 (List.mem_cons_self _ _)
    have hbr : ∀ b ∈ rest, b < 256 := fun b h => hb b (List.mem_cons_of_mem _ h)
    have hR := SetBytes_lt rest hbr
    rw [hrest] at hR
    have hS : SetBytes (d0 :: rest) = d0 * 256 ^ 31 + SetBytes rest := by
      have := SetBytes_append [d0] rest
      rw [SetBytes_singleton, hrest] at this
      simpa using this
    have hand : d0 &&& 0x1f = d0 % 32 := by
      have := Nat.and_pow_two_sub_one_eq_mod d0 5
      norm_num at this
      exact this
    have hS2 : SetBytes ((d0 % 32) :: rest) = d0 % 32 * 256 ^ 31 + SetBytes rest := by
      have := SetBytes_append [d0 % 32] rest
      rw [SetBytes_singleton, hrest] at this
      simpa using this
    have hmod : (d0 * 256 ^ 31 + SetBytes rest) % 2 ^ 253 = d0 % 32 * 256 ^ 31 + SetBytes rest := by
      norm_num at hR ⊢
      omega
    simp only [List.getD_cons_zero, List.tail_cons]
    rw [and_inputHashMask, hS, hmod, ← hS2, hand]
    have hb2 : ∀ b ∈ (d0 % 32) :: rest, b < 256 := by
      intro b h
      rcases List.mem_cons.mp h with h | h
      · rw [h]; omega
      · exact hbr b h
    have := toBytesBE_SetBytes ((d0 % 32) :: rest) hb2
    simpa [hrest] using this

theorem keccak256_length (data : List Nat) : (keccak256 data).length = 32 := by
  simp [keccak256, laneBytesLE, List.range, List.range.loop]

/-- C6 (as stated) fails twice: a signing entry with the key (0, 0) and voting
power 5 counts for the native value (5) and is skipped by the circuit (0); and a
voting power equal to r gives the native value r while the circuit, which adds
in the scalar field, accumulates 0. -/
theorem C6_counterexample :
    (signersAggVotingPower (NormalizeValset zeroKeyValset) = 5 ∧
      ∀ enc : Nat → Nat → Nat,
        (defineLoop enc (circuitValidatorData (NormalizeValset zeroKeyValset))).signersAggVotingPower
          = 0) ∧
    (signersAggVotingPower (NormalizeValset overflowValset) = FrModulus ∧
      ∀ enc : Nat → Nat → Nat,
        (defineLoop enc (circuitValidatorData (NormalizeValset overflowValset))).signersAggVotingPower
          = 0) := by
  refine ⟨⟨by decide!, fun enc => ?_⟩, ⟨by decide!, fun enc => ?_⟩⟩
  · rw [defineLoop_power_eq enc _ (by decide!)]; decide!
  · rw [defineLoop_power_eq enc _ (by decide!)]; decide!

/-- C6 (amended): for a valset with canonical key coordinates in which every
entry with the key (0, 0) has voting power 0, the voting power Prove returns for
the normalised list is the sum over its non-filler signers, the circuit
accumulates that sum reduced modulo r, which is the field value of the
assigned number, and both are the same integer when the sum is below r. For
genValset(10, [0, 1, 2]) both are 700. -/
theorem C6_signers_voting_power :
    (∀ (enc : Nat → Nat → Nat) (valset : List ValidatorData),
      (∀ v ∈ valset, v.Key.X < FpModulus ∧ v.Key.Y < FpModulus) →
      (∀ v ∈ valset, isFillerKey v.Key = true → v.VotingPower = 0) →
        signersAggVotingPower (NormalizeValset valset) =
            signerPowerSum (NormalizeValset valset) ∧
          (defineLoop enc (circuitValidatorData (NormalizeValset valset))).signersAggVotingPower =
            frOf (signersAggVotingPower (NormalizeValset valset)) ∧
          (signerPowerSum (NormalizeValset valset) < FrModulus →
            (defineLoop enc (circuitValidatorData (NormalizeValset valset))).signersAggVotingPower =
              signersAggVotingPower (NormalizeValset valset))) ∧
    (∀ enc : Nat → Nat → Nat,
      signersAggVotingPower (NormalizeValset (genValset 10 [0, 1, 2])) = 700 ∧
        (defineLoop enc (circuitValidatorData
          (NormalizeValset (genValset 10 [0, 1, 2])))).signersAggVotingPower = 700) := by
  have gen : ∀ (enc : Nat → Nat → Nat) (valset : List ValidatorData),
      (∀ v ∈ valset, v.Key.X < FpModulus ∧ v.Key.Y < FpModulus) →
      (∀ v ∈ valset, isFillerKey v.Key = true → v.VotingPower = 0) →
        signersAggVotingPower (NormalizeValset valset) =
            signerPowerSum (NormalizeValset valset) ∧
          (defineLoop enc (circuitValidatorData (NormalizeValset valset))).signersAggVotingPower =
            frOf (signersAggVotingPower (NormalizeValset valset)) ∧
          (signerPowerSum (NormalizeValset valset) < FrModulus →
            (defineLoop enc (circuitValidatorData (NormalizeValset valset))).signersAggVotingPower =
              signersAggVotingPower (NormalizeValset valset)) := by
    intro enc valset hfp hz
    have hfp2 : ∀ v ∈ NormalizeValset valset, v.Key.X < FpModulus ∧ v.Key.Y < FpModulus := by
      intro v hv
      rcases mem_NormalizeValset valset v hv with h | h
      · exact hfp v h
      · rw [h]; decide
    have hz2 : ∀ v ∈ NormalizeValset valset, isFillerKey v.Key = true → v.VotingPower = 0 := by
      intro v hv
      rcases mem_NormalizeValset valset v hv with h | h
      · exact hz v h
      · rw [h]; intro _; rfl
    have h1 : signersAggVotingPower (NormalizeValset valset) =
        signerPowerSum (NormalizeValset valset) := by
      rw [signersAggVotingPower_eq, signers_sum_eq_signerPowerSum _ hz2]
    refine ⟨h1, ?_, ?_⟩
    · rw [defineLoop_power_eq enc _ hfp2, h1, frOf]
    · intro hlt
      rw [defineLoop_power_eq enc _ hfp2, h1, Nat.mod_eq_of_lt hlt]
  refine ⟨gen, fun enc => ?_⟩
  have hn : signersAggVotingPower (NormalizeValset (genValset 10 [0, 1, 2])) = 700 := by decide!
  have hg := gen enc (genValset 10 [0, 1, 2]) (by decide!) (by decide!)
  refine ⟨hn, ?_⟩
  rw [hg.2.1, hn]
  decide

/-- Witness of C6 (amended): the test valset of 7 validators with one non-signer,
under the constant-zero block cipher. -/
theorem C6_witness :
    signersAggVotingPower (NormalizeValset (genValset 7 [3])) =
        signerPowerSum (NormalizeValset (genValset 7 [3])) ∧
      (defineLoop (fun _ _ => 0)
        (circuitValidatorData (NormalizeValset (genValset 7 [3])))).signersAggVotingPower =
        frOf (signersAggVotingPower (NormalizeValset (genValset 7 [3]))) :=
  have h := C6_signers_voting_power.1 (fun _ _ => 0) (genValset 7 [3]) (by decide!) (by decide!)
  ⟨h.1, h.2.1⟩

theorem assignedInputHash_eq (keccak : List Nat → List Nat) (valsetHash : List Nat)
    (vp : Nat) (message : G1Affine) (hvp : vp < 2 ^ 256) :
    assignedInputHash keccak valsetHash vp message =
      some (SetBytes (keccak (valsetHash ++ toBytesBE 32 vp ++ toBytesBE 32 message.X ++
        toBytesBE 32 message.Y)) &&& inputHashMask) := by
  have h256 : vp < 256 ^ 32 := by norm_num at hvp ⊢; exact hvp
  simp only [assignedInputHash, FillBytes_of_lt _ _ h256, RawBytes, List.append_assoc]

theorem verify_calculateInputHash_eq (keccak : List Nat → List Nat) (valsetHash : List Nat)
    (vp : Nat) (message : G1Affine) (hvp : vp < 2 ^ 256) (hlen : valsetHash.length = 32)
    (hk : ∀ x, (keccak x).length = 32) :
    (calculateInputHash keccak valsetHash vp message).map verifyInputHash =
      some (SetBytes (keccak (valsetHash ++ toBytesBE 32 vp ++ toBytesBE 32 message.X ++
        toBytesBE 32 message.Y)) &&& inputHashMask) := by
  have h256 : vp < 256 ^ 32 := by norm_num at hvp ⊢; exact hvp
  have hs : slice valsetHash 0 32 = valsetHash := by
    simp [slice, List.take_of_length_le (le_of_eq hlen)]
  simp only [calculateInputHash, FillBytes_of_lt _ _ h256, hs, Option.map_some',
    verifyInputHash, BytesToHash, hk, lt_irrefl, if_false, Nat.sub_self,
    List.replicate_zero, List.nil_append]

theorem setCircuitData_inputHash (keccak : List Nat → List Nat) (enc : Nat → Nat → Nat)
    (proveInput : ProveInput) (c : Circuit) (hc : setCircuitData keccak enc proveInput = some c) :
    ∃ vh, HashValset enc proveInput.ValidatorData = some vh ∧
      c.InputHash = SetBytes (keccak (vh ++
        toBytesBE 32 (signersAggVotingPower proveInput.ValidatorData) ++
        toBytesBE 32 proveInput.MessageG1.X ++ toBytesBE 32 proveInput.MessageG1.Y)) &&&
          inputHashMask := by
  unfold setCircuitData at hc
  cases hh : HashValset enc proveInput.ValidatorData with
  | none => rw [hh] at hc; simp at hc
  | some vh =>
    rw [hh] at hc
    simp only [] at hc
    refine ⟨vh, rfl, ?_⟩
    by_cases hvp : signersAggVotingPower proveInput.ValidatorData < 2 ^ 256
    · rw [assignedInputHash_eq _ _ _ _ hvp] at hc
      simp only [Option.some.injEq] at hc
      rw [← hc]
    · have h256 : ¬ signersAggVotingPower proveInput.ValidatorData < 256 ^ 32 := by
        norm_num at hvp ⊢; exact hvp
      have hn : assignedInputHash keccak vh (signersAggVotingPower proveInput.ValidatorData)
          proveInput.MessageG1 = none := by
        unfold assignedInputHash FillBytes
        rw [if_neg h256]
      rw [hn] at hc
      simp at hc

/-- C7 (as stated) fails: for the empty valset (whose hash is 32 zero bytes),
voting power 0 and the generator as message, the Keccak digest starts with
0x69, so masking with 2^255 - 1 keeps bits 253 and 254 that the code clears;
the assigned input hash and the one Verify derives both differ from the
claimed value. -/
theorem C7_counterexample :
    (∀ enc : Nat → Nat → Nat, HashValset enc [] = some (List.replicate 32 0)) ∧
      (keccak256 (List.replicate 32 0 ++ toBytesBE 32 0 ++ toBytesBE 32 g1Gen.X ++
        toBytesBE 32 g1Gen.Y)).take 1 = [0x69] ∧
      assignedInputHash keccak256 (List.replicate 32 0) 0 g1Gen ≠
        some (SetBytes (keccak256 (List.replicate 32 0 ++ toBytesBE 32 0 ++
          toBytesBE 32 g1Gen.X ++ toBytesBE 32 g1Gen.Y)) &&& (2 ^ 255 - 1)) ∧
      (calculateInputHash keccak256 (List.replicate 32 0) 0 g1Gen).map verifyInputHash ≠
        some (SetBytes (keccak256 (List.replicate 32 0 ++ toBytesBE 32 0 ++
          toBytesBE 32 g1Gen.X ++ toBytesBE 32 g1Gen.Y)) &&& (2 ^ 255 - 1)) := by
  have h : toBytesBE 32 0 = List.replicate 32 0 := by decide!
  have hd : keccak256 (List.replicate 32 0 ++ toBytesBE 32 0 ++ toBytesBE 32 g1Gen.X ++
      toBytesBE 32 g1Gen.Y) =
      [0x69, 0x45, 0x96, 0xc3, 0x96, 0x2b, 0xbb, 0x9a, 0x95, 0x88, 0x55, 0x41, 0x50, 0x14, 0xb1,
        0x0a, 0x87, 0xc2, 0x87, 0x65, 0x9d, 0xb9, 0xab, 0xf4, 0xaa, 0xbf, 0x5f, 0xe2, 0x01, 0x0b,
        0x1a, 0x97] := by decide!
  refine ⟨fun enc => ?_, ?_, ?_, ?_⟩
  · simp only [HashValset, hashValsetLoop, Option.map_some', mimcSum, List.foldl_nil, h]
  · rw [hd]; rfl
  · rw [assignedInputHash_eq _ _ _ _ (by norm_num), hd]; decide!
  · rw [verify_calculateInputHash_eq _ _ _ _ (by norm_num) (by simp) keccak256_length, hd]
    decide!

/-- C7 (amended): for a 32-byte valset hash, a voting power below 2^256 and any
message point, the input hash computed in the last part of setCircuitData and
the one Verify derives from calculateInputHash both equal the Keccak digest of
valset_hash ‖ voting power ‖ X ‖ Y ANDed with 2^253 - 1; and whenever
setCircuitData returns, its InputHash is that value for the valset hash and the
signers' voting power of the prove input. -/
theorem C7_input_hash (keccak : List Nat → List Nat) (valsetHash : List Nat)
    (signersVotingPower : Nat) (message : G1Affine)
    (hvp : signersVotingPower < 2 ^ 256) (hlen : valsetHash.length = 32)
    (hk : ∀ x, (keccak x).length = 32) :
    assignedInputHash keccak valsetHash signersVotingPower message =
        some (SetBytes (keccak (valsetHash ++ toBytesBE 32 signersVotingPower ++
          toBytesBE 32 message.X ++ toBytesBE 32 message.Y)) &&& (2 ^ 253 - 1)) ∧
      (calculateInputHash keccak valsetHash signersVotingPower message).map verifyInputHash =
        some (SetBytes (keccak (valsetHash ++ toBytesBE 32 signersVotingPower ++
          toBytesBE 32 message.X ++ toBytesBE 32 message.Y)) &&& (2 ^ 253 - 1)) ∧
      (∀ (enc : Nat → Nat → Nat) (proveInput : ProveInput) (c : Circuit),
        setCircuitData keccak enc proveInput = some c →
          ∃ vh, HashValset enc proveInput.ValidatorData = some vh ∧
            c.InputHash = SetBytes (keccak (vh ++
              toBytesBE 32 (signersAggVotingPower proveInput.ValidatorData) ++
              toBytesBE 32 proveInput.MessageG1.X ++ toBytesBE 32 proveInput.MessageG1.Y)) &&&
                (2 ^ 253 - 1)) := by
  rw [← inputHashMask_eq]
  refine ⟨assignedInputHash_eq keccak valsetHash signersVotingPower message hvp,
    verify_calculateInputHash_eq keccak valsetHash signersVotingPower message hvp hlen hk, ?_⟩
  intro enc proveInput c hc
  exact setCircuitData_inputHash keccak enc proveInput c hc

/-- Witness of C7 (amended): the reference Keccak, the hash of the empty valset,
voting power 700 and the generator as message. -/
theorem C7_witness :
    assignedInputHash keccak256 (List.replicate 32 0) 700 g1Gen =
      some (SetBytes (keccak256 (List.replicate 32 0 ++ toBytesBE 32 700 ++
        toBytesBE 32 g1Gen.X ++ toBytesBE 32 g1Gen.Y)) &&& (2 ^ 253 - 1)) :=
  (C7_input_hash keccak256 (List.replicate 32 0) 700 g1Gen (by norm_num) (by simp)
    keccak256_length).1

/-- C8: for a 32-byte digest, the integer masked with the constant 1FFF...FF,
written as 32 big-endian bytes (also by the circuit's own variableToBytes), is
the digest with its first byte ANDed with 0x1F as Define does, and the masked
integer is below the scalar-field modulus. -/
theorem C8_mask_mirrors_circuit (d : List Nat) (hlen : d.length = 32)
    (hb : ∀ b ∈ d, b < 256) :
    toBytesBE 32 (SetBytes d &&& inputHashMask) = circuitMaskDigest d ∧
      variableToBytes (SetBytes d &&& inputHashMask) = circuitMaskDigest d ∧
      circuitMaskDigest d = (d.getD 0 0 &&& 0x1f) :: d.tail ∧
      SetBytes d &&& inputHashMask < FrModulus := by
  have hm : circuitMaskDigest d = (d.getD 0 0 &&& 0x1f) :: d.tail := by
    match d, hlen with
    | d0 :: rest, _ => rfl
  refine ⟨?_, ?_, hm, masked_lt_modulus _⟩
  · rw [hm]; exact masked_digest_bytes d hlen hb
  · rw [variableToBytes_eq, hm]; exact masked_digest_bytes d hlen hb

/-- Witness of C8: the Keccak digest of the empty string. -/
theorem C8_witness :
    toBytesBE 32 (SetBytes (keccak256 []) &&& inputHashMask) = circuitMaskDigest (keccak256 []) ∧
      SetBytes (keccak256 []) &&& inputHashMask < FrModulus :=
  have h := C8_mask_mirrors_circuit (keccak256 []) (keccak256_length []) (by decide!)
  ⟨h.1, h.2.2.2⟩

/-! ## Pairing algebra -/

section pairing

variable {G1 G2 GT : Type} [AddCommGroup G1] [AddCommGroup G2] [CommGroup GT]

theorem Pairing.e_zero_left (B : Pairing G1 G2 GT) (q : G2) : B.e 0 q = 1 := by
  have h := B.add_left 0 0 q
  rw [add_zero] at h
  exact self_eq_mul_right.mp h

theorem Pairing.e_zero_right (B : Pairing G1 G2 GT) (p : G1) : B.e p 0 = 1 := by
  have h := B.add_right p 0 0
  rw [add_zero] at h
  exact self_eq_mul_right.mp h

theorem Pairing.e_nsmul_left (B : Pairing G1 G2 GT) (n : Nat) (a : G1) (q : G2) :
    B.e (n • a) q = B.e a q ^ n := by
  induction n with
  | zero => rw [zero_nsmul, pow_zero, B.e_zero_left]
  | succ n ih => rw [succ_nsmul, B.add_left, ih, pow_succ]

theorem Pairing.e_nsmul_right (B : Pairing G1 G2 GT) (n : Nat) (p : G1) (a : G2) :
    B.e p (n • a) = B.e p a ^ n := by
  induction n with
  | zero => rw [zero_nsmul, pow_zero, B.e_zero_right]
  | succ n ih => rw [succ_nsmul, B.add_right, ih, pow_succ]

theorem Pairing.e_neg_left (B : Pairing G1 G2 GT) (a : G1) (q : G2) :
    B.e (-a) q = (B.e a q)⁻¹ := by
  apply eq_inv_of_mul_eq_one_left
  rw [← B.add_left, neg_add_cancel, B.e_zero_left]

theorem Pairing.e_neg_right (B : Pairing G1 G2 GT) (p : G1) (a : G2) :
    B.e p (-a) = (B.e p a)⁻¹ := by
  apply eq_inv_of_mul_eq_one_left
  rw [← B.add_right, neg_add_cancel, B.e_zero_right]

theorem pairingProduct_pair (B : Pairing G1 G2 GT) (p1 p2 : G1) (q1 q2 : G2) :
    pairingProduct B [p1, p2] [q1, q2] = B.e p1 q1 * B.e p2 q2 := by
  simp [pairingProduct]

theorem circuit_product_split (B : Pairing G1 G2 GT) (sigma pkG1 m : G1) (pkG2 : G2)
    (alpha : Nat) :
    pairingProduct B [sigma + alpha • pkG1, m + alpha • B.g1] [-B.g2, pkG2] =
      pairingProduct B [sigma, m] [-B.g2, pkG2] *
        pairingProduct B [pkG1, B.g1] [-B.g2, pkG2] ^ alpha := by
  simp only [pairingProduct_pair, B.add_left, B.e_nsmul_left, mul_pow]
  rw [mul_mul_mul_comm]

theorem hashToG1_base : (findYFromX 1).2 * (findYFromX 1).2 % FpModulus = (findYFromX 1).1 := by
  decide!

theorem hashToG1Loop_reaches (k : Nat) :
    ∀ (x fuel : Nat), x < FpModulus → (x + k) % FpModulus = 1 → k < fuel →
      ∃ pt, hashToG1Loop fuel x = some pt := by
  induction k with
  | zero =>
    intro x fuel hx hk hf
    have hx1 : x = 1 := by rw [Nat.add_zero, Nat.mod_eq_of_lt hx] at hk; exact hk
    obtain ⟨f, rfl⟩ : ∃ f, fuel = f + 1 := ⟨fuel - 1, by omega⟩
    rw [hashToG1Loop, hx1]
    simp only [hashToG1_base, if_true]
    exact ⟨_, rfl⟩
  | succ k ih =>
    intro x fuel hx hk hf
    obtain ⟨f, rfl⟩ : ∃ f, fuel = f + 1 := ⟨fuel - 1, by omega⟩
    rw [hashToG1Loop]
    by_cases hpass : (findYFromX x).2 * (findYFromX x).2 % FpModulus = (findYFromX x).1
    · simp only [hpass, if_true]
      exact ⟨_, rfl⟩
    · simp only [hpass, if_false]
      apply ih _ _ (Nat.mod_lt _ (by unfold FpModulus; norm_num)) _ (by omega)
      rw [Nat.add_mod, Nat.mod_mod, ← Nat.add_mod]
      rw [← hk]
      congr 1
      omega

theorem hashToG1_isSome (data : List Nat) : ∃ pt, hashToG1 data = some pt := by
  unfold hashToG1
  have hp : 0 < FpModulus := by unfold FpModulus; norm_num
  have hx : SetBytes data % FpModulus < FpModulus := Nat.mod_lt _ hp
  generalize SetBytes data % FpModulus = x at hx
  by_cases h : x ≤ 1
  · apply hashToG1Loop_reaches (1 - x) x FpModulus hx
    · have : x + (1 - x) = 1 := by omega
      rw [this]; exact Nat.mod_eq_of_lt (by unfold FpModulus; norm_num)
    · unfold FpModulus; omega
  · apply hashToG1Loop_reaches (FpModulus + 1 - x) x FpModulus hx
    · have : x + (FpModulus + 1 - x) = 1 + FpModulus := by omega
      rw [this, Nat.add_mod_right]; exact Nat.mod_eq_of_lt (by unfold FpModulus; norm_num)
    · omega

end pairing

/-- C9 (as stated) fails in the pairing of BN254 written in discrete-logarithm
coordinates. With alpha = 0 the single check holds for sigma = m = pk_g2 = 0 and
pk_g1 = g1 although the key-link equation fails; with alpha = 1 it holds for
sigma = g1, pk_g1 = -g1, m = pk_g2 = 0 although the signature equation fails. -/
theorem C9_counterexample :
    (circuitPairingCheck dlogPairing 0 1 0 0 0 ∧ ¬ keyLinkEquation dlogPairing 1 0) ∧
      (circuitPairingCheck dlogPairing 1 (-1) 0 0 1 ∧ ¬ signatureEquation dlogPairing 1 0 0) := by
  haveI : Fact (1 < FrModulus) := ⟨by unfold FrModulus; norm_num⟩
  have hne : (-1 : ZMod FrModulus) ≠ 0 := neg_ne_zero.mpr one_ne_zero
  have hofAdd : ∀ x : ZMod FrModulus, Multiplicative.ofAdd x = 1 ↔ x = 0 := fun x => ofAdd_eq_one
  refine ⟨⟨?_, ?_⟩, ⟨?_, ?_⟩⟩
  · simp [circuitPairingCheck, pairingProduct, dlogPairing]
  · simp only [keyLinkEquation, pairingProduct_pair]
    show ¬ Multiplicative.ofAdd ((1 : ZMod FrModulus) * -1) * Multiplicative.ofAdd ((1 : ZMod FrModulus) * 0) = 1
    rw [← ofAdd_add, hofAdd]
    simp
  · simp only [circuitPairingCheck, pairingProduct_pair]
    show Multiplicative.ofAdd (((1 : ZMod FrModulus) + 1 • (-1)) * -1) *
      Multiplicative.ofAdd (((0 : ZMod FrModulus) + 1 • 1) * 0) = 1
    rw [← ofAdd_add, hofAdd]
    simp
  · simp only [signatureEquation, pairingProduct_pair]
    show ¬ Multiplicative.ofAdd ((1 : ZMod FrModulus) * -1) * Multiplicative.ofAdd ((0 : ZMod FrModulus) * 0) = 1
    rw [← ofAdd_add, hofAdd]
    simp

/-- C9 (amended): for every bilinear pairing and every scalar alpha, the product
of the single check is the signature product times the alpha-th power of the
key-link product; hence the two equations together imply the single check, and
the single check together with the key-link equation implies the signature
equation. -/
theorem C9_linearized_check {G1 G2 GT : Type} [AddCommGroup G1] [AddCommGroup G2]
    [CommGroup GT] (B : Pairing G1 G2 GT) (sigma m pkG1 : G1) (pkG2 : G2) (alpha : Nat) :
    pairingProduct B [sigma + alpha • pkG1, m + alpha • B.g1] [-B.g2, pkG2] =
        pairingProduct B [sigma, m] [-B.g2, pkG2] *
          pairingProduct B [pkG1, B.g1] [-B.g2, pkG2] ^ alpha ∧
      (signatureEquation B sigma m pkG2 ∧ keyLinkEquation B pkG1 pkG2 →
        circuitPairingCheck B sigma pkG1 m pkG2 alpha) ∧
      (circuitPairingCheck B sigma pkG1 m pkG2 alpha ∧ keyLinkEquation B pkG1 pkG2 →
        signatureEquation B sigma m pkG2) := by
  unfold signatureEquation keyLinkEquation circuitPairingCheck
  rw [circuit_product_split]
  refine ⟨rfl, ?_, ?_⟩
  · rintro ⟨h1, h2⟩
    rw [h1, h2, one_pow, one_mul]
  · rintro ⟨h1, h2⟩
    rw [h2, one_pow, mul_one] at h1
    exact h1

/-- Witness of C9 (amended): in the discrete-logarithm pairing, with
sigma = m = 0, pk_g1 = g1, pk_g2 = g2 and alpha = 5 the two equations hold, and
so does the single check. -/
theorem C9_witness :
    signatureEquation dlogPairing 0 0 1 ∧ keyLinkEquation dlogPairing 1 1 ∧
      circuitPairingCheck dlogPairing 0 1 0 1 5 :=
  have hs : signatureEquation dlogPairing 0 0 1 := by
    simp [signatureEquation, pairingProduct, dlogPairing]
  have hk : keyLinkEquation dlogPairing 1 1 := by
    simp [keyLinkEquation, pairingProduct, dlogPairing, ← ofAdd_add]
  ⟨hs, hk, (C9_linearized_check dlogPairing 0 0 1 1 5).2.1 ⟨hs, hk⟩⟩

/-- C10: for every secret key and every 32-byte message hash, hashToG1 returns a
point h, Sign returns sk * h without error, the public G2 key is sk * g2;
Verify, for every key and signature, returns without error whether
`e(h, pk_g2) * e(-sigma, g2) = 1`; that product is one for the key pair's own
signature, and Verify of that key on that signature and message returns true
without error. -/
theorem C10_sign_verify {G1 G2 GT : Type} [AddCommGroup G1] [AddCommGroup G2] [CommGroup GT]
    [DecidableEq GT] (B : Pairing G1 G2 GT) (point : G1Affine → G1) (sk msgHash : List Nat)
    (hlen : msgHash.length = 32) :
    ∃ (h : G1Affine) (sig : G1),
      hashToG1 msgHash = some h ∧
      Sign point (ComputeKeyPair B sk) msgHash = Except.ok sig ∧
      sig = (SetBytes sk % FrModulus) • point h ∧
      (ComputeKeyPair B sk).PublicKeyG2 = (SetBytes sk % FrModulus) • B.g2 ∧
      (∀ (pubkey : G2) (signature : G1),
        Verify B point pubkey signature msgHash =
          Except.ok (decide (B.e (point h) pubkey * B.e (-signature) B.g2 = 1))) ∧
      B.e (point h) (ComputeKeyPair B sk).PublicKeyG2 * B.e (-sig) B.g2 = 1 ∧
      Verify B point (ComputeKeyPair B sk).PublicKeyG2 sig msgHash = Except.ok true := by
  obtain ⟨h, hh⟩ := hashToG1_isSome msgHash
  have hV : ∀ (pubkey : G2) (signature : G1),
      Verify B point pubkey signature msgHash =
        Except.ok (decide (B.e (point h) pubkey * B.e (-signature) B.g2 = 1)) := by
    intro pubkey signature
    simp [Verify, hlen, hh, PairingCheck, pairingProduct_pair]
  have hprod : B.e (point h) ((SetBytes sk % FrModulus) • B.g2) *
      B.e (-((SetBytes sk % FrModulus) • point h)) B.g2 = 1 := by
    rw [B.e_neg_left, B.e_nsmul_left, B.e_nsmul_right, mul_inv_cancel]
  refine ⟨h, (SetBytes sk % FrModulus) • point h, hh, ?_, rfl, rfl, hV, hprod, ?_⟩
  · simp [Sign, hlen, hh, ComputeKeyPair]
  · rw [hV]
    simp only [ComputeKeyPair, hprod, decide_True]

/-- Witness of C10: the all-zero message hash and the secret key bytes [7] in
the discrete-logarithm pairing. -/
theorem C10_witness :
    ∃ (h : G1Affine) (sig : ZMod FrModulus),
      hashToG1 (List.replicate 32 0) = some h ∧
      Sign (fun _ => 1) (ComputeKeyPair dlogPairing [7]) (List.replicate 32 0) = Except.ok sig ∧
      sig = (SetBytes [7] % FrModulus) • (1 : ZMod FrModulus) ∧
      (ComputeKeyPair dlogPairing [7]).PublicKeyG2 = (SetBytes [7] % FrModulus) • dlogPairing.g2 ∧
      (∀ (pubkey : ZMod FrModulus) (signature : ZMod FrModulus),
        Verify dlogPairing (fun _ => 1) pubkey signature (List.replicate 32 0) =
          Except.ok (decide (dlogPairing.e 1 pubkey * dlogPairing.e (-signature) dlogPairing.g2
            = 1))) ∧
      dlogPairing.e 1 (ComputeKeyPair dlogPairing [7]).PublicKeyG2 *
        dlogPairing.e (-sig) dlogPairing.g2 = 1 ∧
      Verify dlogPairing (fun _ => 1) (ComputeKeyPair dlogPairing [7]).PublicKeyG2 sig
        (List.replicate 32 0) = Except.ok true :=
  C10_sign_verify dlogPairing (fun _ => 1) [7] (List.replicate 32 0) (by simp)

/-! ## The square-and-multiply exponentiation and the hash-to-curve loop -/

theorem powModAux_eq (m : Nat) :
    ∀ (fuel b e acc : Nat), e ≤ fuel → acc % m = acc →
      powModAux fuel b e m acc = acc * b ^ e % m := by
  intro fuel
  induction fuel with
  | zero =>
    intro b e acc he hacc
    have : e = 0 := by omega
    subst this
    simp [powModAux, hacc]
  | succ fuel ih =>
    intro b e acc he hacc
    rw [powModAux]
    by_cases h0 : e = 0
    · subst h0
      simp [hacc]
    · rw [if_neg h0]
      have hsplit : b ^ e = (b * b) ^ (e / 2) * b ^ (e % 2) := by
        rw [← pow_two, ← pow_mul, ← pow_add, Nat.div_add_mod]
      have hpow : (b * b % m) ^ (e / 2) % m = (b * b) ^ (e / 2) % m := by
        rw [← Nat.pow_mod]
      by_cases h1 : e % 2 = 1
      · rw [if_pos h1, ih _ _ _ (by omega) (Nat.mod_mod _ _), hsplit, h1, pow_one]
        rw [Nat.mul_mod, Nat.mod_mod, hpow, ← Nat.mul_mod]
        congr 1
        ring
      · rw [if_neg h1, ih _ _ _ (by omega) hacc, hsplit]
        have h2 : e % 2 = 0 := by omega
        rw [h2, pow_zero, mul_one, Nat.mul_mod, hpow, ← Nat.mul_mod]

theorem powMod_eq (b e m : Nat) : powMod b e m = b ^ e % m := by
  unfold powMod
  rw [powModAux_eq m e (b % m) e (1 % m) (le_refl _) (Nat.mod_mod _ _)]
  rw [Nat.mul_mod, Nat.mod_mod, ← Nat.pow_mod, ← Nat.mul_mod, one_mul]

theorem sqrt_exponent_eq :
    (0xc19139cb84c680a6e14116da060561765e05aa45a1c72a34f082305b61f3f52 : Nat)
      = (FpModulus + 1) / 4 := by
  unfold FpModulus
  norm_num

theorem findYFromX_fst (x : Nat) : (findYFromX x).1 = (x ^ 3 + 3) % FpModulus := by
  simp only [findYFromX, powMod_eq]
  rw [Nat.add_mod, Nat.mod_mod, ← Nat.add_mod]

theorem findYFromX_snd (x : Nat) :
    (findYFromX x).2 = (x ^ 3 + 3) ^ ((FpModulus + 1) / 4) % FpModulus := by
  have h := findYFromX_fst x
  simp only [findYFromX] at h ⊢
  rw [h, powMod_eq, ← Nat.pow_mod, sqrt_exponent_eq]

theorem hashToG1Loop_succ (fuel x : Nat) :
    hashToG1Loop (fuel + 1) x =
      if (findYFromX x).2 * (findYFromX x).2 % FpModulus = (findYFromX x).1 then
        some ⟨x, (findYFromX x).2⟩
      else hashToG1Loop fuel ((x + 1) % FpModulus) := by
  rw [hashToG1Loop]

theorem hashToG1Loop_first (fuel : Nat) :
    ∀ (x : Nat) (pt : G1Affine), x < FpModulus → hashToG1Loop fuel x = some pt →
      ∃ k, k < fuel ∧ pt.X = (x + k) % FpModulus ∧ pt.Y = (findYFromX pt.X).2 ∧
        pt.Y * pt.Y % FpModulus = (findYFromX pt.X).1 ∧
        ∀ j, j < k →
          (findYFromX ((x + j) % FpModulus)).2 * (findYFromX ((x + j) % FpModulus)).2
              % FpModulus ≠ (findYFromX ((x + j) % FpModulus)).1 := by
  induction fuel with
  | zero => intro x pt _ h; simp [hashToG1Loop] at h
  | succ fuel ih =>
    intro x pt hx h
    rw [hashToG1Loop_succ] at h
    by_cases hc : (findYFromX x).2 * (findYFromX x).2 % FpModulus = (findYFromX x).1
    · rw [if_pos hc] at h
      generalize hr : findYFromX x = r at h hc
      have h := Option.some.inj h
      have hX : pt.X = x := (congrArg G1Affine.X h).symm
      have hY : pt.Y = r.2 := (congrArg G1Affine.Y h).symm
      refine ⟨0, Nat.succ_pos _, ?_, ?_, ?_, ?_⟩
      · rw [hX, Nat.add_zero, Nat.mod_eq_of_lt hx]
      · rw [hY, hX, hr]
      · rw [hY, hX, hr]; exact hc
      · intro j hj; omega
    · rw [if_neg hc] at h
      have hp : 0 < FpModulus := by omega
      obtain ⟨k, hk, hX, hY, hsq, hfirst⟩ := ih _ pt (Nat.mod_lt _ hp) h
      refine ⟨k + 1, by omega, ?_, hY, hsq, ?_⟩
      · rw [hX, Nat.mod_add_mod]; congr 1; omega
      · intro j hj
        cases j with
        | zero => simpa [Nat.mod_eq_of_lt hx] using hc
        | succ j =>
          have := hfirst j (by omega)
          rw [Nat.mod_add_mod] at this
          have e : x + 1 + j = x + (j + 1) := by omega
          rwa [e] at this

/-- C11: hashToG1 returns for every message; the result is the point (x, y)
with y = (x³ + 3)^((p+1)/4) mod p and y² ≡ x³ + 3 (mod p), where x is the first
value of the sequence m mod p, (m mod p) + 1, … (each reduced mod p) whose
candidate passes the square test; the hard-coded exponent equals (p+1)/4. -/
theorem C11_hashToG1_first_square (data : List Nat) :
    ∃ (pt : G1Affine) (k : Nat), hashToG1 data = some pt ∧ k < FpModulus ∧
      pt.X = (SetBytes data % FpModulus + k) % FpModulus ∧
      pt.Y = (pt.X ^ 3 + 3) ^ ((FpModulus + 1) / 4) % FpModulus ∧
      pt.Y ^ 2 % FpModulus = (pt.X ^ 3 + 3) % FpModulus ∧
      (∀ j, j < k →
        ((((SetBytes data % FpModulus + j) % FpModulus) ^ 3 + 3) ^ ((FpModulus + 1) / 4)
            % FpModulus) ^ 2 % FpModulus
          ≠ (((SetBytes data % FpModulus + j) % FpModulus) ^ 3 + 3) % FpModulus) ∧
      (0xc19139cb84c680a6e14116da060561765e05aa45a1c72a34f082305b61f3f52 : Nat)
        = (FpModulus + 1) / 4 := by
  obtain ⟨pt, hpt⟩ := hashToG1_isSome data
  have hp : 0 < FpModulus := by unfold FpModulus; norm_num
  have h := hpt
  unfold hashToG1 at h
  obtain ⟨k, hk, hX, hY, hsq, hfirst⟩ :=
    hashToG1Loop_first FpModulus _ pt (Nat.mod_lt _ hp) h
  refine ⟨pt, k, hpt, hk, hX, ?_, ?_, ?_, sqrt_exponent_eq⟩
  · rw [hY, findYFromX_snd]
  · rw [pow_two, hsq, findYFromX_fst]
  · intro j hj
    have := hfirst j hj
    rwa [findYFromX_snd, findYFromX_fst, ← pow_two] at this

/-! ## The signature store -/

theorem split_roundtrip_iff (p sig : List Nat) :
    ((p ++ sig).take ((p ++ sig).length / 2) = p ∧
        (p ++ sig).drop ((p ++ sig).length / 2) = sig) ↔
      (sig.length = p.length ∨ sig.length = p.length + 1) := by
  constructor
  · rintro ⟨h1, _⟩
    have h := congrArg List.length h1
    rw [List.length_take, List.length_append] at h
    rw [Nat.min_def] at h
    split at h <;> omega
  · intro h
    have hn : (p ++ sig).length / 2 = p.length := by
      rw [List.length_append]; omega
    rw [hn, List.take_left, List.drop_left]
    exact ⟨rfl, rfl⟩

theorem inner_map_update (l : List (List Nat × List (List Nat))) (messageHash : List Nat)
    (inner inner2 : List (List Nat)) (h : (Storage.mk l).inner messageHash = some inner) :
    (Storage.mk (l.map fun e => if e.1 = messageHash then (e.1, inner2) else e)).inner
      messageHash = some inner2 := by
  induction l with
  | nil => simp [Storage.inner] at h
  | cons e l ih =>
    by_cases he : e.1 = messageHash
    · have hp : ((if e.1 = messageHash then (e.1, inner2) else e).1 == messageHash) = true := by
        simp [he]
      simp only [Storage.inner, List.map_cons, List.find?_cons, hp]
      simp [he]
    · have hp : ((if e.1 = messageHash then (e.1, inner2) else e).1 == messageHash) = false := by
        simp [he]
      have hq : (e.1 == messageHash) = false := by
        simp [he]
      simp only [Storage.inner, List.map_cons, List.find?_cons, hp, hq] at h ⊢
      exact ih h

theorem AddSignature_inner (s : Storage) (messageHash pubKey sig : List Nat)
    (inner : List (List Nat)) (h : s.inner messageHash = some inner) :
    ∃ s2, AddSignature s messageHash pubKey sig = some s2 ∧
      s2.inner messageHash =
        some (if pubKey ++ sig ∈ inner then inner else inner ++ [pubKey ++ sig]) := by
  cases s with
  | mk l =>
    refine ⟨_, ?_, inner_map_update l messageHash inner _ h⟩
    simp only [AddSignature, h]

/-- C19: on a store created by NewStorage the first AddSignature does not
complete: the inner map of the message hash was never created and the
assignment into it panics, for every message hash, public key and signature. -/
theorem C19_AddSignature_panics_on_new_store (messageHash pubKey sig : List Nat) :
    AddSignature NewStorage messageHash pubKey sig = none := by
  rfl

/-- C20 fails as stated: the key of the public key `[1, 2]` and the signature
`[3]` is split into `[1]` and `[2, 3]`. -/
theorem C20_counterexample :
    ∃ s2, AddSignature (storageWith [0]) [0] [1, 2] [3] = some s2 ∧
      GetSignatures id s2 [0] = ([[1]], [[2, 3]]) ∧
      GetSignatures id s2 [0] ≠ ([[1, 2]], [[3]]) := by
  refine ⟨_, rfl, ?_, ?_⟩ <;> decide

/-- C20, amended: splitting the stored key `string(p) + string(s)` at half its
length gives back `p` and `s` exactly when `s` has the length of `p` or one byte
more; then, on a store whose inner map for the message hash exists,
AddSignature returns and GetSignatures holds `p` and `s` at one common index
of its two lists, in whatever order the map is ranged over. -/
theorem C20_split_at_half (rangeOrder : List (List Nat) → List (List Nat)) (s : Storage)
    (messageHash p sig : List Nat) (inner : List (List Nat))
    (hperm : ∀ l, (rangeOrder l).Perm l) (hin : s.inner messageHash = some inner) :
    (((p ++ sig).take ((p ++ sig).length / 2) = p ∧
          (p ++ sig).drop ((p ++ sig).length / 2) = sig) ↔
        (sig.length = p.length ∨ sig.length = p.length + 1)) ∧
      ((sig.length = p.length ∨ sig.length = p.length + 1) →
        ∃ (s2 : Storage) (i : Nat), AddSignature s messageHash p sig = some s2 ∧
          (GetSignatures rangeOrder s2 messageHash).1[i]? = some p ∧
          (GetSignatures rangeOrder s2 messageHash).2[i]? = some sig) := by
  refine ⟨split_roundtrip_iff p sig, fun hlen => ?_⟩
  obtain ⟨s2, hadd, hinner⟩ := AddSignature_inner s messageHash p sig inner hin
  have hmem : p ++ sig ∈
      rangeOrder (if p ++ sig ∈ inner then inner else inner ++ [p ++ sig]) := by
    rw [(hperm _).mem_iff]
    split
    · assumption
    · simp
  obtain ⟨i, hi⟩ := List.getElem?_of_mem hmem
  obtain ⟨h1, h2⟩ := (split_roundtrip_iff p sig).mpr hlen
  refine ⟨s2, i, hadd, ?_, ?_⟩
  · simp only [GetSignatures, hinner, List.getElem?_map, hi, Option.map_some']
    rw [h1]
  · simp only [GetSignatures, hinner, List.getElem?_map, hi, Option.map_some']
    rw [h2]

/-- The amended C20 at a 2-byte key and a 2-byte signature. -/
theorem C20_witness :
    ((([1, 2] ++ [3, 4] : List Nat).take (([1, 2] ++ [3, 4] : List Nat).length / 2) = [1, 2] ∧
          ([1, 2] ++ [3, 4] : List Nat).drop (([1, 2] ++ [3, 4] : List Nat).length / 2)
            = [3, 4]) ↔
        (([3, 4] : List Nat).length = ([1, 2] : List Nat).length ∨
          ([3, 4] : List Nat).length = ([1, 2] : List Nat).length + 1)) ∧
      ((([3, 4] : List Nat).length = ([1, 2] : List Nat).length ∨
          ([3, 4] : List Nat).length = ([1, 2] : List Nat).length + 1) →
        ∃ (s2 : Storage) (i : Nat), AddSignature (storageWith [0]) [0] [1, 2] [3, 4] = some s2 ∧
          (GetSignatures id s2 [0]).1[i]? = some [1, 2] ∧
          (GetSignatures id s2 [0]).2[i]? = some [3, 4]) :=
  C20_split_at_half id (storageWith [0]) [0] [1, 2] [3, 4] []
    (fun _ => List.Perm.refl _) (by rfl)

/-! ## The adapter calls of GetValidatorSet -/

theorem GetValidatorSet_ok (ethClient : IEthClient)
    (mapOrder : List Validator → List Validator) (timestamp : Option Nat) (vs : ValidatorSet)
    (h : GetValidatorSet ethClient mapOrder timestamp = Except.ok vs) :
    ∃ t masterConfig valSetConfig allVotingPowers requiredKeys,
      resolveTimestamp ethClient timestamp = Except.ok t ∧
      ethClient.GetMasterConfig t = Except.ok masterConfig ∧
      ethClient.GetValSetConfig t = Except.ok valSetConfig ∧
      collectVotingPowers ethClient t masterConfig.VotingPowerProviders []
        = Except.ok allVotingPowers ∧
      ethClient.GetRequiredKeys masterConfig.KeysProvider.Address t = Except.ok requiredKeys ∧
      vs = deriveValidatorSet mapOrder valSetConfig allVotingPowers requiredKeys := by
  unfold GetValidatorSet at h
  cases h1 : resolveTimestamp ethClient timestamp with
  | error e => rw [h1] at h; cases h
  | ok t =>
    rw [h1] at h
    dsimp only at h
    cases h2 : ethClient.GetMasterConfig t with
    | error e => rw [h2] at h; cases h
    | ok mc =>
      rw [h2] at h
      dsimp only at h
      cases h3 : ethClient.GetValSetConfig t with
      | error e => rw [h3] at h; cases h
      | ok cfg =>
        rw [h3] at h
        dsimp only at h
        cases h4 : collectVotingPowers ethClient t mc.VotingPowerProviders [] with
        | error e => rw [h4] at h; cases h
        | ok vps =>
          rw [h4] at h
          dsimp only at h
          cases h5 : ethClient.GetRequiredKeys mc.KeysProvider.Address t with
          | error e => rw [h5] at h; cases h
          | ok rk =>
            rw [h5] at h
            dsimp only at h
            exact ⟨t, mc, cfg, vps, rk, rfl, h2, h3, h4, h5, (Except.ok.inj h).symm⟩

theorem GetValidatorSet_of_ok (ethClient : IEthClient)
    (mapOrder : List Validator → List Validator) (timestamp : Option Nat) (t : Nat)
    (masterConfig : MasterConfig) (valSetConfig : ValSetConfig)
    (allVotingPowers : List OperatorVotingPower) (requiredKeys : List OperatorWithKeys)
    (h1 : resolveTimestamp ethClient timestamp = Except.ok t)
    (h2 : ethClient.GetMasterConfig t = Except.ok masterConfig)
    (h3 : ethClient.GetValSetConfig t = Except.ok valSetConfig)
    (h4 : collectVotingPowers ethClient t masterConfig.VotingPowerProviders []
      = Except.ok allVotingPowers)
    (h5 : ethClient.GetRequiredKeys masterConfig.KeysProvider.Address t
      = Except.ok requiredKeys) :
    GetValidatorSet ethClient mapOrder timestamp
      = Except.ok (deriveValidatorSet mapOrder valSetConfig allVotingPowers requiredKeys) := by
  unfold GetValidatorSet
  rw [h1]; dsimp only
  rw [h2]; dsimp only
  rw [h3]; dsimp only
  rw [h4]; dsimp only
  rw [h5]

theorem collectVotingPowers_ok (ethClient : IEthClient) (t : Nat)
    (reported : CrossChainAddress → List OperatorVotingPower) :
    ∀ (providers : List CrossChainAddress) (acc : List OperatorVotingPower),
      (∀ p ∈ providers, ethClient.GetVotingPowers p.Address t = Except.ok (reported p)) →
      collectVotingPowers ethClient t providers acc
        = Except.ok (acc ++ (providers.map reported).flatten) := by
  intro providers
  induction providers with
  | nil => intro acc _; simp [collectVotingPowers]
  | cons p ps ih =>
    intro acc h
    rw [collectVotingPowers, h p (List.mem_cons_self _ _)]
    dsimp only
    rw [ih _ (fun q hq => h q (List.mem_cons_of_mem _ hq))]
    simp

/-! ## The loop "Apply filters" -/

theorem filterValidator_core (cfg : ValSetConfig) (t : Int) (v : Validator) :
    (filterValidator cfg t v).1.Operator = v.Operator ∧
      (filterValidator cfg t v).1.Keys = v.Keys ∧
      (filterValidator cfg t v).1.Vaults = v.Vaults := by
  unfold filterValidator
  dsimp only
  refine ⟨?_, ?_, ?_⟩ <;> (repeat' split) <;> rfl

theorem filterValidator_VotingPower (cfg : ValSetConfig) (t : Int) (v : Validator) :
    (filterValidator cfg t v).1.VotingPower =
      if Int64 cfg.MaxVotingPower ≠ 0 ∧ v.VotingPower > cfg.MaxVotingPower then
        cfg.MaxVotingPower
      else v.VotingPower := by
  unfold filterValidator
  dsimp only
  (repeat' split) <;> simp_all

theorem filterValidator_IsActive (cfg : ValSetConfig) (t : Int) (v : Validator) :
    (filterValidator cfg t v).1.IsActive =
      (v.IsActive &&
        !(decide (Int64 cfg.MinInclusionVotingPower ≠ 0) &&
          decide (v.VotingPower < cfg.MinInclusionVotingPower)) &&
        !decide (v.Keys.length = 0) &&
        !(decide (Int64 cfg.MaxValidatorsCount ≠ 0) &&
          decide (t + 1 > Int64 cfg.MaxValidatorsCount))) := by
  unfold filterValidator
  dsimp only
  cases hI : v.IsActive <;> (repeat' split) <;> simp_all <;> omega

theorem filterValidator_counter (cfg : ValSetConfig) (t : Int) (v : Validator) :
    (filterValidator cfg t v).2 =
      if Int64 cfg.MaxValidatorsCount ≠ 0 ∧ (filterValidator cfg t v).1.IsActive = false then t
      else t + 1 := by
  unfold filterValidator
  dsimp only
  (repeat' split) <;> simp_all

theorem applyFilters_cons (cfg : ValSetConfig) (v : Validator) (vs : List Validator)
    (acc : Nat) (t : Int) :
    applyFilters cfg (v :: vs) acc t =
      ((filterValidator cfg t v).1 ::
          (applyFilters cfg vs
            (if (filterValidator cfg t v).1.IsActive then
              acc + (filterValidator cfg t v).1.VotingPower else acc)
            (filterValidator cfg t v).2).1,
        (applyFilters cfg vs
            (if (filterValidator cfg t v).1.IsActive then
              acc + (filterValidator cfg t v).1.VotingPower else acc)
            (filterValidator cfg t v).2).2) := by
  rw [applyFilters]

theorem applyFilters_total (cfg : ValSetConfig) :
    ∀ (l : List Validator) (acc : Nat) (t : Int),
      (applyFilters cfg l acc t).2 =
        acc + (((applyFilters cfg l acc t).1.filter fun v => v.IsActive).map
          fun v => v.VotingPower).sum := by
  intro l
  induction l with
  | nil => intro acc t; simp [applyFilters]
  | cons v vs ih =>
    intro acc t
    rw [applyFilters_cons]
    dsimp only
    rw [ih]
    cases hA : (filterValidator cfg t v).1.IsActive with
    | true => simp [List.filter_cons, hA, Nat.add_assoc]
    | false => simp [List.filter_cons, hA]

theorem applyFilters_mem (cfg : ValSetConfig) :
    ∀ (l : List Validator) (acc : Nat) (t : Int) (v : Validator),
      v ∈ (applyFilters cfg l acc t).1 → ∃ u ∈ l, ∃ t2, v = (filterValidator cfg t2 u).1 := by
  intro l
  induction l with
  | nil => intro acc t v h; simp [applyFilters] at h
  | cons u us ih =>
    intro acc t v h
    rw [applyFilters_cons] at h
    dsimp only at h
    rcases List.mem_cons.mp h with h | h
    · exact ⟨u, List.mem_cons_self _ _, t, h⟩
    · obtain ⟨w, hw, t2, e⟩ := ih _ _ _ h
      exact ⟨w, List.mem_cons_of_mem _ hw, t2, e⟩

theorem applyFilters_map_core (cfg : ValSetConfig) :
    ∀ (l : List Validator) (acc : Nat) (t : Int),
      (applyFilters cfg l acc t).1.map (fun v => (v.Operator, v.Keys, v.Vaults)) =
        l.map fun v => (v.Operator, v.Keys, v.Vaults) := by
  intro l
  induction l with
  | nil => intro acc t; simp [applyFilters]
  | cons u us ih =>
    intro acc t
    rw [applyFilters_cons]
    dsimp only
    rw [List.map_cons, List.map_cons, ih]
    obtain ⟨h1, h2, h3⟩ := filterValidator_core cfg t u
    rw [h1, h2, h3]

theorem applyFilters_map (cfg : ValSetConfig) {β : Type}
    (g : Nat × List Key × List Vault → β) (l : List Validator) (acc : Nat) (t : Int) :
    (applyFilters cfg l acc t).1.map (fun v => g (v.Operator, v.Keys, v.Vaults)) =
      l.map fun v => g (v.Operator, v.Keys, v.Vaults) := by
  have h := congrArg (List.map g) (applyFilters_map_core cfg l acc t)
  simpa [List.map_map, Function.comp] using h

theorem firstActive_count (bs : List Bool) : ∀ n, (firstActive n bs).count true ≤ n := by
  induction bs with
  | nil => intro n; simp [firstActive]
  | cons b bs ih =>
    intro n
    rw [firstActive]
    split
    · rename_i h
      have hn : 0 < n := by simp at h; exact h.2
      have := ih (n - 1)
      rw [List.count_cons_self]
      omega
    · have := ih n
      simpa using this

theorem applyFilters_IsActive (cfg : ValSetConfig)
    (hpos : 0 < cfg.MaxValidatorsCount) (hlt : cfg.MaxValidatorsCount < 2 ^ 63) :
    ∀ (l : List Validator) (acc : Nat) (t : Nat), t ≤ cfg.MaxValidatorsCount →
      (applyFilters cfg l acc (t : Int)).1.map (fun v => v.IsActive) =
        firstActive (cfg.MaxValidatorsCount - t)
          (l.map fun v =>
            v.IsActive &&
              !(decide (Int64 cfg.MinInclusionVotingPower ≠ 0) &&
                decide (v.VotingPower < cfg.MinInclusionVotingPower)) &&
              !decide (v.Keys.length = 0)) := by
  have h64 : Int64 cfg.MaxValidatorsCount = (cfg.MaxValidatorsCount : Int) := by
    unfold Int64
    have : cfg.MaxValidatorsCount % 2 ^ 64 = cfg.MaxValidatorsCount :=
      Nat.mod_eq_of_lt (by omega)
    rw [this, if_pos hlt]
  have hne : Int64 cfg.MaxValidatorsCount ≠ 0 := by rw [h64]; omega
  intro l
  induction l with
  | nil => intro acc t _; simp [applyFilters, firstActive]
  | cons u us ih =>
    intro acc t ht
    rw [applyFilters_cons]
    dsimp only
    rw [List.map_cons, List.map_cons, firstActive]
    have hA := filterValidator_IsActive cfg t u
    have hC := filterValidator_counter cfg t u
    rw [h64] at hA
    by_cases hb : (u.IsActive &&
              !(decide (Int64 cfg.MinInclusionVotingPower ≠ 0) &&
                decide (u.VotingPower < cfg.MinInclusionVotingPower)) &&
              !decide (u.Keys.length = 0)) = true
    · by_cases hcap : t < cfg.MaxValidatorsCount
      · have hact : (filterValidator cfg t u).1.IsActive = true := by
          rw [hA, hb]
          have : ¬ ((t : Int) + 1 > (cfg.MaxValidatorsCount : Int)) := by omega
          simp [this]
        rw [hact] at hC
        simp only [Bool.true_eq_false, and_false, if_false] at hC
        rw [hC, hact, hb]
        have hd : decide (0 < cfg.MaxValidatorsCount - t) = true := by
          simp; omega
        rw [hd]
        simp only [Bool.and_self, if_true]
        have := ih (if (filterValidator cfg t u).1.IsActive then
              acc + (filterValidator cfg t u).1.VotingPower else acc) (t + 1) (by omega)
        rw [hact] at this
        simp only [if_true] at this
        have e : cfg.MaxValidatorsCount - t - 1 = cfg.MaxValidatorsCount - (t + 1) := by omega
        rw [e, ← this]
        simp [hact]
      · have hact : (filterValidator cfg t u).1.IsActive = false := by
          rw [hA, hb]
          have : ((t : Int) + 1 > (cfg.MaxValidatorsCount : Int)) := by omega
          have hne2 : cfg.MaxValidatorsCount ≠ 0 := by omega
          simp [this, hne2]
        rw [hact] at hC
        simp only [hne, ne_eq, not_false_eq_true, and_self, if_true] at hC
        rw [hC, hact, hb]
        have hd : decide (0 < cfg.MaxValidatorsCount - t) = false := by
          simp; omega
        rw [hd]
        simp only [Bool.and_false, Bool.false_eq_true, if_false]
        have := ih (if (filterValidator cfg t u).1.IsActive then
              acc + (filterValidator cfg t u).1.VotingPower else acc) t ht
        rw [hact] at this
        rw [← this]
        simp [hact]
    · have hb2 := Bool.eq_false_iff.mpr hb
      have hact : (filterValidator cfg t u).1.IsActive = false := by
        rw [hA, hb2]; simp
      rw [hact] at hC
      simp only [hne, ne_eq, not_false_eq_true, and_self, if_true] at hC
      rw [hC, hact, hb2]
      simp only [Bool.false_and, Bool.false_eq_true, if_false]
      have := ih (if (filterValidator cfg t u).1.IsActive then
            acc + (filterValidator cfg t u).1.VotingPower else acc) t ht
      rw [hact] at this
      rw [← this]
      simp [hact]

/-! ## The validators map -/

theorem mapModify_map_Operator (m : List Validator) (o : Nat) (f : Validator → Validator)
    (hf : ∀ v, (f v).Operator = v.Operator) :
    (mapModify m o f).map (fun v => v.Operator) = m.map fun v => v.Operator := by
  unfold mapModify
  rw [List.map_map]
  apply List.map_congr_left
  intro v _
  simp only [Function.comp]
  split
  · exact hf v
  · rfl

theorem foldl_addVault (vaults : List VaultVotingPower) :
    ∀ v : Validator,
      (vaults.foldl addVault v).Operator = v.Operator ∧
      (vaults.foldl addVault v).IsActive = v.IsActive ∧
      (vaults.foldl addVault v).Keys = v.Keys ∧
      (vaults.foldl addVault v).Vaults =
        v.Vaults ++ vaults.map (fun x => (⟨x.Vault, x.VotingPower⟩ : Vault)) ∧
      (vaults.foldl addVault v).VotingPower =
        v.VotingPower + (vaults.map fun x => x.VotingPower).sum := by
  induction vaults with
  | nil => intro v; simp
  | cons x xs ih =>
    intro v
    obtain ⟨h1, h2, h3, h4, h5⟩ := ih (addVault v x)
    rw [List.foldl_cons]
    refine ⟨h1, h2, h3, ?_, ?_⟩
    · rw [h4]; simp [addVault]
    · rw [h5]; simp [addVault, Nat.add_assoc]

theorem foldl_mapModify_addVault (o : Nat) (vaults : List VaultVotingPower) :
    ∀ m : List Validator,
      vaults.foldl (fun m vault => mapModify m o fun v => addVault v vault) m =
        mapModify m o fun v => vaults.foldl addVault v := by
  induction vaults with
  | nil =>
    intro m
    simp only [List.foldl_nil, mapModify]
    conv_lhs => rw [← List.map_id m]
    apply List.map_congr_left
    intro v _
    simp
  | cons x xs ih =>
    intro m
    rw [List.foldl_cons, ih]
    unfold mapModify
    rw [List.map_map]
    apply List.map_congr_left
    intro v _
    simp only [Function.comp]
    by_cases h : v.Operator = o
    · have h2 : (addVault v x).Operator = o := h
      simp [h, h2]
    · simp [h]

theorem processVotingPower_eq (m : List Validator) (vp : OperatorVotingPower) :
    processVotingPower m vp =
      mapModify
        (if m.any (fun v => decide (v.Operator = vp.Operator)) then m
          else m ++ [newValidator vp.Operator])
        vp.Operator fun v => vp.Vaults.foldl addVault v := by
  unfold processVotingPower
  exact foldl_mapModify_addVault _ _ _

theorem reportedVaults_append (done : List OperatorVotingPower) (vp : OperatorVotingPower)
    (o : Nat) :
    reportedVaults (done ++ [vp]) o =
      reportedVaults done o ++
        (if vp.Operator = o then vp.Vaults.map (fun x => (⟨x.Vault, x.VotingPower⟩ : Vault))
          else []) := by
  unfold reportedVaults
  rw [List.filter_append, List.map_append, List.flatten_append]
  congr 1
  by_cases h : vp.Operator = o
  · simp [List.filter_cons, h]
  · simp [List.filter_cons, h]

theorem reportedVaults_of_not_mem (done : List OperatorVotingPower) (o : Nat)
    (h : o ∉ done.map fun vp => vp.Operator) : reportedVaults done o = [] := by
  unfold reportedVaults
  have : done.filter (fun vp => decide (vp.Operator = o)) = [] := by
    rw [List.filter_eq_nil_iff]
    intro vp hvp hd
    apply h
    rw [List.mem_map]
    exact ⟨vp, hvp, by simpa using hd⟩
  rw [this]
  rfl

theorem vaultSum_append (v : Validator) (vaults : List VaultVotingPower) (l : List Vault)
    (h : v.Vaults = l ++ vaults.map (fun x => (⟨x.Vault, x.VotingPower⟩ : Vault))) :
    vaultSum v = (l.map fun x => x.VotingPower).sum + (vaults.map fun x => x.VotingPower).sum := by
  unfold vaultSum
  rw [h, List.map_append, List.sum_append, List.map_map]
  rfl

theorem processVotingPower_inv (m : List Validator) (done : List OperatorVotingPower)
    (vp : OperatorVotingPower)
    (h1 : (m.map fun v => v.Operator).Nodup)
    (h2 : ∀ o, o ∈ m.map (fun v => v.Operator) ↔ o ∈ done.map fun vp => vp.Operator)
    (h3 : ∀ v ∈ m, v.Vaults = reportedVaults done v.Operator ∧ v.VotingPower = vaultSum v ∧
      v.IsActive = true ∧ v.Keys = []) :
    ((processVotingPower m vp).map fun v => v.Operator).Nodup ∧
      (∀ o, o ∈ (processVotingPower m vp).map (fun v => v.Operator) ↔
        o ∈ (done ++ [vp]).map fun vp => vp.Operator) ∧
      ∀ v ∈ processVotingPower m vp,
        v.Vaults = reportedVaults (done ++ [vp]) v.Operator ∧ v.VotingPower = vaultSum v ∧
          v.IsActive = true ∧ v.Keys = [] := by
  rw [processVotingPower_eq]
  have hOp : ∀ m2 : List Validator,
      (mapModify m2 vp.Operator fun v => vp.Vaults.foldl addVault v).map (fun v => v.Operator)
        = m2.map fun v => v.Operator :=
    fun m2 => mapModify_map_Operator m2 _ _ fun v => (foldl_addVault vp.Vaults v).1
  have hany : (m.any fun v => decide (v.Operator = vp.Operator)) = true ↔
      vp.Operator ∈ m.map fun v => v.Operator := by
    rw [List.any_eq_true, List.mem_map]
    constructor
    · rintro ⟨v, hv, hd⟩; exact ⟨v, hv, by simpa using hd⟩
    · rintro ⟨v, hv, hd⟩; exact ⟨v, hv, by simpa using hd⟩
  -- the entries of the map before the vault loop
  have hpre : ∀ u ∈ (if m.any (fun v => decide (v.Operator = vp.Operator)) then m
      else m ++ [newValidator vp.Operator]),
      u.Vaults = reportedVaults done u.Operator ∧ u.VotingPower = vaultSum u ∧
        u.IsActive = true ∧ u.Keys = [] := by
    intro u hu
    by_cases hc : (m.any fun v => decide (v.Operator = vp.Operator)) = true
    · rw [if_pos hc] at hu; exact h3 u hu
    · rw [if_neg hc] at hu
      rcases List.mem_append.mp hu with hu | hu
      · exact h3 u hu
      · have e : u = newValidator vp.Operator := by simpa using hu
        subst e
        have hnot : vp.Operator ∉ done.map fun vp => vp.Operator := by
          rw [← h2]; exact fun hm => hc (hany.mpr hm)
        refine ⟨?_, rfl, rfl, rfl⟩
        show [] = reportedVaults done vp.Operator
        rw [reportedVaults_of_not_mem done _ hnot]
  refine ⟨?_, ?_, ?_⟩
  · rw [hOp]
    by_cases hc : (m.any fun v => decide (v.Operator = vp.Operator)) = true
    · rw [if_pos hc]; exact h1
    · rw [if_neg hc, List.map_append]
      have hnot : vp.Operator ∉ m.map fun v => v.Operator := fun hm => hc (hany.mpr hm)
      rw [List.nodup_append]
      refine ⟨h1, by simp [newValidator], ?_⟩
      intro a ha hb
      have : a = vp.Operator := by simpa [newValidator] using hb
      subst this
      exact hnot ha
  · intro o
    rw [hOp, List.map_append, List.mem_append, ← h2]
    by_cases hc : (m.any fun v => decide (v.Operator = vp.Operator)) = true
    · rw [if_pos hc]
      constructor
      · exact Or.inl
      · rintro (h | h)
        · exact h
        · have : o = vp.Operator := by simpa using h
          subst this
          exact hany.mp hc
    · rw [if_neg hc, List.map_append, List.mem_append]
      simp [newValidator]
  · intro v hv
    unfold mapModify at hv
    obtain ⟨u, hu, e⟩ := List.mem_map.mp hv
    obtain ⟨p1, p2, p3, p4⟩ := hpre u hu
    obtain ⟨f1, f2, f3, f4, f5⟩ := foldl_addVault vp.Vaults u
    by_cases hc : u.Operator = vp.Operator
    · rw [if_pos hc] at e
      subst e
      refine ⟨?_, ?_, ?_, ?_⟩
      · rw [f4, f1, reportedVaults_append, if_pos hc.symm, p1]
      · rw [f5, vaultSum_append _ vp.Vaults u.Vaults f4, p2]
        rfl
      · rw [f2, p3]
      · rw [f3, p4]
    · rw [if_neg hc] at e
      subst e
      refine ⟨?_, p2, p3, p4⟩
      rw [reportedVaults_append, if_neg (fun h => hc h.symm), List.append_nil, p1]

theorem foldl_processVotingPower_inv (rest : List OperatorVotingPower) :
    ∀ (m : List Validator) (done : List OperatorVotingPower),
      (m.map fun v => v.Operator).Nodup →
      (∀ o, o ∈ m.map (fun v => v.Operator) ↔ o ∈ done.map fun vp => vp.Operator) →
      (∀ v ∈ m, v.Vaults = reportedVaults done v.Operator ∧ v.VotingPower = vaultSum v ∧
        v.IsActive = true ∧ v.Keys = []) →
      ((rest.foldl processVotingPower m).map fun v => v.Operator).Nodup ∧
        (∀ o, o ∈ (rest.foldl processVotingPower m).map (fun v => v.Operator) ↔
          o ∈ (done ++ rest).map fun vp => vp.Operator) ∧
        ∀ v ∈ rest.foldl processVotingPower m,
          v.Vaults = reportedVaults (done ++ rest) v.Operator ∧ v.VotingPower = vaultSum v ∧
            v.IsActive = true := by
  induction rest with
  | nil =>
    intro m done h1 h2 h3
    rw [List.append_nil]
    exact ⟨h1, h2, fun v hv => ⟨(h3 v hv).1, (h3 v hv).2.1, (h3 v hv).2.2.1⟩⟩
  | cons vp rest ih =>
    intro m done h1 h2 h3
    obtain ⟨q1, q2, q3⟩ := processVotingPower_inv m done vp h1 h2 h3
    have := ih (processVotingPower m vp) (done ++ [vp]) q1 q2 q3
    rw [List.append_assoc, List.singleton_append] at this
    exact this

/-! The loop over the required keys changes the key lists only. -/

theorem processRequiredKeys_core (m : List Validator) (rk : OperatorWithKeys) :
    (processRequiredKeys m rk).map (fun v => (v.Operator, v.VotingPower, v.Vaults, v.IsActive))
      = m.map fun v => (v.Operator, v.VotingPower, v.Vaults, v.IsActive) := by
  have key : ∀ (keys : List EthKey) (m : List Validator),
      (keys.foldl
          (fun m key => mapModify m rk.Operator fun v =>
            { v with Keys := v.Keys ++ [⟨key.Tag, key.Payload⟩] }) m).map
          (fun v => (v.Operator, v.VotingPower, v.Vaults, v.IsActive))
        = m.map fun v => (v.Operator, v.VotingPower, v.Vaults, v.IsActive) := by
    intro keys
    induction keys with
    | nil => intro m; rfl
    | cons k ks ih =>
      intro m
      rw [List.foldl_cons, ih]
      unfold mapModify
      rw [List.map_map]
      apply List.map_congr_left
      intro v _
      simp only [Function.comp]
      split <;> rfl
  unfold processRequiredKeys
  split
  · exact key _ _
  · rfl

theorem foldl_processRequiredKeys_core (requiredKeys : List OperatorWithKeys) :
    ∀ m : List Validator,
      (requiredKeys.foldl processRequiredKeys m).map
          (fun v => (v.Operator, v.VotingPower, v.Vaults, v.IsActive))
        = m.map fun v => (v.Operator, v.VotingPower, v.Vaults, v.IsActive) := by
  induction requiredKeys with
  | nil => intro m; rfl
  | cons rk rks ih =>
    intro m
    rw [List.foldl_cons, ih, processRequiredKeys_core]

theorem core_transfer (m m2 : List Validator)
    (h : m2.map (fun v => (v.Operator, v.VotingPower, v.Vaults, v.IsActive))
      = m.map fun v => (v.Operator, v.VotingPower, v.Vaults, v.IsActive)) :
    m2.map (fun v => v.Operator) = m.map (fun v => v.Operator) ∧
      ∀ (P : Nat → Nat → List Vault → Bool → Prop),
        (∀ v ∈ m, P v.Operator v.VotingPower v.Vaults v.IsActive) →
        ∀ v ∈ m2, P v.Operator v.VotingPower v.Vaults v.IsActive := by
  constructor
  · have := congrArg (List.map fun c : Nat × Nat × List Vault × Bool => c.1) h
    simpa [List.map_map, Function.comp] using this
  · intro P hP v hv
    have hm : (v.Operator, v.VotingPower, v.Vaults, v.IsActive) ∈
        m.map fun v => (v.Operator, v.VotingPower, v.Vaults, v.IsActive) := by
      rw [← h]; exact List.mem_map.mpr ⟨v, hv, rfl⟩
    obtain ⟨u, hu, e⟩ := List.mem_map.mp hm
    have := hP u hu
    simp only [Prod.mk.injEq] at e
    obtain ⟨e1, e2, e3, e4⟩ := e
    rw [e1, e2, e3, e4] at this
    exact this

theorem validatorsMap_spec (allVotingPowers : List OperatorVotingPower)
    (requiredKeys : List OperatorWithKeys) :
    ((validatorsMap allVotingPowers requiredKeys).map fun v => v.Operator).Nodup ∧
      (∀ o, o ∈ (validatorsMap allVotingPowers requiredKeys).map (fun v => v.Operator) ↔
        o ∈ allVotingPowers.map fun vp => vp.Operator) ∧
      ∀ v ∈ validatorsMap allVotingPowers requiredKeys,
        v.Vaults = reportedVaults allVotingPowers v.Operator ∧ v.VotingPower = vaultSum v ∧
          v.IsActive = true := by
  obtain ⟨q1, q2, q3⟩ := foldl_processVotingPower_inv allVotingPowers [] []
    List.nodup_nil (fun o => by simp) (fun v hv => by simp at hv)
  rw [List.nil_append] at q2 q3
  obtain ⟨c1, c2⟩ := core_transfer _ _
    (foldl_processRequiredKeys_core requiredKeys (allVotingPowers.foldl processVotingPower []))
  unfold validatorsMap
  refine ⟨by rw [c1]; exact q1, fun o => by rw [c1]; exact q2 o, ?_⟩
  exact c2 (fun o p vaults a => vaults = reportedVaults allVotingPowers o ∧
      p = (vaults.map fun x => x.VotingPower).sum ∧ a = true) q3

/-! ## The sort by voting power -/

theorem insertLeft_powerGreater_sorted (x : Validator) (l : List Validator)
    (h : l.Pairwise fun a b => a.VotingPower ≤ b.VotingPower) :
    (insertLeft powerGreater x l).Pairwise fun a b => a.VotingPower ≤ b.VotingPower := by
  induction l with
  | nil => simp [insertLeft]
  | cons y ys ih =>
    rw [insertLeft]
    rw [List.pairwise_cons] at h
    by_cases hc : powerGreater x y = true
    · rw [if_pos hc, List.pairwise_cons]
      refine ⟨?_, ih h.2⟩
      intro a ha
      have hperm := insertLeft_perm powerGreater x ys
      rcases List.mem_cons.mp (hperm.mem_iff.mp ha) with e | hm
      · subst e
        have : a.VotingPower > y.VotingPower := by simpa [powerGreater] using hc
        omega
      · exact h.1 a hm
    · rw [if_neg hc, List.pairwise_cons, List.pairwise_cons]
      have hle : x.VotingPower ≤ y.VotingPower := by
        simpa [powerGreater] using hc
      refine ⟨?_, h⟩
      intro a ha
      rcases List.mem_cons.mp ha with e | hm
      · subst e; exact hle
      · exact le_trans hle (h.1 a hm)

theorem sortSlice_powerGreater_sorted (l : List Validator) :
    (sortSlice powerGreater l).Pairwise fun a b => a.VotingPower ≥ b.VotingPower := by
  unfold sortSlice
  rw [List.pairwise_reverse]
  suffices h : ∀ acc : List Validator,
      (acc.Pairwise fun a b => a.VotingPower ≤ b.VotingPower) →
      (l.foldl (fun acc x => insertLeft powerGreater x acc) acc).Pairwise
        fun a b => a.VotingPower ≤ b.VotingPower by
    exact h [] List.Pairwise.nil
  induction l with
  | nil => intro acc h; exact h
  | cons x xs ih =>
    intro acc h
    rw [List.foldl_cons]
    exact ih _ (insertLeft_powerGreater_sorted x acc h)

/-! ## The slice before and after the filters -/

theorem sortSlice_of_sorted {α : Type} (less : α → α → Bool) (l : List α)
    (h : l.Pairwise fun a b => ¬ less b a = true) : sortSlice less l = l := by
  unfold sortSlice
  suffices hs : ∀ (l pre : List α), (pre ++ l).Pairwise (fun a b => ¬ less b a = true) →
      l.foldl (fun acc x => insertLeft less x acc) pre.reverse = (pre ++ l).reverse by
    have := hs l [] (by simpa using h)
    simp only [List.reverse_nil, List.nil_append] at this
    rw [this, List.reverse_reverse]
  intro l
  induction l with
  | nil => intro pre _; simp
  | cons x xs ih =>
    intro pre hp
    rw [List.foldl_cons]
    have hins : insertLeft less x pre.reverse = (pre ++ [x]).reverse := by
      rw [List.reverse_append, List.reverse_singleton, List.singleton_append]
      cases hr : pre.reverse with
      | nil => rfl
      | cons y ys =>
        rw [insertLeft]
        have hy : y ∈ pre := by
          rw [← List.mem_reverse, hr]; exact List.mem_cons_self _ _
        have hn : ¬ less x y = true := by
          rw [List.pairwise_append] at hp
          exact hp.2.2 y hy x (List.mem_cons_self _ _)
        rw [if_neg hn]
    rw [hins]
    have := ih (pre ++ [x]) (by simpa using hp)
    simpa using this

theorem sortedValidators_spec (mapOrder : List Validator → List Validator)
    (hperm : ∀ l, (mapOrder l).Perm l) (allVotingPowers : List OperatorVotingPower)
    (requiredKeys : List OperatorWithKeys) :
    ((sortedValidators mapOrder allVotingPowers requiredKeys).map fun v => v.Operator).Nodup ∧
      (∀ o, o ∈ (sortedValidators mapOrder allVotingPowers requiredKeys).map
          (fun v => v.Operator) ↔ o ∈ allVotingPowers.map fun vp => vp.Operator) ∧
      (∀ v ∈ sortedValidators mapOrder allVotingPowers requiredKeys,
        v.Vaults = reportedVaults allVotingPowers v.Operator ∧ v.VotingPower = vaultSum v ∧
          v.IsActive = true) ∧
      (sortedValidators mapOrder allVotingPowers requiredKeys).Pairwise
        fun a b => a.VotingPower ≥ b.VotingPower := by
  obtain ⟨h1, h2, h3⟩ := validatorsMap_spec allVotingPowers requiredKeys
  have hp : (sortedValidators mapOrder allVotingPowers requiredKeys).Perm
      (validatorsMap allVotingPowers requiredKeys) :=
    (sortSlice_perm _ _).trans (hperm _)
  refine ⟨?_, ?_, ?_, sortSlice_powerGreater_sorted _⟩
  · exact ((hp.map fun v => v.Operator).nodup_iff).mpr h1
  · intro o
    rw [(hp.map fun v => v.Operator).mem_iff]
    exact h2 o
  · intro v hv
    exact h3 v (hp.mem_iff.mp hv)

theorem derived_mem (mapOrder : List Validator → List Validator)
    (cfg : ValSetConfig) (allVotingPowers : List OperatorVotingPower)
    (requiredKeys : List OperatorWithKeys) (v : Validator)
    (hv : v ∈ (deriveValidatorSet mapOrder cfg allVotingPowers requiredKeys).Validators) :
    ∃ u ∈ sortedValidators mapOrder allVotingPowers requiredKeys,
      v.Operator = u.Operator ∧ v.Keys = u.Keys ∧ v.Vaults = u.Vaults ∧
      v.VotingPower =
        if Int64 cfg.MaxVotingPower ≠ 0 ∧ u.VotingPower > cfg.MaxVotingPower then
          cfg.MaxVotingPower
        else u.VotingPower := by
  unfold deriveValidatorSet at hv
  obtain ⟨u, hu, t, e⟩ := applyFilters_mem cfg _ _ _ v hv
  obtain ⟨c1, c2, c3⟩ := filterValidator_core cfg t u
  refine ⟨u, hu, ?_, ?_, ?_, ?_⟩
  · rw [e, c1]
  · rw [e, c2]
  · rw [e, c3]
  · rw [e, filterValidator_VotingPower]

theorem derived_map (mapOrder : List Validator → List Validator)
    (cfg : ValSetConfig) (allVotingPowers : List OperatorVotingPower)
    (requiredKeys : List OperatorWithKeys) {β : Type}
    (g : Nat × List Key × List Vault → β) :
    (deriveValidatorSet mapOrder cfg allVotingPowers requiredKeys).Validators.map
        (fun v => g (v.Operator, v.Keys, v.Vaults)) =
      (sortedValidators mapOrder allVotingPowers requiredKeys).map
        fun v => g (v.Operator, v.Keys, v.Vaults) := by
  unfold deriveValidatorSet
  exact applyFilters_map cfg g _ _ _

theorem count_true_map {α : Type} (p : α → Bool) (l : List α) :
    (l.map p).count true = (l.filter p).length := by
  induction l with
  | nil => rfl
  | cons a l ih =>
    cases h : p a <;> simp [List.filter_cons, h, ih]

/-! ## The claims on GetValidatorSet -/

/-- C12: the total active voting power of the validator set GetValidatorSet
returns is the sum of the returned (post-clipping) voting powers over exactly
the validators whose active flag is set. -/
theorem C12_total_active_voting_power (ethClient : IEthClient)
    (mapOrder : List Validator → List Validator) (timestamp : Option Nat) (vs : ValidatorSet)
    (h : GetValidatorSet ethClient mapOrder timestamp = Except.ok vs) :
    vs.TotalActiveVotingPower =
      ((vs.Validators.filter fun v => v.IsActive).map fun v => v.VotingPower).sum := by
  obtain ⟨t, mc, cfg, vps, rk, -, -, -, -, -, e⟩ := GetValidatorSet_ok _ _ _ _ h
  subst e
  unfold deriveValidatorSet
  dsimp only
  rw [applyFilters_total, Nat.zero_add]

/-- Witness of C12: three operators, a cap of one validator, a minimum of 10
and a maximum of 50; the total is the clipped power 50 of the one active
validator. -/
theorem C12_witness :
    (deriveValidatorSet id ⟨50, 10, 1⟩ sampleVotingPowers sampleKeys).TotalActiveVotingPower =
      (((deriveValidatorSet id ⟨50, 10, 1⟩ sampleVotingPowers sampleKeys).Validators.filter
        fun v => v.IsActive).map fun v => v.VotingPower).sum :=
  C12_total_active_voting_power (constClient ⟨50, 10, 1⟩ sampleVotingPowers sampleKeys) id none
    (deriveValidatorSet id ⟨50, 10, 1⟩ sampleVotingPowers sampleKeys) rfl

/-- C13: with 0 < max_validators_count < 2^63 the validators GetValidatorSet
marks active are exactly the first max_validators_count validators of the
returned list that the minimum-voting-power filter and the empty-keys filter
leave active; in particular at most max_validators_count validators are
active. -/
theorem C13_first_count_active (ethClient : IEthClient)
    (mapOrder : List Validator → List Validator) (timestamp : Option Nat) (t : Nat)
    (cfg : ValSetConfig) (vs : ValidatorSet)
    (hperm : ∀ l, (mapOrder l).Perm l)
    (ht : resolveTimestamp ethClient timestamp = Except.ok t)
    (hcfg : ethClient.GetValSetConfig t = Except.ok cfg)
    (hpos : 0 < cfg.MaxValidatorsCount) (hlt : cfg.MaxValidatorsCount < 2 ^ 63)
    (h : GetValidatorSet ethClient mapOrder timestamp = Except.ok vs) :
    vs.Validators.map (fun v => v.IsActive) =
        firstActive cfg.MaxValidatorsCount (vs.Validators.map (passesMinAndKeys cfg)) ∧
      (vs.Validators.filter fun v => v.IsActive).length ≤ cfg.MaxValidatorsCount := by
  obtain ⟨t2, mc, cfg2, vps, rk, ht2, -, hcfg2, -, -, e⟩ := GetValidatorSet_ok _ _ _ _ h
  have et : t2 = t := Except.ok.inj (ht2.symm.trans ht)
  subst et
  have ec : cfg2 = cfg := Except.ok.inj (hcfg2.symm.trans hcfg)
  subst ec
  subst e
  obtain ⟨-, -, s3, -⟩ := sortedValidators_spec mapOrder hperm vps rk
  have hmain : (deriveValidatorSet mapOrder cfg2 vps rk).Validators.map (fun v => v.IsActive) =
      firstActive cfg2.MaxValidatorsCount
        ((deriveValidatorSet mapOrder cfg2 vps rk).Validators.map (passesMinAndKeys cfg2)) := by
    have hA := applyFilters_IsActive cfg2 hpos hlt
      (sortedValidators mapOrder vps rk) 0 0 (Nat.zero_le _)
    have hB := derived_map mapOrder cfg2 vps rk
      (fun c => !(decide (Int64 cfg2.MinInclusionVotingPower ≠ 0) &&
          decide ((c.2.2.map fun x => x.VotingPower).sum < cfg2.MinInclusionVotingPower)) &&
        !decide (c.2.1.length = 0))
    have hB2 : (deriveValidatorSet mapOrder cfg2 vps rk).Validators.map (passesMinAndKeys cfg2)
        = (sortedValidators mapOrder vps rk).map (passesMinAndKeys cfg2) := hB
    rw [hB2]
    have hC : (sortedValidators mapOrder vps rk).map (passesMinAndKeys cfg2) =
        (sortedValidators mapOrder vps rk).map fun v =>
            v.IsActive &&
              !(decide (Int64 cfg2.MinInclusionVotingPower ≠ 0) &&
                decide (v.VotingPower < cfg2.MinInclusionVotingPower)) &&
              !decide (v.Keys.length = 0) := by
      apply List.map_congr_left
      intro v hv
      obtain ⟨-, p2, p3⟩ := s3 v hv
      rw [p3, Bool.true_and]
      unfold passesMinAndKeys
      rw [← p2]
    rw [hC]
    simpa using hA
  refine ⟨hmain, ?_⟩
  rw [← count_true_map, hmain]
  exact firstActive_count _ _

/-- Witness of C13: three operators with keys and a cap of two validators. -/
theorem C13_witness :
    (deriveValidatorSet id ⟨0, 0, 2⟩ sampleVotingPowers sampleKeys).Validators.map
          (fun v => v.IsActive) =
        firstActive 2
          ((deriveValidatorSet id ⟨0, 0, 2⟩ sampleVotingPowers sampleKeys).Validators.map
            (passesMinAndKeys ⟨0, 0, 2⟩)) ∧
      ((deriveValidatorSet id ⟨0, 0, 2⟩ sampleVotingPowers sampleKeys).Validators.filter
        fun v => v.IsActive).length ≤ 2 :=
  C13_first_count_active (constClient ⟨0, 0, 2⟩ sampleVotingPowers sampleKeys) id none 0
    ⟨0, 0, 2⟩ (deriveValidatorSet id ⟨0, 0, 2⟩ sampleVotingPowers sampleKeys)
    (fun _ => List.Perm.refl _) rfl rfl (by decide) (by decide) rfl

/-- C14 fails on the code: with min_inclusion_voting_power = 2^64 the test
`MinInclusionVotingPower.Int64() != 0` reads the low 64 bits, which are zero,
so the filter is skipped and the validator with summed vault voting power 5
stays active. -/
theorem C14_min_filter_skipped :
    ∃ vs, GetValidatorSet (constClient ⟨0, 2 ^ 64, 0⟩ largeVotingPowers sampleKeys) id none
        = Except.ok vs ∧
      vs.Validators.map (fun v => (v.Operator, vaultSum v, v.IsActive)) =
        [(8, 2 ^ 65, true), (9, 5, true)] :=
  ⟨_, rfl, by decide⟩

/-- C15 fails on the code: with max_voting_power = 2^64 the test
`MaxVotingPower.Int64() != 0` reads the low 64 bits, which are zero, so the
voting power 2^65 is returned unclipped. -/
theorem C15_max_clip_skipped :
    ∃ vs, GetValidatorSet (constClient ⟨2 ^ 64, 0, 0⟩ largeVotingPowers sampleKeys) id none
        = Except.ok vs ∧
      vs.Validators.map (fun v => (v.Operator, v.VotingPower)) = [(8, 2 ^ 65), (9, 5)] :=
  ⟨_, rfl, by decide⟩

/-- C16 fails as stated: with max_voting_power = 50 the operator whose vaults
sum to 120 is returned with voting power 50. -/
theorem C16_counterexample :
    ∃ vs, GetValidatorSet (constClient ⟨50, 0, 0⟩ sampleVotingPowers sampleKeys) id none
        = Except.ok vs ∧
      vs.Validators.map (fun v => (v.Operator, v.VotingPower, vaultSum v)) =
        [(8, 50, 120), (7, 30, 30), (9, 5, 5)] :=
  ⟨_, rfl, by decide⟩

/-- C16, amended: each returned validator has voting power equal to the sum
of the voting powers in its own vaults list when max_voting_power is 0 or the
sum does not exceed it, and equal to max_voting_power when the code reads
max_voting_power as configured and the sum exceeds it. -/
theorem C16_voting_power_clipped_sum (ethClient : IEthClient)
    (mapOrder : List Validator → List Validator) (timestamp : Option Nat) (t : Nat)
    (cfg : ValSetConfig) (vs : ValidatorSet)
    (hperm : ∀ l, (mapOrder l).Perm l)
    (ht : resolveTimestamp ethClient timestamp = Except.ok t)
    (hcfg : ethClient.GetValSetConfig t = Except.ok cfg)
    (h : GetValidatorSet ethClient mapOrder timestamp = Except.ok vs) :
    ∀ v ∈ vs.Validators,
      ((cfg.MaxVotingPower = 0 ∨ vaultSum v ≤ cfg.MaxVotingPower) →
        v.VotingPower = vaultSum v) ∧
      (Int64 cfg.MaxVotingPower ≠ 0 → cfg.MaxVotingPower < vaultSum v →
        v.VotingPower = cfg.MaxVotingPower) := by
  obtain ⟨t2, mc, cfg2, vps, rk, ht2, -, hcfg2, -, -, e⟩ := GetValidatorSet_ok _ _ _ _ h
  have et : t2 = t := Except.ok.inj (ht2.symm.trans ht)
  subst et
  have ec : cfg2 = cfg := Except.ok.inj (hcfg2.symm.trans hcfg)
  subst ec
  subst e
  obtain ⟨-, -, s3, -⟩ := sortedValidators_spec mapOrder hperm vps rk
  intro v hv
  obtain ⟨u, hu, -, -, eV, eP⟩ := derived_mem mapOrder cfg2 vps rk v hv
  obtain ⟨-, p2, -⟩ := s3 u hu
  have hsum : vaultSum v = u.VotingPower := by
    rw [p2]; unfold vaultSum; rw [eV]
  rw [hsum, eP]
  constructor
  · rintro (h0 | hle)
    · have : Int64 cfg2.MaxVotingPower = 0 := by rw [h0]; rfl
      rw [if_neg (fun hc => hc.1 this)]
    · rw [if_neg (fun hc => by omega)]
  · intro hne hgt
    rw [if_pos ⟨hne, hgt⟩]

/-- Witness of C16 (amended): with max_voting_power = 50 the operator whose
vaults sum to 120 is returned with voting power 50. -/
theorem C16_witness :
    ∃ v, v ∈ (deriveValidatorSet id ⟨50, 0, 0⟩ sampleVotingPowers sampleKeys).Validators ∧
      v.Operator = 8 ∧ Int64 50 ≠ 0 ∧ 50 < vaultSum v ∧ v.VotingPower = 50 :=
  ⟨⟨8, 50, true, [⟨15, [2]⟩], [⟨80, 100⟩, ⟨81, 20⟩]⟩, by decide, rfl, by decide, by decide,
    ((C16_voting_power_clipped_sum (constClient ⟨50, 0, 0⟩ sampleVotingPowers sampleKeys) id
      none 0 ⟨50, 0, 0⟩ (deriveValidatorSet id ⟨50, 0, 0⟩ sampleVotingPowers sampleKeys)
      (fun _ => List.Perm.refl _) rfl rfl rfl) _ (by decide)).2 (by decide) (by decide)⟩

/-- C17 fails as stated: two operators with equal voting power are returned
with the higher address first when the map yields them in insertion order, and
in the other order when the map yields them reversed; the list is not a
function of the adapter outputs alone. -/
theorem C17_counterexample :
    (∃ vs, GetValidatorSet (constClient ⟨0, 0, 0⟩ tieVotingPowers tieKeys) id none
          = Except.ok vs ∧
        vs.Validators.map (fun v => (v.Operator, vaultSum v)) = [(2, 10), (1, 10)]) ∧
      (∃ vs, GetValidatorSet (constClient ⟨0, 0, 0⟩ tieVotingPowers tieKeys) List.reverse none
          = Except.ok vs ∧
        vs.Validators.map (fun v => (v.Operator, vaultSum v)) = [(1, 10), (2, 10)]) :=
  ⟨⟨_, rfl, by decide⟩, ⟨_, rfl, by decide⟩⟩

theorem applyFilters_map_data (cfg : ValSetConfig) :
    ∀ (l : List Validator) (acc : Nat) (t : Int),
      (applyFilters cfg l acc t).1.map
          (fun v => (v.Operator, v.VotingPower, v.Keys, v.Vaults)) =
        l.map fun u =>
          (u.Operator,
            (if Int64 cfg.MaxVotingPower ≠ 0 ∧ u.VotingPower > cfg.MaxVotingPower then
              cfg.MaxVotingPower else u.VotingPower),
            u.Keys, u.Vaults) := by
  intro l
  induction l with
  | nil => intro acc t; simp [applyFilters]
  | cons u us ih =>
    intro acc t
    rw [applyFilters_cons]
    dsimp only
    rw [List.map_cons, List.map_cons, ih]
    obtain ⟨h1, h2, h3⟩ := filterValidator_core cfg t u
    rw [h1, h2, h3, filterValidator_VotingPower]

theorem derived_descending (mapOrder : List Validator → List Validator)
    (hperm : ∀ l, (mapOrder l).Perm l) (cfg : ValSetConfig)
    (vps : List OperatorVotingPower) (rk : List OperatorWithKeys) :
    (deriveValidatorSet mapOrder cfg vps rk).Validators.Pairwise
      fun a b => vaultSum a ≥ vaultSum b := by
  obtain ⟨-, -, s3, s4⟩ := sortedValidators_spec mapOrder hperm vps rk
  have hB := derived_map mapOrder cfg vps rk
    (fun c => (c.2.2.map fun x => x.VotingPower).sum)
  have hB2 : (deriveValidatorSet mapOrder cfg vps rk).Validators.map vaultSum
      = (sortedValidators mapOrder vps rk).map vaultSum := hB
  have hS : ((sortedValidators mapOrder vps rk).map vaultSum).Pairwise (fun a b => a ≥ b) := by
    rw [List.pairwise_map]
    refine s4.imp_of_mem ?_
    intro a b ha hb hab
    rw [← (s3 a ha).2.1, ← (s3 b hb).2.1]
    exact hab
  rw [← hB2, List.pairwise_map] at hS
  exact hS

theorem derived_data_perm (mapOrder mapOrder2 : List Validator → List Validator)
    (hperm : ∀ l, (mapOrder l).Perm l) (hperm2 : ∀ l, (mapOrder2 l).Perm l)
    (cfg : ValSetConfig) (vps : List OperatorVotingPower) (rk : List OperatorWithKeys) :
    ((deriveValidatorSet mapOrder2 cfg vps rk).Validators.map
        fun v => (v.Operator, v.VotingPower, v.Keys, v.Vaults)).Perm
      ((deriveValidatorSet mapOrder cfg vps rk).Validators.map
        fun v => (v.Operator, v.VotingPower, v.Keys, v.Vaults)) := by
  have hp : (sortedValidators mapOrder2 vps rk).Perm (sortedValidators mapOrder vps rk) :=
    ((sortSlice_perm _ _).trans (hperm2 _)).trans ((sortSlice_perm _ _).trans (hperm _)).symm
  unfold deriveValidatorSet
  dsimp only
  rw [applyFilters_map_data, applyFilters_map_data]
  exact hp.map _

theorem derived_powers_eq (mapOrder mapOrder2 : List Validator → List Validator)
    (hperm : ∀ l, (mapOrder l).Perm l) (hperm2 : ∀ l, (mapOrder2 l).Perm l)
    (cfg : ValSetConfig) (vps : List OperatorVotingPower) (rk : List OperatorWithKeys) :
    (deriveValidatorSet mapOrder2 cfg vps rk).Validators.map vaultSum =
      (deriveValidatorSet mapOrder cfg vps rk).Validators.map vaultSum := by
  have hp := (derived_data_perm mapOrder mapOrder2 hperm hperm2 cfg vps rk).map
    (fun c : Nat × Nat × List Key × List Vault => (c.2.2.2.map fun x => x.VotingPower).sum)
  rw [List.map_map, List.map_map] at hp
  have hp2 : ((deriveValidatorSet mapOrder2 cfg vps rk).Validators.map vaultSum).Perm
      ((deriveValidatorSet mapOrder cfg vps rk).Validators.map vaultSum) := hp
  have s1 : ((deriveValidatorSet mapOrder cfg vps rk).Validators.map vaultSum).Sorted
      (fun a b => a ≥ b) := by
    have := derived_descending mapOrder hperm cfg vps rk
    rw [List.Sorted, List.pairwise_map]
    exact this
  have s2 : ((deriveValidatorSet mapOrder2 cfg vps rk).Validators.map vaultSum).Sorted
      (fun a b => a ≥ b) := by
    have := derived_descending mapOrder2 hperm2 cfg vps rk
    rw [List.Sorted, List.pairwise_map]
    exact this
  exact List.eq_of_perm_of_sorted hp2 s2 s1

/-- With a cap of one validator, which of two validators with equal voting
power is active depends on the order in which the map yields them. -/
theorem tie_order_decides_active :
    (deriveValidatorSet id ⟨0, 0, 1⟩ tieVotingPowers tieKeys).Validators.map
        (fun v => (v.Operator, v.IsActive)) = [(2, true), (1, false)] ∧
      (deriveValidatorSet List.reverse ⟨0, 0, 1⟩ tieVotingPowers tieKeys).Validators.map
        (fun v => (v.Operator, v.IsActive)) = [(1, true), (2, false)] := by
  constructor <;> decide

/-- C17, amended: the validators list GetValidatorSet returns is ordered by
summed (pre-clipping) voting power descending. Of two runs on the same adapter
outputs that differ in the order in which the map yields the validators, the
second returns the same sequence of summed voting powers down the list, and
the same validators up to their order and their active flags: operator, voting
power, keys and vaults of the returned validators are a permutation of those of
the first run. -/
theorem C17_descending_by_power (ethClient : IEthClient)
    (mapOrder mapOrder2 : List Validator → List Validator) (timestamp : Option Nat)
    (vs vs2 : ValidatorSet)
    (hperm : ∀ l, (mapOrder l).Perm l) (hperm2 : ∀ l, (mapOrder2 l).Perm l)
    (h : GetValidatorSet ethClient mapOrder timestamp = Except.ok vs)
    (h2 : GetValidatorSet ethClient mapOrder2 timestamp = Except.ok vs2) :
    (vs.Validators.Pairwise fun a b => vaultSum a ≥ vaultSum b) ∧
      vs2.Validators.map vaultSum = vs.Validators.map vaultSum ∧
      (vs2.Validators.map fun v => (v.Operator, v.VotingPower, v.Keys, v.Vaults)).Perm
        (vs.Validators.map fun v => (v.Operator, v.VotingPower, v.Keys, v.Vaults)) := by
  obtain ⟨t, mc, cfg, vps, rk, ht, hmc, hcfg, hvp, hrk, e⟩ := GetValidatorSet_ok _ _ _ _ h
  obtain ⟨t2, mc2, cfg2, vps2, rk2, ht2, hmc2, hcfg2, hvp2, hrk2, e2⟩ :=
    GetValidatorSet_ok _ _ _ _ h2
  have et : t2 = t := Except.ok.inj (ht2.symm.trans ht)
  subst et
  have em : mc2 = mc := Except.ok.inj (hmc2.symm.trans hmc)
  subst em
  have ec : cfg2 = cfg := Except.ok.inj (hcfg2.symm.trans hcfg)
  subst ec
  have ev : vps2 = vps := Except.ok.inj (hvp2.symm.trans hvp)
  subst ev
  have er : rk2 = rk := Except.ok.inj (hrk2.symm.trans hrk)
  subst er
  subst e
  subst e2
  exact ⟨derived_descending mapOrder hperm cfg2 vps2 rk2,
    derived_powers_eq mapOrder mapOrder2 hperm hperm2 cfg2 vps2 rk2,
    derived_data_perm mapOrder mapOrder2 hperm hperm2 cfg2 vps2 rk2⟩

/-- Witness of C17 (amended): the two tied operators under the two map orders,
and the descending order of the sample operators. -/
theorem C17_witness :
    ((deriveValidatorSet id ⟨0, 0, 1⟩ tieVotingPowers tieKeys).Validators.Pairwise
        fun a b => vaultSum a ≥ vaultSum b) ∧
      (deriveValidatorSet List.reverse ⟨0, 0, 1⟩ tieVotingPowers tieKeys).Validators.map vaultSum
        = (deriveValidatorSet id ⟨0, 0, 1⟩ tieVotingPowers tieKeys).Validators.map vaultSum ∧
      ((deriveValidatorSet List.reverse ⟨0, 0, 1⟩ tieVotingPowers tieKeys).Validators.map
          fun v => (v.Operator, v.VotingPower, v.Keys, v.Vaults)).Perm
        ((deriveValidatorSet id ⟨0, 0, 1⟩ tieVotingPowers tieKeys).Validators.map
          fun v => (v.Operator, v.VotingPower, v.Keys, v.Vaults)) :=
  C17_descending_by_power (constClient ⟨0, 0, 1⟩ tieVotingPowers tieKeys) id List.reverse none
    (deriveValidatorSet id ⟨0, 0, 1⟩ tieVotingPowers tieKeys)
    (deriveValidatorSet List.reverse ⟨0, 0, 1⟩ tieVotingPowers tieKeys)
    (fun _ => List.Perm.refl _) (fun l => List.reverse_perm l) rfl rfl

/-- C18: GetValidatorSet returns exactly one validator per distinct operator
address occurring in the lists of the voting-power providers (so none for an
operator that occurs only in the required keys); the validator's vaults are all
vault entries reported for the operator across all providers and occurrences,
and its voting power before clipping is their sum: the returned value is that
sum put through the clip. -/
theorem C18_one_validator_per_operator (ethClient : IEthClient)
    (mapOrder : List Validator → List Validator) (timestamp : Option Nat) (t : Nat)
    (masterConfig : MasterConfig) (cfg : ValSetConfig)
    (reported : CrossChainAddress → List OperatorVotingPower) (vs : ValidatorSet)
    (hperm : ∀ l, (mapOrder l).Perm l)
    (ht : resolveTimestamp ethClient timestamp = Except.ok t)
    (hmc : ethClient.GetMasterConfig t = Except.ok masterConfig)
    (hcfg : ethClient.GetValSetConfig t = Except.ok cfg)
    (hvp : ∀ p ∈ masterConfig.VotingPowerProviders,
      ethClient.GetVotingPowers p.Address t = Except.ok (reported p))
    (h : GetValidatorSet ethClient mapOrder timestamp = Except.ok vs) :
    (vs.Validators.map fun v => v.Operator).Nodup ∧
      (∀ o, o ∈ vs.Validators.map (fun v => v.Operator) ↔
        o ∈ (masterConfig.VotingPowerProviders.map reported).flatten.map
          fun vp => vp.Operator) ∧
      ∀ v ∈ vs.Validators,
        v.Vaults =
            reportedVaults (masterConfig.VotingPowerProviders.map reported).flatten v.Operator ∧
          v.VotingPower =
            if Int64 cfg.MaxVotingPower ≠ 0 ∧ vaultSum v > cfg.MaxVotingPower then
              cfg.MaxVotingPower
            else vaultSum v := by
  obtain ⟨t2, mc, cfg2, vps, rk, ht2, hmc2, hcfg2, hvp2, -, e⟩ := GetValidatorSet_ok _ _ _ _ h
  have et : t2 = t := Except.ok.inj (ht2.symm.trans ht)
  subst et
  have ec : cfg2 = cfg := Except.ok.inj (hcfg2.symm.trans hcfg)
  subst ec
  have em : mc = masterConfig := Except.ok.inj (hmc2.symm.trans hmc)
  subst em
  have ev : vps = (mc.VotingPowerProviders.map reported).flatten := by
    have := collectVotingPowers_ok ethClient t2 reported mc.VotingPowerProviders [] hvp
    rw [List.nil_append] at this
    exact Except.ok.inj (hvp2.symm.trans this)
  subst ev
  subst e
  obtain ⟨s1, s2, s3, -⟩ :=
    sortedValidators_spec mapOrder hperm (mc.VotingPowerProviders.map reported).flatten rk
  have hOp := derived_map mapOrder cfg2 (mc.VotingPowerProviders.map reported).flatten rk
    (fun c => c.1)
  have hOp2 : (deriveValidatorSet mapOrder cfg2
        (mc.VotingPowerProviders.map reported).flatten rk).Validators.map (fun v => v.Operator)
      = (sortedValidators mapOrder (mc.VotingPowerProviders.map reported).flatten rk).map
        fun v => v.Operator := hOp
  refine ⟨by rw [hOp2]; exact s1, fun o => by rw [hOp2]; exact s2 o, ?_⟩
  intro v hv
  obtain ⟨u, hu, eO, -, eV, eP⟩ := derived_mem mapOrder cfg2 _ rk v hv
  obtain ⟨p1, p2, -⟩ := s3 u hu
  have hsum : vaultSum v = u.VotingPower := by
    rw [p2]; unfold vaultSum; rw [eV]
  refine ⟨by rw [eV, eO, p1], ?_⟩
  rw [hsum, eP]

/-- Witness of C18: one provider reporting operators 7, 8, 9 and 8 again, and
required keys that also name an operator 6. -/
theorem C18_witness :
    ((deriveValidatorSet id ⟨50, 0, 0⟩ sampleVotingPowers sampleKeys).Validators.map
        fun v => v.Operator).Nodup ∧
      (∀ o, o ∈ (deriveValidatorSet id ⟨50, 0, 0⟩ sampleVotingPowers sampleKeys).Validators.map
          (fun v => v.Operator) ↔
        o ∈ (([⟨1, 1⟩] : List CrossChainAddress).map
          fun _ => sampleVotingPowers).flatten.map fun vp => vp.Operator) ∧
      ∀ v ∈ (deriveValidatorSet id ⟨50, 0, 0⟩ sampleVotingPowers sampleKeys).Validators,
        v.Vaults =
            reportedVaults
              (([⟨1, 1⟩] : List CrossChainAddress).map fun _ => sampleVotingPowers).flatten
              v.Operator ∧
          v.VotingPower =
            if Int64 50 ≠ 0 ∧ vaultSum v > 50 then 50 else vaultSum v :=
  C18_one_validator_per_operator (constClient ⟨50, 0, 0⟩ sampleVotingPowers sampleKeys) id none 0
    { VotingPowerProviders := [⟨1, 1⟩], KeysProvider := ⟨2, 1⟩, Replicas := [] } ⟨50, 0, 0⟩
    (fun _ => sampleVotingPowers)
    (deriveValidatorSet id ⟨50, 0, 0⟩ sampleVotingPowers sampleKeys)
    (fun _ => List.Perm.refl _) rfl rfl rfl (fun _ _ => rfl) rfl

/-! ## Slices -/

theorem slice_mid (pre mid post : List Nat) (lo hi : Nat) (hlo : lo = pre.length)
    (hhi : hi = pre.length + mid.length) : slice (pre ++ mid ++ post) lo hi = mid := by
  subst hlo hhi
  unfold slice
  have h : (pre ++ mid).length = pre.length + mid.length := List.length_append _ _
  rw [List.take_left' h, List.drop_left]

theorem slice_length (b : List Nat) (lo hi : Nat) (h : hi ≤ b.length) :
    (slice b lo hi).length = hi - lo := by
  unfold slice
  rw [List.length_drop, List.length_take, Nat.min_eq_left h]

theorem slice_append_slice (b : List Nat) (lo mid hi : Nat) (h1 : lo ≤ mid) (h2 : mid ≤ hi)
    (h3 : hi ≤ b.length) : slice b lo mid ++ slice b mid hi = slice b lo hi := by
  unfold slice
  have hc : (b.take hi).length = hi := by rw [List.length_take, Nat.min_eq_left h3]
  have ht : b.take mid = (b.take hi).take mid := by
    rw [List.take_take, Nat.min_eq_left h2]
  rw [ht]
  generalize b.take hi = c at hc
  have hl : lo ≤ (c.take mid).length := by
    rw [List.length_take, hc, Nat.min_eq_left h2]; exact h1
  conv_rhs => rw [← List.take_append_drop mid c]
  rw [List.drop_append_of_le_length hl]

theorem goSlice_of_le (b : List Nat) (lo hi : Nat) (h1 : lo ≤ hi) (h2 : hi ≤ b.length) :
    goSlice b lo hi = some (slice b lo hi) := by
  unfold goSlice
  rw [if_pos ⟨h1, h2⟩]

theorem goSlice_of_short (b : List Nat) (lo hi : Nat) (h : b.length < hi) :
    goSlice b lo hi = none := by
  unfold goSlice
  rw [if_neg]
  omega

/-! ## Marshal, Prove and Verify -/

/-- C24: for a 256-byte proof, 64-byte commitments, a 64-byte commitment_pok
and a voting power below 2^256, Marshal returns 416 bytes: the proof, the
commitments, the commitment_pok and the voting power as a zero-padded 32-byte
big-endian integer, at the offsets 0, 256, 320 and 384. -/
theorem C24_Marshal_layout (p : ProofData) (h1 : p.Proof.length = 256)
    (h2 : p.Commitments.length = 64) (h3 : p.CommitmentPok.length = 64)
    (h4 : p.SignersAggVotingPower < 2 ^ 256) :
    ∃ out, p.Marshal = some out ∧ out.length = 416 ∧
      slice out 0 256 = p.Proof ∧ slice out 256 320 = p.Commitments ∧
      slice out 320 384 = p.CommitmentPok ∧
      slice out 384 416 = toBytesBE 32 p.SignersAggVotingPower ∧
      SetBytes (slice out 384 416) = p.SignersAggVotingPower := by
  have h256 : p.SignersAggVotingPower < 256 ^ 32 := by norm_num at h4 ⊢; exact h4
  refine ⟨p.Proof ++ p.Commitments ++ p.CommitmentPok ++ toBytesBE 32 p.SignersAggVotingPower,
    ?_, ?_, ?_, ?_, ?_, ?_, ?_⟩
  · simp only [ProofData.Marshal, FillBytes_of_lt _ _ h256]
  · simp only [List.length_append, h1, h2, h3, toBytesBE_length]
  · have := slice_mid [] p.Proof
      (p.Commitments ++ p.CommitmentPok ++ toBytesBE 32 p.SignersAggVotingPower) 0 256
      rfl (by simp [h1])
    simpa [List.append_assoc] using this
  · have := slice_mid p.Proof p.Commitments
      (p.CommitmentPok ++ toBytesBE 32 p.SignersAggVotingPower) 256 320
      h1.symm (by rw [h1, h2])
    simpa [List.append_assoc] using this
  · have := slice_mid (p.Proof ++ p.Commitments) p.CommitmentPok
      (toBytesBE 32 p.SignersAggVotingPower) 320 384
      (by rw [List.length_append, h1, h2]) (by rw [List.length_append, h1, h2, h3])
    simpa [List.append_assoc] using this
  · have := slice_mid (p.Proof ++ p.Commitments ++ p.CommitmentPok)
      (toBytesBE 32 p.SignersAggVotingPower) [] 384 416
      (by simp only [List.length_append, h1, h2, h3])
      (by simp only [List.length_append, h1, h2, h3, toBytesBE_length])
    simpa [List.append_assoc] using this
  · have := slice_mid (p.Proof ++ p.Commitments ++ p.CommitmentPok)
      (toBytesBE 32 p.SignersAggVotingPower) [] 384 416
      (by simp only [List.length_append, h1, h2, h3])
      (by simp only [List.length_append, h1, h2, h3, toBytesBE_length])
    rw [List.append_nil] at this
    rw [this, SetBytes_toBytesBE, Nat.mod_eq_of_lt h256]

/-- Witness of C24: an all-zero proof with the voting power 700. -/
theorem C24_witness :
    ∃ out,
      ProofData.Marshal ⟨List.replicate 256 0, List.replicate 64 0, List.replicate 64 0, 700⟩
        = some out ∧
      out.length = 416 ∧
      slice out 0 256 = List.replicate 256 0 ∧ slice out 256 320 = List.replicate 64 0 ∧
      slice out 320 384 = List.replicate 64 0 ∧
      slice out 384 416 = toBytesBE 32 700 ∧
      SetBytes (slice out 384 416) = 700 :=
  C24_Marshal_layout ⟨List.replicate 256 0, List.replicate 64 0, List.replicate 64 0, 700⟩
    (List.length_replicate _ _) (List.length_replicate _ _) (List.length_replicate _ _)
    (by norm_num)

/-- C25: for raw proof bytes of at least 388 bytes with the marker
`00 00 00 01` at bytes 256 to 259 and a voting power below 2^256, the bytes
Verify rebuilds from the Marshal of the ProofData that Prove cuts out of the
raw bytes are the first 388 raw bytes again. -/
theorem C25_rebuild_raw_proof (raw : List Nat) (vp : Nat) (hlen : 388 ≤ raw.length)
    (hmark : slice raw 256 260 = [0, 0, 0, 1]) (hvp : vp < 2 ^ 256) :
    ∃ pd m, proofDataOfRaw raw vp = some pd ∧
      pd = ⟨slice raw 0 256, slice raw 260 324, slice raw 324 388, vp⟩ ∧
      pd.Marshal = some m ∧ rawProofBytes m = some (slice raw 0 388) := by
  have l1 : (slice raw 0 256).length = 256 := slice_length raw 0 256 (by omega)
  have l2 : (slice raw 260 324).length = 64 := slice_length raw 260 324 (by omega)
  have l3 : (slice raw 324 388).length = 64 := slice_length raw 324 388 (by omega)
  obtain ⟨m, hm, hmlen, s1, s2, s3, -, -⟩ :=
    C24_Marshal_layout ⟨slice raw 0 256, slice raw 260 324, slice raw 324 388, vp⟩ l1 l2 l3 hvp
  refine ⟨_, m, ?_, rfl, hm, ?_⟩
  · unfold proofDataOfRaw
    rw [goSlice_of_le raw 0 256 (by omega) (by omega),
      goSlice_of_le raw 260 324 (by omega) (by omega),
      goSlice_of_le raw 324 388 (by omega) (by omega)]
  · unfold rawProofBytes
    rw [goSlice_of_le m 0 256 (by omega) (by omega),
      goSlice_of_le m 256 384 (by omega) (by omega)]
    dsimp only
    rw [← slice_append_slice m 256 320 384 (by omega) (by omega) (by omega), s1, s2, s3]
    dsimp only
    rw [← hmark, slice_append_slice raw 0 256 260 (by omega) (by omega) (by omega),
      slice_append_slice raw 260 324 388 (by omega) (by omega) (by omega),
      slice_append_slice raw 0 260 388 (by omega) (by omega) (by omega)]

/-- Witness of C25: 256 zero bytes, the marker and 128 zero bytes. -/
theorem C25_witness :
    ∃ pd m,
      proofDataOfRaw (List.replicate 256 0 ++ [0, 0, 0, 1] ++ List.replicate 128 0) 700
        = some pd ∧
      pd = ⟨slice (List.replicate 256 0 ++ [0, 0, 0, 1] ++ List.replicate 128 0) 0 256,
        slice (List.replicate 256 0 ++ [0, 0, 0, 1] ++ List.replicate 128 0) 260 324,
        slice (List.replicate 256 0 ++ [0, 0, 0, 1] ++ List.replicate 128 0) 324 388, 700⟩ ∧
      pd.Marshal = some m ∧
      rawProofBytes m
        = some (slice (List.replicate 256 0 ++ [0, 0, 0, 1] ++ List.replicate 128 0) 0 388) :=
  C25_rebuild_raw_proof (List.replicate 256 0 ++ [0, 0, 0, 1] ++ List.replicate 128 0) 700
    (by
      rw [List.length_append, List.length_append, List.length_replicate,
        List.length_replicate]
      decide)
    (slice_mid (List.replicate 256 0) [0, 0, 0, 1] (List.replicate 128 0) 256 260
      (List.length_replicate _ _).symm (by rw [List.length_replicate]; rfl))
    (by norm_num)

/-- C26 fails on the code: the slice `proofBytes[:256]` is taken without a
length check, so Verify panics on the empty proof and on a proof of 383
bytes instead of reporting a rejection, whatever the backend, the prover, the
valset length and the input hash. -/
theorem C26_Verify_panics_on_short_proof {CS PK VK Proof : Type}
    (G : Groth16 CS PK VK Proof) (p : ZkProver CS PK VK) (valsetLen : Nat)
    (publicInputHash : List Nat) :
    ZkProver.Verify G p valsetLen publicInputHash [] = none ∧
      ZkProver.Verify G p valsetLen publicInputHash (List.replicate 383 0) = none := by
  constructor
  · unfold ZkProver.Verify rawProofBytes
    rw [goSlice_of_short [] 0 256 (by decide)]
  · unfold ZkProver.Verify rawProofBytes
    rw [goSlice_of_le _ 0 256 (by omega) (by rw [List.length_replicate]; omega),
      goSlice_of_short (List.replicate 383 0) 256 384 (by rw [List.length_replicate]; omega)]

/-- C23 fails as stated: with MaxValidators = [10] an input of 7 entries is
rejected by Prove with the error of the failed artifact lookup. -/
theorem C23_counterexample :
    ∃ p, NewZkProver unitLoader = some p ∧
      ZkProver.Prove bytesBackend (fun _ => []) (fun _ _ => 0) p
          ⟨List.replicate 7 fillerValidator, g1Gen, g1Gen, g2Gen⟩
        = some (Except.error "failed to load cs, vk, pk for valset size: 7") :=
  ⟨_, rfl, rfl⟩

/-- C23, amended: a prover built by NewZkProver holds artifacts for the
capacities in MaxValidators only; Prove looks them up under the exact number M
of entries of its input: for M in MaxValidators it works with the artifacts
loaded for M, and for every other M it returns the error of the failed lookup.
(Padding an input to a capacity is the work of NormalizeValset.) -/
theorem C23_Prove_exact_capacity {CS PK VK Proof : Type}
    (loadOrInit : Nat → Except String (CS × PK × VK)) (p : ZkProver CS PK VK)
    (proveInput : ProveInput) (hp : NewZkProver loadOrInit = some p) :
    (proveInput.ValidatorData.length ∈ MaxValidators →
        ∃ cs pk vk, loadOrInit proveInput.ValidatorData.length = Except.ok (cs, pk, vk) ∧
          p.artifacts proveInput = Except.ok (cs, some pk, some vk)) ∧
      (proveInput.ValidatorData.length ∉ MaxValidators →
        ∀ (G : Groth16 CS PK VK Proof) (keccak : List Nat → List Nat) (enc : Nat → Nat → Nat),
          ZkProver.Prove G keccak enc p proveInput =
            some (Except.error ("failed to load cs, vk, pk for valset size: " ++
              toString proveInput.ValidatorData.length))) := by
  unfold NewZkProver MaxValidators at hp
  rw [ZkProver.init] at hp
  cases hl : loadOrInit 10 with
  | error e => rw [hl] at hp; cases hp
  | ok a =>
    obtain ⟨cs, pk, vk⟩ := a
    rw [hl] at hp
    simp only [ZkProver.init, mapSet, List.filter_nil, List.nil_append, Option.some.injEq] at hp
    subst hp
    constructor
    · intro hm
      have h10 : proveInput.ValidatorData.length = 10 := by
        simpa [MaxValidators] using hm
      refine ⟨cs, pk, vk, by rw [h10]; exact hl, ?_⟩
      simp [ZkProver.artifacts, mapGet, h10]
    · intro hm G keccak enc
      have h10 : ¬ proveInput.ValidatorData.length = 10 := by
        simpa [MaxValidators] using hm
      have h10b : ¬ 10 = proveInput.ValidatorData.length := fun h => h10 h.symm
      simp [ZkProver.Prove, ZkProver.artifacts, mapGet, h10b]

/-- Witness of C23 (amended): the prover of the unit loader and an input of
10 entries. -/
theorem C23_witness :
    ((List.replicate 10 fillerValidator).length ∈ MaxValidators →
        ∃ cs pk vk,
          unitLoader (List.replicate 10 fillerValidator).length = Except.ok (cs, pk, vk) ∧
          ZkProver.artifacts (⟨[(10, ())], [(10, ())], [(10, ())]⟩ : ZkProver Unit Unit Unit)
              ⟨List.replicate 10 fillerValidator, g1Gen, g1Gen, g2Gen⟩
            = Except.ok (cs, some pk, some vk)) ∧
      ((List.replicate 10 fillerValidator).length ∉ MaxValidators →
        ∀ (G : Groth16 Unit Unit Unit (List Nat)) (keccak : List Nat → List Nat)
          (enc : Nat → Nat → Nat),
          ZkProver.Prove G keccak enc (⟨[(10, ())], [(10, ())], [(10, ())]⟩ : ZkProver Unit Unit Unit)
              ⟨List.replicate 10 fillerValidator, g1Gen, g1Gen, g2Gen⟩ =
            some (Except.error ("failed to load cs, vk, pk for valset size: " ++
              toString (List.replicate 10 fillerValidator).length))) :=
  C23_Prove_exact_capacity unitLoader ⟨[(10, ())], [(10, ())], [(10, ())]⟩
    ⟨List.replicate 10 fillerValidator, g1Gen, g1Gen, g2Gen⟩ rfl

/-! ## Aggregation -/

theorem collectSigners_eq (codec : G1Codec) (m : List (List Nat × Validator))
    (sigs : List (List Nat)) :
    ∀ (pubKeys : List (List Nat)) (i : Nat) (signers : List Validator) (signature : G1Affine),
      i + pubKeys.length ≤ sigs.length →
      ∃ aggregate, collectSigners codec m pubKeys sigs i signers signature =
        some (signers ++ pubKeys.filterMap (lookupValidator m), aggregate) := by
  intro pubKeys
  induction pubKeys with
  | nil =>
    intro i signers signature _
    exact ⟨signature, by simp [collectSigners]⟩
  | cons pubKey rest ih =>
    intro i signers signature h
    rw [List.length_cons] at h
    rw [collectSigners]
    cases hl : lookupValidator m pubKey with
    | none =>
      obtain ⟨a, ha⟩ := ih (i + 1) signers signature (by omega)
      refine ⟨a, ?_⟩
      simp only [ha, List.filterMap_cons, hl]
    | some v =>
      have hi : i < sigs.length := by omega
      obtain ⟨a, ha⟩ := ih (i + 1) (signers ++ [v])
        (g1Add signature (DeserializeG1 codec sigs[i])) (by omega)
      refine ⟨a, ?_⟩
      simp only [List.getElem?_eq_getElem hi, ha, List.filterMap_cons, hl, List.append_assoc,
        List.singleton_append]

theorem count_filterMap_eq {α : Type} (f : α → Option Validator) (v : Validator)
    (l : List α) :
    (l.filterMap f).count v = (l.filter fun a => decide (f a = some v)).length := by
  induction l with
  | nil => rfl
  | cons a l ih =>
    cases h : f a with
    | none => simp [List.filterMap_cons, List.filter_cons, h, ih]
    | some w =>
      by_cases hw : w = v
      · subst hw
        simp [List.filterMap_cons, List.filter_cons, h, ih]
      · have hw2 : ¬ (w == v) = true := by simpa using hw
        simp [List.filterMap_cons, List.filter_cons, h, ih, hw, List.count_cons, hw2]

/-- C21 fails on the code: three active validators hold a key with the
required tag 15 and the pool holds a signature under the key of operator 8
only; the validator data handed to the prover has the one entry of operator
8, no entry for the operators 7 and 9, and no entry marked as non-signer. -/
theorem C21_non_signers_left_out (codec : G1Codec) :
    ∃ vs st,
      GetValidatorSet (constClient ⟨0, 0, 0⟩ sampleVotingPowers sampleKeys) id (some 0)
        = Except.ok vs ∧
      vs.Validators.map (fun v => (v.Operator, v.IsActive, v.Keys.map fun k => k.Tag)) =
        [(8, true, [15]), (7, true, [15]), (9, true, [15])] ∧
      GetSignatures id poolOne [0] = ([[2]], [[9]]) ∧
      aggregationState codec vs.Validators 15 [[2]] [[9]] = some st ∧
      st.signers.map (fun v => v.Operator) = [8] ∧
      st.validatorsData =
        [{ Key := DeserializeG1 codec [2], VotingPower := 120, IsNonSigner := false }] :=
  ⟨_, _, rfl, by decide, by decide, rfl, rfl, rfl⟩

/-- C22 fails on the code: DeserializeG1 drops the error of SetBytes and the
validator is appended to the signers before the signature is decoded; with a
codec that rejects the signature bytes `[9]` operator 8 is in the signer set,
has its entry in the validator data, and the aggregate signature has the
receiver of the failed call added. -/
theorem C22_undecodable_signature_kept :
    ∃ vs st,
      GetValidatorSet (constClient ⟨0, 0, 0⟩ sampleVotingPowers sampleKeys) id (some 0)
        = Except.ok vs ∧
      (rejectingCodec.SetBytes [9]).2 = some "invalid point" ∧
      aggregationState rejectingCodec vs.Validators 15
          (GetSignatures id poolOne [0]).1 (GetSignatures id poolOne [0]).2 = some st ∧
      st.signers.map (fun v => v.Operator) = [8] ∧
      st.validatorsData.map (fun d => d.VotingPower) = [120] ∧
      st.signature = g1Add G1Affine.infinity (rejectingCodec.SetBytes [9]).1 :=
  ⟨_, _, rfl, rfl, rfl, rfl, rfl, rfl⟩

/-- C29 fails as stated: the pool holds two entries with the public key of
operator 8 and different signature bytes; operator 8 is in the signer list
twice and its voting power 120 is in the validator data twice. -/
theorem C29_counterexample :
    ∃ vs st,
      GetValidatorSet (constClient ⟨0, 0, 0⟩ sampleVotingPowers sampleKeys) id (some 0)
        = Except.ok vs ∧
      GetSignatures id poolTwice [0] = ([[2], [2]], [[9], [8]]) ∧
      aggregationState rejectingCodec vs.Validators 15 [[2], [2]] [[9], [8]] = some st ∧
      st.signers.map (fun v => v.Operator) = [8, 8] ∧
      st.validatorsData.map (fun d => d.VotingPower) = [120, 120] :=
  ⟨_, _, rfl, by decide, rfl, rfl, rfl⟩

/-- C29, amended: the signer list holds one occurrence of a validator for
every pool entry whose public key is registered to it (a key with the required
tag of an active validator), in pool order; so a validator appears as often as
the pool holds entries under its keys, and at most once when there is at most
one such entry. -/
theorem C29_signer_per_pool_entry (codec : G1Codec) (validators : List Validator)
    (requiredKeyTag : Nat) (pubKeys sigs : List (List Nat))
    (hlen : pubKeys.length ≤ sigs.length) :
    ∃ st, aggregationState codec validators requiredKeyTag pubKeys sigs = some st ∧
      st.signers =
        pubKeys.filterMap (lookupValidator (pubKeyToValidator validators requiredKeyTag)) ∧
      ∀ v, st.signers.count v =
        (pubKeys.filter fun pubKey =>
          decide (lookupValidator (pubKeyToValidator validators requiredKeyTag) pubKey
            = some v)).length := by
  obtain ⟨a, ha⟩ := collectSigners_eq codec (pubKeyToValidator validators requiredKeyTag) sigs
    pubKeys 0 [] G1Affine.infinity (by omega)
  refine ⟨⟨pubKeys.filterMap (lookupValidator (pubKeyToValidator validators requiredKeyTag)), a,
    ToValidatorsData codec
      (pubKeys.filterMap (lookupValidator (pubKeyToValidator validators requiredKeyTag)))
      requiredKeyTag⟩, ?_, rfl, ?_⟩
  · unfold aggregationState
    rw [ha]
    rfl
  · intro v
    exact count_filterMap_eq _ v pubKeys

/-- Witness of C29 (amended): the sample validators and the pool with one
entry under the key of operator 8. -/
theorem C29_witness :
    ∃ st,
      aggregationState rejectingCodec
          (deriveValidatorSet id ⟨0, 0, 0⟩ sampleVotingPowers sampleKeys).Validators 15
          [[2]] [[9]] = some st ∧
      st.signers =
        ([[2]] : List (List Nat)).filterMap
          (lookupValidator (pubKeyToValidator
            (deriveValidatorSet id ⟨0, 0, 0⟩ sampleVotingPowers sampleKeys).Validators 15)) ∧
      ∀ v, st.signers.count v =
        (([[2]] : List (List Nat)).filter fun pubKey =>
          decide (lookupValidator (pubKeyToValidator
            (deriveValidatorSet id ⟨0, 0, 0⟩ sampleVotingPowers sampleKeys).Validators 15) pubKey
            = some v)).length :=
  C29_signer_per_pool_entry rejectingCodec
    (deriveValidatorSet id ⟨0, 0, 0⟩ sampleVotingPowers sampleKeys).Validators 15 [[2]] [[9]]
    (by decide)

/-! ## The validator set header and the SSZ sizes -/

/-- C27 fails on the code: the slice of tags starts with the number of keys of
the first validator instead of being empty. For three active validators that
hold one key each, all with the required tag 15, the tags are `[1, 15]` and the
header has two aggregated keys: the first is aggregated for the value 1, which
is the tag of no key in the set, and is the zero point. -/
theorem C27_first_tag_is_key_count (codec : G1Codec) (sszHash : ValidatorSet → List Nat)
    (hashValset : List Offchain.ValidatorData → List Nat) :
    ∃ vs header,
      GetValidatorSet (constClient ⟨0, 0, 0⟩ sampleVotingPowers sampleKeys) id (some 0)
        = Except.ok vs ∧
      vs.Validators.map (fun v => (v.Operator, v.IsActive, v.Keys.map fun k => k.Tag)) =
        [(8, true, [15]), (7, true, [15]), (9, true, [15])] ∧
      vs.Validators.head?.map (fun first => headerTags first 15) = some [1, 15] ∧
      GenerateValidatorSetHeader (constClient ⟨0, 0, 0⟩ sampleVotingPowers sampleKeys) id codec
        sszHash hashValset = some (Except.ok header) ∧
      header.ActiveAggregatedKeys.length = 2 ∧
      header.ActiveAggregatedKeys.head? = some (0, 0) :=
  ⟨_, _, rfl, by decide, by decide, rfl, rfl, rfl⟩

/-- C28 fails on the code: when the providers report no operator the derived
validator set has no validators and GenerateValidatorSetHeader panics on the
index `Validators[0]`, for every valset config. -/
theorem C28_empty_set_panics (valSetConfig : ValSetConfig) (codec : G1Codec)
    (sszHash : ValidatorSet → List Nat)
    (hashValset : List Offchain.ValidatorData → List Nat) :
    (GetValidatorSet (constClient valSetConfig [] sampleKeys) id (some 0)).toOption.map
        (fun vs => vs.Validators) = some [] ∧
      GenerateValidatorSetHeader (constClient valSetConfig [] sampleKeys) id codec sszHash
        hashValset = none :=
  ⟨rfl, rfl⟩

/-- C30 fails on the code: the fixed size SizeSSZ returns for Key is 12 where
DefineSSZ declares 1 + 4 = 5 bytes, and for Validator it is 69 where DefineSSZ
declares 20 + 32 + 1 + 4 + 4 = 61 bytes; for Vault (52) and ValidatorSet (4) the
two agree. -/
theorem C30_fixed_sizes (key : Key) (vault : Vault) (validator : Validator)
    (valSet : ValidatorSet) :
    (key.SizeSSZ true = 12 ∧ declaredFixedBytes Key.DefineSSZ = 5) ∧
      (validator.SizeSSZ true = 69 ∧ declaredFixedBytes Validator.DefineSSZ = 61) ∧
      (vault.SizeSSZ = 52 ∧ declaredFixedBytes Vault.DefineSSZ = 52) ∧
      (valSet.SizeSSZ true = 4 ∧ declaredFixedBytes ValidatorSet.DefineSSZ = 4) :=
  ⟨⟨rfl, rfl⟩, ⟨rfl, rfl⟩, ⟨rfl, rfl⟩, ⟨rfl, rfl⟩⟩

end Relay
